import Mathlib

/-! # MIPT-JIT-Compiler: the expression parser and ARM emitter of `compiler.cpp`

A shallow embedding of `class Parser` and of `jit_compile_expression_to_arm`.

* Bytes of the expression text (`char`) are natural numbers below 256; the text
  `expression_` is a list of bytes and `expression_[i]` is `readAt`: the byte at `i`,
  and a zero byte at and past the end of the text (the terminator of `std::string`).
* Instruction words (`uint32_t`) are natural numbers below `2 ^ 32`; the vector `out_` is a list.
* `int` values are integers; `toUInt32` is their 32-bit pattern.
* `extern_values_` (`std::map<std::string, int>`) is a partial function from names to `int`
  values; `.at(name)` throwing is `ParseError.lookup_failure`, `std::stoi` throwing is
  `ParseError.literal_out_of_range`.
* Whether `char` is signed decides the test `symbol == EOF`; it is the parameter `char_signed`.
* The mutually recursive `Parse`, `ParseProduct`, `ParseToken`, `ParseFunction` take a recursion
  budget as their first argument; `GetInstructionsBuffer` supplies a budget computed from the
  length of the text.

Well-formed expressions are the values of `Expr` (the grammar) that satisfy `Expr.wf`, and
`Expr.text` is their text. `Machine`, `step` and `run` model the ARM subset of the emitted
words, and `Expr.eval` is a reference interpreter. `ParseEvents` and the event functions next to
it list what a run of the parser does with the cursor, statement by statement: the reads of the
text, `index_++`, `index_--` and the returns of the members.
-/

namespace JIT

/-! ## Instruction words -/

namespace AssemblerInstructions

def PushR4LR : Nat := 0xe92d4010
def PopR4LR : Nat := 0xe8bd4010
def BxLR : Nat := 0xe12fff1e

def AddR0R1 : Nat := 0xe0800001
def SubR0R1 : Nat := 0xe0400001
def MulR0R1 : Nat := 0xe0000190
def PushR0 : Nat := 0xe52d0004

def LdrR0FromR0 : Nat := 0xe5900000
def MovR4R0 : Nat := 0xe1a04000
def BlxR4 : Nat := 0xe12fff34
def PopR0 : Nat := 0xe49d0004
def PopR1 : Nat := 0xe49d1004
def PopR2 : Nat := 0xe49d2004
def PopR3 : Nat := 0xe49d3004

def MovwR0 : Nat := 0xe3000000
def MovtR0 : Nat := 0xe3400000

end AssemblerInstructions

open AssemblerInstructions

/-! ## Parser state -/

/-- How a compilation can stop without a result: `extern_values_.at(name)` throws
(`lookup_failure`), `std::stoi` throws (`literal_out_of_range`), or the recursion budget of the
model is used up (`budget_exhausted`). -/
inductive ParseError where
  | lookup_failure
  | literal_out_of_range
  | budget_exhausted
deriving DecidableEq, Repr

instance instDecidableEqExcept {ε α : Type} [DecidableEq ε] [DecidableEq α] :
    DecidableEq (Except ε α)
  | .ok a, .ok b =>
    if h : a = b then isTrue (by rw [h]) else isFalse (by intro h2; cases h2; exact h rfl)
  | .error a, .error b =>
    if h : a = b then isTrue (by rw [h]) else isFalse (by intro h2; cases h2; exact h rfl)
  | .ok _, .error _ => isFalse (by intro h; cases h)
  | .error _, .ok _ => isFalse (by intro h; cases h)

/-- The mutable members of `class Parser`: the cursor `index_` and the vector `out_`. -/
structure Parser where
  index_ : Nat
  out_ : List Nat
deriving DecidableEq, Repr

/-- The call `isdigit(symbol)` in the C locale. -/
def isdigit (c : Nat) : Bool := decide (48 ≤ c) && decide (c ≤ 57)

/-- The call `isalpha(symbol)` in the C locale. -/
def isalpha (c : Nat) : Bool :=
  (decide (65 ≤ c) && decide (c ≤ 90)) || (decide (97 ≤ c) && decide (c ≤ 122))

/-- The test `symbol == EOF`: `EOF` is `-1`, and a `char` equals it only where `char` is signed
and the byte is `0xFF`. -/
def isEOF (char_signed : Bool) (c : Nat) : Bool := char_signed && decide (c = 255)

/-- The read `expression_[i]`; at and past the end of the text it gives the zero byte. -/
def readAt (expression_ : List Nat) (i : Nat) : Nat := expression_.getD i 0

/-- The member `PushInstruction`: `out_.push_back(instruction)`. -/
def PushInstruction (p : Parser) (instruction : Nat) : Parser :=
  { p with out_ := p.out_ ++ [instruction] }

/-- The conversion of an `int` to `uint32_t`. -/
def toUInt32 (x : Int) : Nat := (x % 4294967296).toNat

/-- The member `MoveValueToR0(int x)`: the `movw`/`movt` pair. -/
def MoveValueToR0 (p : Parser) (x : Int) : Parser :=
  let lower_bytes : Nat := toUInt32 (x % 65536)
  let upper_bytes : Nat := toUInt32 (Int.shiftRight x 16)
  let first_instruction : Nat := MovwR0
  let first_instruction := first_instruction ||| (lower_bytes &&& ((1 <<< 12) - 1))
  let first_instruction :=
    first_instruction ||| (((lower_bytes &&& (((1 <<< 4) - 1) <<< 12)) <<< 4) % 4294967296)
  let second_instruction : Nat := MovtR0
  let second_instruction := second_instruction ||| (upper_bytes &&& ((1 <<< 12) - 1))
  let second_instruction :=
    second_instruction ||| (((upper_bytes &&& (((1 <<< 4) - 1) <<< 12)) <<< 4) % 4294967296)
  PushInstruction (PushInstruction p first_instruction) second_instruction

/-- The loops `while (isdigit(symbol)) { ... }` and `while (isalpha(symbol)) { ... }` of
`ParseToken`: append `symbol` to the string, read `expression_[index_]`, advance `index_`.
The first argument is the text from `index_` on; when it is empty the read gives the zero byte,
for which both `isdigit` and `isalpha` are false, so the loop stops there.
Returns `symbol`, `index_` and the string. -/
def scanLoop (pred : Nat → Bool) :
    List Nat → Nat → Nat → List Nat → Nat × Nat × List Nat
  | [], symbol, index, str =>
    if pred symbol then (0, index + 1, str ++ [symbol]) else (symbol, index, str)
  | c :: rest, symbol, index, str =>
    if pred symbol then scanLoop pred rest c (index + 1) (str ++ [symbol])
    else (symbol, index, str)

/-- The base-10 value of a run of digits. -/
def decimalValue (number_str : List Nat) : Nat :=
  number_str.foldl (fun acc d => 10 * acc + (d - 48)) 0

/-- The call `std::stoi(number_str)` on a run of digits: the value, or nothing when it
does not fit in `int` (the call throws `std::out_of_range`). -/
def stoi (number_str : List Nat) : Option Int :=
  if decimalValue number_str ≤ 2147483647 then some (decimalValue number_str : Int) else none

/-- The array `pop_instructions` of `ParseFunction`. -/
def pop_instructions : List Nat := [PopR0, PopR1, PopR2, PopR3]

/-- The loop `for (argument = 4; argument > 0; argument--)` of `ParseFunction`, started at
`argument`. -/
def popArguments (num_arguments : Nat) : Nat → Parser → Parser
  | 0, p => p
  | argument + 1, p =>
    popArguments num_arguments argument
      (if num_arguments ≥ argument + 1 then
        PushInstruction p (pop_instructions.getD argument 0)
      else p)

/-- The emission after a variable name: `MoveValueToR0(extern_values_.at(name))`, `ldr`, `push`. -/
def loadVariable (extern_values_ : List Nat → Option Int) (name : List Nat) (p : Parser) :
    Except ParseError Parser :=
  match extern_values_ name with
  | none => .error .lookup_failure
  | some address =>
    .ok (PushInstruction (PushInstruction (MoveValueToR0 p address) LdrR0FromR0) PushR0)

section ParserMembers

variable (char_signed : Bool) (expression_ : List Nat) (extern_values_ : List Nat → Option Int)

mutual

/-- The member `Parse`. -/
def Parse : Nat → Parser → Except ParseError Parser
  | 0, _ => .error .budget_exhausted
  | budget + 1, p =>
    match ParseProduct budget p with
    | .error e => .error e
    | .ok p => ParseLoop budget p

/-- The loop `while (true)` of `Parse`. -/
def ParseLoop : Nat → Parser → Except ParseError Parser
  | 0, _ => .error .budget_exhausted
  | budget + 1, p =>
    if p.index_ = expression_.length then .ok p
    else
      let symbol := readAt expression_ p.index_
      let p := { p with index_ := p.index_ + 1 }
      if symbol ≠ 43 ∧ symbol ≠ 45 then .ok { p with index_ := p.index_ - 1 }
      else
        match ParseProduct budget p with
        | .error e => .error e
        | .ok p =>
          let p := PushInstruction p PopR1
          let p := PushInstruction p PopR0
          let p :=
            if symbol = 43 then PushInstruction p AddR0R1
            else if symbol = 45 then PushInstruction p SubR0R1
            else p
          let p := PushInstruction p PushR0
          ParseLoop budget p

/-- The member `ParseProduct`. -/
def ParseProduct : Nat → Parser → Except ParseError Parser
  | 0, _ => .error .budget_exhausted
  | budget + 1, p =>
    match ParseToken budget p with
    | .error e => .error e
    | .ok p => ParseProductLoop budget p

/-- The loop `while (true)` of `ParseProduct`. -/
def ParseProductLoop : Nat → Parser → Except ParseError Parser
  | 0, _ => .error .budget_exhausted
  | budget + 1, p =>
    if p.index_ = expression_.length then .ok p
    else
      let symbol := readAt expression_ p.index_
      let p := { p with index_ := p.index_ + 1 }
      if symbol ≠ 42 then .ok { p with index_ := p.index_ - 1 }
      else
        match ParseToken budget p with
        | .error e => .error e
        | .ok p =>
          let p := PushInstruction p PopR1
          let p := PushInstruction p PopR0
          let p := PushInstruction p MulR0R1
          let p := PushInstruction p PushR0
          ParseProductLoop budget p

/-- The member `ParseToken`. -/
def ParseToken : Nat → Parser → Except ParseError Parser
  | 0, _ => .error .budget_exhausted
  | budget + 1, p =>
    if p.index_ = expression_.length then .ok p
    else
      let symbol := readAt expression_ p.index_
      let p := { p with index_ := p.index_ + 1 }
      if symbol = 45 then
        match ParseToken budget p with
        | .error e => .error e
        | .ok p =>
          let p := MoveValueToR0 p (-1)
          let p := PushInstruction p PushR0
          let p := PushInstruction p PopR1
          let p := PushInstruction p PopR0
          let p := PushInstruction p MulR0R1
          let p := PushInstruction p PushR0
          .ok p
      else if symbol = 40 then
        match Parse budget p with
        | .error e => .error e
        | .ok p => .ok { p with index_ := p.index_ + 1 }
      else if isdigit symbol then
        let scanned := scanLoop isdigit (expression_.drop p.index_) symbol p.index_ []
        let p := { p with index_ := scanned.2.1 - 1 }
        match stoi scanned.2.2 with
        | none => .error .literal_out_of_range
        | some value => .ok (PushInstruction (MoveValueToR0 p value) PushR0)
      else
        let scanned := scanLoop isalpha (expression_.drop p.index_) symbol p.index_ []
        let symbol := scanned.1
        let p := { p with index_ := scanned.2.1 }
        let name := scanned.2.2
        if isEOF char_signed symbol then loadVariable extern_values_ name p
        else if symbol ≠ 40 then
          loadVariable extern_values_ name { p with index_ := p.index_ - 1 }
        else ParseFunction budget name p

/-- The member `ParseFunction`. -/
def ParseFunction : Nat → List Nat → Parser → Except ParseError Parser
  | 0, _, _ => .error .budget_exhausted
  | budget + 1, name, p =>
    match ParseArguments budget p 0 with
    | .error e => .error e
    | .ok (p, num_arguments) =>
      match extern_values_ name with
      | none => .error .lookup_failure
      | some address =>
        let p := MoveValueToR0 p address
        let p := PushInstruction p MovR4R0
        let p := popArguments num_arguments 4 p
        let p := PushInstruction p BlxR4
        .ok (PushInstruction p PushR0)

/-- The loop `do { ... } while (symbol == ',')` of `ParseFunction`; the state carries
`num_arguments`. -/
def ParseArguments : Nat → Parser → Nat → Except ParseError (Parser × Nat)
  | 0, _, _ => .error .budget_exhausted
  | budget + 1, p, num_arguments =>
    let symbol := readAt expression_ p.index_
    let p := { p with index_ := p.index_ + 1 }
    if symbol = 41 then .ok (p, num_arguments)
    else
      let p := { p with index_ := p.index_ - 1 }
      match Parse budget p with
      | .error e => .error e
      | .ok p =>
        let symbol := readAt expression_ p.index_
        let p := { p with index_ := p.index_ + 1 }
        let num_arguments := num_arguments + 1
        if symbol = 44 then ParseArguments budget p num_arguments
        else .ok (p, num_arguments)

end

/-- The recursion budget that `GetInstructionsBuffer` gives `Parse`. -/
def parseBudget (expression : List Nat) : Nat := 4 * expression.length + 4

end ParserMembers

/-- The member `GetInstructionsBuffer`: prologue, `Parse`, epilogue. -/
def GetInstructionsBuffer (char_signed : Bool) (extern_values_ : List Nat → Option Int)
    (expression : List Nat) : Except ParseError (List Nat) :=
  let p : Parser := { index_ := 0, out_ := [] }
  let p := PushInstruction p PushR4LR
  match Parse char_signed expression extern_values_ (parseBudget expression) p with
  | .error e => .error e
  | .ok p =>
    let p := PushInstruction p PopR0
    let p := PushInstruction p PopR4LR
    let p := PushInstruction p BxLR
    .ok p.out_

/-- The bytes of an ASCII text. -/
def bytes (s : String) : List Nat := s.toList.map Char.toNat

/-! ## Well-formed expressions: the grammar of the expression language

```
expr    := product (('+'|'-') product)*
product := token  ('*' token)*
token   := '-' token | '(' expr ')' | digit+ | alpha+ | alpha+ '(' arglist? ')'
arglist := expr (',' expr)*
```
-/

mutual

/-- An `expr` of the grammar: a product and the operator-product pairs after it. -/
inductive Expr where
  | mk (first : Product) (rest : ExprRest)

/-- The part `(('+'|'-') product)*` of an `expr`; `minus` tells `-` from `+`. -/
inductive ExprRest where
  | nil
  | cons (minus : Bool) (p : Product) (rest : ExprRest)

/-- A `product` of the grammar: a token and the tokens multiplied onto it. -/
inductive Product where
  | mk (first : Token) (rest : ProductRest)

/-- The part `('*' token)*` of a `product`. -/
inductive ProductRest where
  | nil
  | cons (t : Token) (rest : ProductRest)

/-- A `token` of the grammar. -/
inductive Token where
  | neg (t : Token)
  | paren (e : Expr)
  | lit (digits : List Nat)
  | var (name : List Nat)
  | call (name : List Nat) (args : Arguments)

/-- An `arglist?` of the grammar. -/
inductive Arguments where
  | nil
  | cons (e : Expr) (rest : Arguments)

end

mutual

/-- The text of an `expr`. -/
def Expr.text : Expr → List Nat
  | .mk first rest => first.text ++ rest.text

/-- The text of the operator-product pairs. -/
def ExprRest.text : ExprRest → List Nat
  | .nil => []
  | .cons minus p rest => (if minus then 45 else 43) :: (p.text ++ rest.text)

/-- The text of a `product`. -/
def Product.text : Product → List Nat
  | .mk first rest => first.text ++ rest.text

/-- The text of the multiplied tokens. -/
def ProductRest.text : ProductRest → List Nat
  | .nil => []
  | .cons t rest => 42 :: (t.text ++ rest.text)

/-- The text of a `token`. -/
def Token.text : Token → List Nat
  | .neg t => 45 :: t.text
  | .paren e => 40 :: (e.text ++ [41])
  | .lit digits => digits
  | .var name => name
  | .call name args => name ++ 40 :: (args.text ++ [41])

/-- The text of an argument list: the arguments separated by commas. -/
def Arguments.text : Arguments → List Nat
  | .nil => []
  | .cons e .nil => e.text
  | .cons e (.cons e2 rest) => e.text ++ 44 :: (Arguments.cons e2 rest).text

end

mutual

/-- Well-formedness of an `expr`: digit runs are non-empty runs of digits, names are non-empty
runs of letters. -/
def Expr.wf : Expr → Bool
  | .mk first rest => first.wf && rest.wf

/-- Well-formedness of the operator-product pairs. -/
def ExprRest.wf : ExprRest → Bool
  | .nil => true
  | .cons _ p rest => p.wf && rest.wf

/-- Well-formedness of a `product`. -/
def Product.wf : Product → Bool
  | .mk first rest => first.wf && rest.wf

/-- Well-formedness of the multiplied tokens. -/
def ProductRest.wf : ProductRest → Bool
  | .nil => true
  | .cons t rest => t.wf && rest.wf

/-- Well-formedness of a `token`. -/
def Token.wf : Token → Bool
  | .neg t => t.wf
  | .paren e => e.wf
  | .lit digits => !digits.isEmpty && digits.all isdigit
  | .var name => !name.isEmpty && name.all isalpha
  | .call name args => !name.isEmpty && name.all isalpha && args.wf

/-- Well-formedness of an argument list. -/
def Arguments.wf : Arguments → Bool
  | .nil => true
  | .cons e rest => e.wf && rest.wf

end

/-- The number of arguments of an argument list. -/
def Arguments.length : Arguments → Nat
  | .nil => 0
  | .cons _ rest => rest.length + 1

/-- The two words that `MoveValueToR0 x` appends. -/
def moveWords (x : Int) : List Nat := (MoveValueToR0 { index_ := 0, out_ := [] } x).out_

/-- The words that the loop over `pop_instructions` appends for `num_arguments` arguments. -/
def popWords (num_arguments : Nat) : List Nat :=
  (popArguments num_arguments 4 { index_ := 0, out_ := [] }).out_

/-- The four words of a binary operation: `pop r1; pop r0; op; push r0`. -/
def binaryWords (op : Nat) : List Nat := [PopR1, PopR0, op, PushR0]

/-- The words after the operand of a unary minus. -/
def negWords : List Nat := moveWords (-1) ++ [PushR0, PopR1, PopR0, MulR0R1, PushR0]

section Lowering

variable (extern_values_ : List Nat → Option Int)

mutual

/-- The words expected for an `expr`, or the first failure in source order. -/
def Expr.words : Expr → Except ParseError (List Nat)
  | .mk first rest =>
    match first.words with
    | .error e => .error e
    | .ok ws =>
      match rest.words with
      | .error e => .error e
      | .ok ws2 => .ok (ws ++ ws2)

/-- The words expected for the operator-product pairs. -/
def ExprRest.words : ExprRest → Except ParseError (List Nat)
  | .nil => .ok []
  | .cons minus p rest =>
    match p.words with
    | .error e => .error e
    | .ok ws =>
      match rest.words with
      | .error e => .error e
      | .ok ws2 => .ok (ws ++ binaryWords (if minus then SubR0R1 else AddR0R1) ++ ws2)

/-- The words expected for a `product`. -/
def Product.words : Product → Except ParseError (List Nat)
  | .mk first rest =>
    match first.words with
    | .error e => .error e
    | .ok ws =>
      match rest.words with
      | .error e => .error e
      | .ok ws2 => .ok (ws ++ ws2)

/-- The words expected for the multiplied tokens. -/
def ProductRest.words : ProductRest → Except ParseError (List Nat)
  | .nil => .ok []
  | .cons t rest =>
    match t.words with
    | .error e => .error e
    | .ok ws =>
      match rest.words with
      | .error e => .error e
      | .ok ws2 => .ok (ws ++ binaryWords MulR0R1 ++ ws2)

/-- The words expected for a `token`. -/
def Token.words : Token → Except ParseError (List Nat)
  | .neg t =>
    match t.words with
    | .error e => .error e
    | .ok ws => .ok (ws ++ negWords)
  | .paren e => e.words
  | .lit digits =>
    match stoi digits with
    | none => .error .literal_out_of_range
    | some value => .ok (moveWords value ++ [PushR0])
  | .var name =>
    match extern_values_ name with
    | none => .error .lookup_failure
    | some address => .ok (moveWords address ++ [LdrR0FromR0, PushR0])
  | .call name args =>
    match args.words with
    | .error e => .error e
    | .ok ws =>
      match extern_values_ name with
      | none => .error .lookup_failure
      | some address =>
        .ok (ws ++ (moveWords address ++ MovR4R0 :: (popWords args.length ++ [BlxR4, PushR0])))

/-- The words expected for an argument list. -/
def Arguments.words : Arguments → Except ParseError (List Nat)
  | .nil => .ok []
  | .cons e rest =>
    match e.words with
    | .error e => .error e
    | .ok ws =>
      match rest.words with
      | .error e => .error e
      | .ok ws2 => .ok (ws ++ ws2)

end

end Lowering

/-- The follow bytes after which a token scan stops: not a digit, not a letter, not `(`,
not the byte that compares equal to `EOF`. -/
def stopsToken (c : Nat) : Bool :=
  !isdigit c && !isalpha c && decide (c ≠ 40) && decide (c ≠ 255)

/-- The follow bytes of a product: a token stop other than `*`. -/
def stopsProduct (c : Nat) : Bool := stopsToken c && decide (c ≠ 42)

/-- The follow bytes of an expression: a product stop other than `+` and `-`. -/
def stopsExpr (c : Nat) : Bool := stopsProduct c && decide (c ≠ 43) && decide (c ≠ 45)

/-- What a parser member returns after emitting `ws` over `n` bytes of text, or the failure. -/
def advance (i : Nat) (out : List Nat) (n : Nat) :
    Except ParseError (List Nat) → Except ParseError Parser
  | .error e => .error e
  | .ok ws => .ok { index_ := i + n, out_ := out ++ ws }

/-- The bytes a token can start with: `-`, `(`, a digit or a letter. -/
def startsToken (c : Nat) : Bool :=
  decide (c = 45) || decide (c = 40) || isdigit c || isalpha c

/-- The word that `MoveValueToR0` builds from a base word and a 16-bit half `v`:
`base | (v & 0x0FFF) | ((v & 0xF000) << 4)`. -/
def encodeImm16 (base v : Nat) : Nat :=
  base ||| (v &&& ((1 <<< 12) - 1)) ||| (((v &&& (((1 <<< 4) - 1) <<< 12)) <<< 4) % 4294967296)

/-- The ARM decoding of the 16-bit immediate of a `movw`/`movt` word:
`imm12` in bits [11:0] and `imm4` in bits [19:16]. -/
def imm16 (w : Nat) : Nat := (w &&& 0xFFF) ||| ((w >>> 4) &&& 0xF000)

/-! ## The compile entry point -/

/-- The record `symbol_t`: `name` is a null pointer (`none`) or a C string, `pointer` is a
32-bit address and `0` is the null pointer. -/
structure symbol_t where
  name : Option (List Nat)
  pointer : Nat
deriving DecidableEq, Repr

/-- The cast `reinterpret_cast<int>(pointer)` of a 32-bit address. -/
def toInt32 (pointer : Nat) : Int :=
  if pointer % 4294967296 < 2147483648 then ((pointer % 4294967296 : Nat) : Int)
  else ((pointer % 4294967296 : Nat) : Int) - 4294967296

/-- The first loop of `jit_compile_expression_to_arm`: the bytes of the C string `expression`
before its terminator, without the spaces. -/
def formatExpression (expression : List Nat) : List Nat :=
  (expression.takeWhile (fun c => decide (c ≠ 0))).filter (fun c => decide (c ≠ 32))

/-- The second loop of `jit_compile_expression_to_arm`, over the array `externs`:
`extern_values[std::string(name)] = reinterpret_cast<int>(pointer)` for each entry before the
first one whose `name` and `pointer` are both null. Reading past the end of the array and
building a `std::string` from a null `name` are undefined: `none`. -/
def buildExternValues :
    List symbol_t → (List Nat → Option Int) → Option (List Nat → Option Int)
  | [], _ => none
  | s :: rest, extern_values =>
    if s.name = none ∧ s.pointer = 0 then some extern_values
    else
      match s.name with
      | none => none
      | some name =>
        buildExternValues rest
          (fun key => if key = name then some (toInt32 s.pointer) else extern_values key)

/-- The function `jit_compile_expression_to_arm`: the words written to `out_buffer`, or the
failure of the parser; `none` where the behaviour of the symbol loop is undefined. -/
def jit_compile_expression_to_arm (char_signed : Bool) (expression : List Nat)
    (externs : List symbol_t) : Option (Except ParseError (List Nat)) :=
  let formatted_expression := formatExpression expression
  match buildExternValues externs (fun _ => none) with
  | none => none
  | some extern_values =>
    some (GetInstructionsBuffer char_signed extern_values formatted_expression)

/-! ## The words emitted for a text -/

/-- The words `Parse` appends when it runs on `text` from its start. -/
def wordsOfExpr (char_signed : Bool) (extern_values_ : List Nat → Option Int)
    (text : List Nat) : Except ParseError (List Nat) :=
  match Parse char_signed text extern_values_ (parseBudget text) { index_ := 0, out_ := [] } with
  | .error e => .error e
  | .ok p => .ok p.out_

/-- The words `ParseProduct` appends when it runs on `text` from its start. -/
def wordsOfProduct (char_signed : Bool) (extern_values_ : List Nat → Option Int)
    (text : List Nat) : Except ParseError (List Nat) :=
  match ParseProduct char_signed text extern_values_ (parseBudget text)
    { index_ := 0, out_ := [] } with
  | .error e => .error e
  | .ok p => .ok p.out_

/-- The words `ParseToken` appends when it runs on `text` from its start. -/
def wordsOfToken (char_signed : Bool) (extern_values_ : List Nat → Option Int)
    (text : List Nat) : Except ParseError (List Nat) :=
  match ParseToken char_signed text extern_values_ (parseBudget text)
    { index_ := 0, out_ := [] } with
  | .error e => .error e
  | .ok p => .ok p.out_

/-! ## Properties of the tokens of an expression -/

mutual

/-- The tokens of an `expr`, nested ones included, in source order. -/
def Expr.tokens : Expr → List Token
  | .mk first rest => first.tokens ++ rest.tokens

/-- The tokens of the operator-product pairs. -/
def ExprRest.tokens : ExprRest → List Token
  | .nil => []
  | .cons _ p rest => p.tokens ++ rest.tokens

/-- The tokens of a `product`. -/
def Product.tokens : Product → List Token
  | .mk first rest => first.tokens ++ rest.tokens

/-- The tokens of the multiplied tokens. -/
def ProductRest.tokens : ProductRest → List Token
  | .nil => []
  | .cons t rest => t.tokens ++ rest.tokens

/-- A token and the tokens inside it. -/
def Token.tokens : Token → List Token
  | .neg t => .neg t :: t.tokens
  | .paren e => .paren e :: e.tokens
  | .lit digits => [.lit digits]
  | .var name => [.var name]
  | .call name args => .call name args :: args.tokens

/-- The tokens of an argument list. -/
def Arguments.tokens : Arguments → List Token
  | .nil => []
  | .cons e rest => e.tokens ++ rest.tokens

end

/-- The name of a variable or call token. -/
def Token.name? : Token → Option (List Nat)
  | .var name => some name
  | .call name _ => some name
  | _ => none

/-- The digit run of a literal token. -/
def Token.digits? : Token → Option (List Nat)
  | .lit digits => some digits
  | _ => none

/-- The variable and function names that occur in an expression. -/
def Expr.names (e : Expr) : List (List Nat) := e.tokens.filterMap Token.name?

/-- The digit runs that occur in an expression. -/
def Expr.literals (e : Expr) : List (List Nat) := e.tokens.filterMap Token.digits?

/-- A literal token fits in a signed 32-bit integer. -/
def literalFits : Token → Bool
  | .lit digits => decide (decimalValue digits ≤ 2147483647)
  | _ => true

/-- The name of a variable or call token is in the symbol table. -/
def nameBound (extern_values_ : List Nat → Option Int) : Token → Bool
  | .var name => (extern_values_ name).isSome
  | .call name _ => (extern_values_ name).isSome
  | _ => true

/-- A call token has at most four arguments. -/
def callFits : Token → Bool
  | .call _ args => decide (args.length ≤ 4)
  | _ => true

/-- A token compiles by itself: its literal fits and its name is bound. -/
def compiles (extern_values_ : List Nat → Option Int) (t : Token) : Bool :=
  literalFits t && nameBound extern_values_ t

/-- How the result `r` of lowering a production relates to its tokens `toks`: it succeeds exactly
when every token compiles, and it fails only with a lookup failure or, when some literal does not
fit, with a literal out of range. -/
def Outcome (extern_values_ : List Nat → Option Int) (r : Except ParseError (List Nat))
    (toks : List Token) : Prop :=
  (r.isOk = toks.all (compiles extern_values_))
    ∧ ∀ err, r = .error err →
        err = .lookup_failure ∨ (err = .literal_out_of_range ∧ toks.all literalFits = false)

/-! ## A model of the ARM subset of the emitted code -/

/-- The registers the emitted code uses and the word stack (top first). -/
structure Machine where
  r0 : Nat
  r1 : Nat
  r2 : Nat
  r3 : Nat
  r4 : Nat
  lr : Nat
  stack : List Nat
deriving DecidableEq, Repr

/-- A supplied function: the number of `int` parameters it takes, its result from their values,
and what it leaves in `r1`, `r2`, `r3` and `lr` (all caller-saved) from the registers `r0`-`r3`
on entry. -/
structure Callee where
  arity : Nat
  result : List Nat → Nat
  leaves : Nat → Nat → Nat → Nat → Nat × Nat × Nat × Nat

/-- What the emitted code runs against: the words of memory and the functions, by address. -/
structure Environment where
  memory : Nat → Nat
  functions : Nat → Callee

/-- Addition modulo `2 ^ 32`. -/
def add32 (a b : Nat) : Nat := (a + b) % 4294967296

/-- Subtraction modulo `2 ^ 32`. -/
def sub32 (a b : Nat) : Nat := (a + (4294967296 - b % 4294967296)) % 4294967296

/-- Multiplication modulo `2 ^ 32`. -/
def mul32 (a b : Nat) : Nat := (a * b) % 4294967296

/-- Negation modulo `2 ^ 32`. -/
def neg32 (a : Nat) : Nat := (4294967296 - a % 4294967296) % 4294967296

/-- A word is `movw r0, #imm16`: condition and opcode bits `0xe30`, destination field zero. -/
def isMovwR0 (w : Nat) : Bool := decide (w / 1048576 = 0xe30) && decide (w / 4096 % 16 = 0)

/-- A word is `movt r0, #imm16`: condition and opcode bits `0xe34`, destination field zero. -/
def isMovtR0 (w : Nat) : Bool := decide (w / 1048576 = 0xe34) && decide (w / 4096 % 16 = 0)

/-- One instruction other than `bx lr`; `none` for a word outside the subset and for a pop from
an empty stack. -/
def step (env : Environment) (w : Nat) (m : Machine) : Option Machine :=
  if isMovwR0 w then some { m with r0 := imm16 w }
  else if isMovtR0 w then some { m with r0 := (m.r0 &&& 0xFFFF) ||| (imm16 w <<< 16) }
  else if w = PushR4LR then some { m with stack := m.r4 :: m.lr :: m.stack }
  else if w = PopR4LR then
    match m.stack with
    | a :: b :: stack => some { m with r4 := a, lr := b, stack := stack }
    | _ => none
  else if w = AddR0R1 then some { m with r0 := add32 m.r0 m.r1 }
  else if w = SubR0R1 then some { m with r0 := sub32 m.r0 m.r1 }
  else if w = MulR0R1 then some { m with r0 := mul32 m.r0 m.r1 }
  else if w = PushR0 then some { m with stack := m.r0 :: m.stack }
  else if w = LdrR0FromR0 then some { m with r0 := env.memory m.r0 % 4294967296 }
  else if w = MovR4R0 then some { m with r4 := m.r0 }
  else if w = BlxR4 then
    let f := env.functions m.r4
    let left := f.leaves m.r0 m.r1 m.r2 m.r3
    some { m with
      r0 := f.result ([m.r0, m.r1, m.r2, m.r3].take f.arity) % 4294967296,
      r1 := left.1, r2 := left.2.1, r3 := left.2.2.1, lr := left.2.2.2 }
  else if w = PopR0 then
    match m.stack with
    | a :: stack => some { m with r0 := a, stack := stack }
    | [] => none
  else if w = PopR1 then
    match m.stack with
    | a :: stack => some { m with r1 := a, stack := stack }
    | [] => none
  else if w = PopR2 then
    match m.stack with
    | a :: stack => some { m with r2 := a, stack := stack }
    | [] => none
  else if w = PopR3 then
    match m.stack with
    | a :: stack => some { m with r3 := a, stack := stack }
    | [] => none
  else none

/-- Running a word sequence from its first word: the machine at the `bx lr` that returns to the
caller, or `none` when a step fails or the words end without `bx lr`. -/
def run (env : Environment) : List Nat → Machine → Option Machine
  | [], _ => none
  | w :: ws, m =>
    if w = BxLR then some m
    else
      match step env w m with
      | none => none
      | some m2 => run env ws m2

/-- Executing a word sequence that has no `bx lr`, one step after the other. -/
def exec (env : Environment) : List Nat → Machine → Option Machine
  | [], m => some m
  | w :: ws, m =>
    match step env w m with
    | none => none
    | some m2 => exec env ws m2

/-- An environment with zeroed memory and functions of no parameter that return zero. -/
def idleEnv : Environment where
  memory := fun _ => 0
  functions := fun _ => { arity := 0, result := fun _ => 0, leaves := fun _ _ _ _ => (0, 0, 0, 0) }

/-! ## A reference interpreter of expressions -/

section Interpreter

variable (extern_values_ : List Nat → Option Int) (env : Environment)

mutual

/-- The value of an `expr`: the products combined from the left. -/
def Expr.eval : Expr → Option Nat
  | .mk first rest =>
    match first.eval with
    | none => none
    | some v => rest.eval v

/-- The value of the operator-product pairs applied to the value `acc` on their left. -/
def ExprRest.eval : ExprRest → Nat → Option Nat
  | .nil, acc => some acc
  | .cons minus p rest, acc =>
    match p.eval with
    | none => none
    | some v => rest.eval (if minus then sub32 acc v else add32 acc v)

/-- The value of a `product`: the tokens multiplied from the left. -/
def Product.eval : Product → Option Nat
  | .mk first rest =>
    match first.eval with
    | none => none
    | some v => rest.eval v

/-- The value of the multiplied tokens applied to the value `acc` on their left. -/
def ProductRest.eval : ProductRest → Nat → Option Nat
  | .nil, acc => some acc
  | .cons t rest, acc =>
    match t.eval with
    | none => none
    | some v => rest.eval (mul32 acc v)

/-- The value of a `token`; a variable is the word of memory at its address and a call applies
the function at its address to the values of the arguments. There is no value where a name is
unbound or a call passes fewer arguments than the function takes. -/
def Token.eval : Token → Option Nat
  | .neg t =>
    match t.eval with
    | none => none
    | some v => some (neg32 v)
  | .paren e => e.eval
  | .lit digits => some (decimalValue digits % 4294967296)
  | .var name =>
    match extern_values_ name with
    | none => none
    | some address => some (env.memory (toUInt32 address) % 4294967296)
  | .call name args =>
    match args.eval with
    | none => none
    | some vs =>
      match extern_values_ name with
      | none => none
      | some address =>
        let f := env.functions (toUInt32 address)
        if f.arity ≤ vs.length then some (f.result (vs.take f.arity) % 4294967296) else none

/-- The values of the arguments, in source order. -/
def Arguments.eval : Arguments → Option (List Nat)
  | .nil => some []
  | .cons e rest =>
    match e.eval with
    | none => none
    | some v =>
      match rest.eval with
      | none => none
      | some vs => some (v :: vs)

end

end Interpreter

/-! ## Building expressions -/

/-- The product that is one token. -/
def Product.single (t : Token) : Product := .mk t .nil

/-- The expression that is one product. -/
def Expr.single (p : Product) : Expr := .mk p .nil

/-- The expression that is one token. -/
def Expr.ofToken (t : Token) : Expr := .mk (.mk t .nil) .nil

/-- The literal token of a decimal text. -/
def Token.num (s : String) : Token := .lit (bytes s)

/-- The symbol table with no entry. -/
def noSymbols : List Nat → Option Int := fun _ => none

/-- The expression `2+3`. -/
def twoPlusThree : Expr :=
  .mk (.single (.num "2")) (.cons false (.single (.num "3")) .nil)

/-- The expression `x+f(2)`. -/
def xPlusCall : Expr :=
  .mk (.single (.var (bytes "x")))
    (.cons false (.single (.call (bytes "f") (.cons (.ofToken (.num "2")) .nil))) .nil)

/-- A symbol table that binds `f` only. -/
def onlyF : List Nat → Option Int := fun name => if name = bytes "f" then some 0x10000 else none

/-- The expression `7*2147483648`. -/
def bigLiteral : Expr := .single (.mk (.num "7") (.cons (.num "2147483648") .nil))

/-- A call token passes at least as many arguments as the function at its address takes. -/
def arityFits (extern_values_ : List Nat → Option Int) (env : Environment) : Token → Bool
  | .call name args =>
    match extern_values_ name with
    | none => true
    | some address => decide ((env.functions (toUInt32 address)).arity ≤ args.length)
  | _ => true

/-! ## The scenarios of the specification -/

/-- The C functions of the test driver, as supplied functions: `my_div` and `my_mod` (signed,
rounding toward zero) and `my_sum`, at the addresses `0x10000`, `0x10010`, `0x10020`; the
variables `a` and `b` live at `0x20000` and `0x20004`. -/
def scenarioEnv (a b : Int) : Environment where
  memory := fun address =>
    if address = 0x20000 then toUInt32 a else if address = 0x20004 then toUInt32 b else 0
  functions := fun address =>
    if address = 0x10000 then
      { arity := 2,
        result := fun vs => toUInt32 (Int.tdiv (toInt32 (vs.getD 0 0)) (toInt32 (vs.getD 1 0))),
        leaves := fun _ r1 r2 r3 => (r1, r2, r3, 0) }
    else if address = 0x10010 then
      { arity := 2,
        result := fun vs => toUInt32 (Int.tmod (toInt32 (vs.getD 0 0)) (toInt32 (vs.getD 1 0))),
        leaves := fun _ r1 r2 r3 => (r1, r2, r3, 0) }
    else
      { arity := 2,
        result := fun vs => toUInt32 (toInt32 (vs.getD 0 0) + toInt32 (vs.getD 1 0)),
        leaves := fun _ _ _ _ => (0xdead, 0xdead, 0xdead, 0xdead) }

/-- The symbol table of the scenarios. -/
def scenarioSymbols : List Nat → Option Int := fun name =>
  if name = bytes "div" then some 0x10000
  else if name = bytes "mod" then some 0x10010
  else if name = bytes "sum" then some 0x10020
  else if name = bytes "a" then some 0x20000
  else if name = bytes "b" then some 0x20004
  else none

/-- A machine state at the call of the compiled code. -/
def entryMachine : Machine :=
  { r0 := 11, r1 := 12, r2 := 13, r3 := 14, r4 := 15, lr := 16, stack := [17] }

/-- The argument list `a,b`. -/
def argsAB : Arguments :=
  .cons (.ofToken (.var (bytes "a"))) (.cons (.ofToken (.var (bytes "b"))) .nil)

/-- The expression `2+3*4`. -/
def scenario1 : Expr :=
  .mk (.single (.num "2")) (.cons false (.mk (.num "3") (.cons (.num "4") .nil)) .nil)

/-- The expression `(2+3)*4`. -/
def scenario2 : Expr :=
  .single (.mk (.paren twoPlusThree) (.cons (.num "4") .nil))

/-- The expression `10-3-2`. -/
def scenario3 : Expr :=
  .mk (.single (.num "10"))
    (.cons true (.single (.num "3")) (.cons true (.single (.num "2")) .nil))

/-- The expression `-5+3`. -/
def scenario4 : Expr :=
  .mk (.single (.neg (.num "5"))) (.cons false (.single (.num "3")) .nil)

/-- The expression `sum(a,b)*2`. -/
def scenario5 : Expr :=
  .single (.mk (.call (bytes "sum") argsAB) (.cons (.num "2") .nil))

/-- The expression `div(a,b)+mod(a,b)`. -/
def scenario6 : Expr :=
  .mk (.single (.call (bytes "div") argsAB))
    (.cons false (.single (.call (bytes "mod") argsAB)) .nil)

/-- The expression `1-2-3`. -/
def oneMinusTwoMinusThree : Expr :=
  .mk (.single (.num "1"))
    (.cons true (.single (.num "2")) (.cons true (.single (.num "3")) .nil))

/-- The expression `a op1 b op2 c` of three tokens at one level of `+` and `-`. -/
def Expr.chain (a : Token) (minus1 : Bool) (b : Token) (minus2 : Bool) (c : Token) : Expr :=
  .mk (.single a) (.cons minus1 (.single b) (.cons minus2 (.single c) .nil))

/-- The expression `(a op1 b) op2 c`. -/
def Expr.chainLeft (a : Token) (minus1 : Bool) (b : Token) (minus2 : Bool) (c : Token) : Expr :=
  .mk (.single (.paren (.mk (.single a) (.cons minus1 (.single b) .nil))))
    (.cons minus2 (.single c) .nil)

/-- The byte of an additive operator. -/
def opByte (minus : Bool) : Nat := if minus then 45 else 43

/-- A machine state with the values `5, 4, 3, 2, 1` on the stack, top first: five arguments
`1, 2, 3, 4, 5` pushed left to right. -/
def fiveArguments : Machine :=
  { r0 := 0, r1 := 0, r2 := 0, r3 := 0, r4 := 0, lr := 0, stack := [5, 4, 3, 2, 1] }

/-- A machine state with the values `4, 3, 2, 1` on the stack above a word `9`. -/
def fourArguments : Machine :=
  { r0 := 0, r1 := 0, r2 := 0, r3 := 0, r4 := 0, lr := 0, stack := [4, 3, 2, 1, 9] }

/-! ## Counting pushes and pops -/

/-- The arguments of an argument list, in source order. -/
def Arguments.toList : Arguments → List Expr
  | .nil => []
  | .cons e rest => e :: rest.toList

/-- A word is `pop {r0}`, `pop {r1}`, `pop {r2}` or `pop {r3}`. -/
def isPop (w : Nat) : Bool :=
  decide (w = PopR0) || decide (w = PopR1) || decide (w = PopR2) || decide (w = PopR3)

/-- The number of `push {r0}` words. -/
def pushCount (ws : List Nat) : Nat := ws.countP (fun w => decide (w = PushR0))

/-- The number of `pop {r0}`, `pop {r1}`, `pop {r2}`, `pop {r3}` words. -/
def popCount (ws : List Nat) : Nat := ws.countP isPop

/-- A word sequence net-pushes exactly one word: it has one more push than pops, and none of its
prefixes has more pops than pushes. -/
def NetPushesOne (ws : List Nat) : Prop :=
  pushCount ws = popCount ws + 1 ∧ ∀ k, popCount (ws.take k) ≤ pushCount (ws.take k)

/-- The stack depth after a word sequence started at depth `d`, counting `push {r0}` and the
four pops; `none` when a pop finds depth zero. -/
def depthAfter : List Nat → Nat → Option Nat
  | [], d => some d
  | w :: ws, d =>
    if w = PushR0 then depthAfter ws (d + 1)
    else if isPop w then (if d = 0 then none else depthAfter ws (d - 1))
    else depthAfter ws d

/-- The call `sum(a,b)`. -/
def callSumAB : Token := .call (bytes "sum") argsAB

/-! ## Extending an expression at its end -/

/-- The operator-product pairs with one more pair at the end. -/
def ExprRest.snoc : ExprRest → Bool → Product → ExprRest
  | .nil, minus, p => .cons minus p .nil
  | .cons m q rest, minus, p => .cons m q (rest.snoc minus p)

/-- The multiplied tokens with one more token at the end. -/
def ProductRest.snoc : ProductRest → Token → ProductRest
  | .nil, t => .cons t .nil
  | .cons u rest, t => .cons u (rest.snoc t)

/-- The symbol table that binds `a` to the address `0x20000` only. -/
def onlyA : List Nat → Option Int := fun name => if name = [97] then some 0x20000 else none

/-- Three entries of a symbol array: `a` at `0x20000`, `b` at `0x20004`, and `a` again at
`0x20008`. -/
def shadowedA : List symbol_t :=
  [⟨some (bytes "a"), 0x20000⟩, ⟨some (bytes "b"), 0x20004⟩, ⟨some (bytes "a"), 0x20008⟩]

/-! ## What the recursion over the budget shows -/

/-- What holds of the result `r` of a parser member started at `p` on a text of `len` bytes:
with `enough` budget the budget is not used up; the cursor does not go back; and, where the
empty name is unbound, the member emits at most seven words per byte of the text that the cursor
passes, and `extra` words more. -/
def Sound (len : Nat) (emptyUnbound enough : Prop) (extra : Nat) (p : Parser)
    (r : Except ParseError Parser) : Prop :=
  (enough → r ≠ .error .budget_exhausted)
    ∧ ∀ q, r = .ok q →
        p.index_ ≤ q.index_
          ∧ (emptyUnbound →
              q.out_.length + 7 * min p.index_ len ≤ p.out_.length + 7 * min q.index_ len + extra)

/-- The parser state of the result of `ParseArguments`. -/
def argumentsParser : Except ParseError (Parser × Nat) → Except ParseError Parser
  | .error e => .error e
  | .ok (q, _) => .ok q

/-- The members of the parser are `Sound` at the budget `b`, each with the budget it needs for
the bytes that are left after the cursor. -/
def ParserSound (char_signed : Bool) (expression : List Nat)
    (extern_values_ : List Nat → Option Int) (b : Nat) : Prop :=
  (∀ p, Sound expression.length (extern_values_ [] = none)
      (4 * (expression.length - p.index_) + 3 ≤ b) 0 p
      (Parse char_signed expression extern_values_ b p))
    ∧ (∀ p, Sound expression.length (extern_values_ [] = none)
      (4 * (expression.length - p.index_) + 1 ≤ b) 0 p
      (ParseLoop char_signed expression extern_values_ b p))
    ∧ (∀ p, Sound expression.length (extern_values_ [] = none)
      (4 * (expression.length - p.index_) + 2 ≤ b) 0 p
      (ParseProduct char_signed expression extern_values_ b p))
    ∧ (∀ p, Sound expression.length (extern_values_ [] = none)
      (4 * (expression.length - p.index_) + 1 ≤ b) 0 p
      (ParseProductLoop char_signed expression extern_values_ b p))
    ∧ (∀ p, Sound expression.length (extern_values_ [] = none)
      (4 * (expression.length - p.index_) + 1 ≤ b) 0 p
      (ParseToken char_signed expression extern_values_ b p))
    ∧ (∀ name p, Sound expression.length (extern_values_ [] = none)
      (4 * (expression.length - p.index_) + 5 ≤ b) 9 p
      (ParseFunction char_signed expression extern_values_ b name p))
    ∧ (∀ p n, Sound expression.length (extern_values_ [] = none)
      (4 * (expression.length - p.index_) + 4 ≤ b) 0 p
      (argumentsParser (ParseArguments char_signed expression extern_values_ b p n)))

/-! ## The cursor during parsing -/

/-- What the parser does with the text and with the cursor `index_`, in the order of execution:
`read i` is a read `expression_[index_]` at the cursor `i` outside the scan loops, `look i` is
the look-ahead read `expression_[index_]` in the loop of a digit or name scan, `next i` is
`index_++` and `back i` is `index_--`, each with the new value `i` of the cursor, and `ret i` is
the return of `Parse`, `ParseProduct`, `ParseToken` or `ParseFunction` with the cursor at `i`. -/
inductive Event where
  | read (index : Nat)
  | look (index : Nat)
  | next (index : Nat)
  | back (index : Nat)
  | ret (index : Nat)
deriving DecidableEq, Repr

/-- The event of a member that ends with the result `r`: its return, or nothing when it ends by
an exception. -/
def returned : Except ParseError Parser → List Event
  | .ok p => [.ret p.index_]
  | .error _ => []

/-- The events of the loops `while (isdigit(symbol)) { ... }` and `while (isalpha(symbol))
{ ... }` of `ParseToken`, by the recursion of `scanLoop`: each iteration reads
`expression_[index_]` and advances `index_`. -/
def scanEvents (pred : Nat → Bool) : List Nat → Nat → Nat → List Event
  | [], symbol, index =>
    if pred symbol then [.look index, .next (index + 1)] else []
  | c :: rest, symbol, index =>
    if pred symbol then .look index :: .next (index + 1) :: scanEvents pred rest c (index + 1)
    else []

section ParserEvents

variable (char_signed : Bool) (expression_ : List Nat) (extern_values_ : List Nat → Option Int)

mutual

/-- The events of a call of `Parse`. -/
def ParseEvents : Nat → Parser → List Event
  | 0, _ => []
  | budget + 1, p =>
    ParseProductEvents budget p
      ++ (match ParseProduct char_signed expression_ extern_values_ budget p with
          | .error _ => []
          | .ok p => ParseLoopEvents budget p)
      ++ returned (Parse char_signed expression_ extern_values_ (budget + 1) p)

/-- The events of the loop `while (true)` of `Parse`. -/
def ParseLoopEvents : Nat → Parser → List Event
  | 0, _ => []
  | budget + 1, p =>
    if p.index_ = expression_.length then []
    else
      let symbol := readAt expression_ p.index_
      let p1 : Parser := { p with index_ := p.index_ + 1 }
      .read p.index_ :: .next p1.index_ ::
        (if symbol ≠ 43 ∧ symbol ≠ 45 then [.back (p1.index_ - 1)]
        else
          ParseProductEvents budget p1
            ++ match ParseProduct char_signed expression_ extern_values_ budget p1 with
              | .error _ => []
              | .ok p =>
                let p := PushInstruction p PopR1
                let p := PushInstruction p PopR0
                let p :=
                  if symbol = 43 then PushInstruction p AddR0R1
                  else if symbol = 45 then PushInstruction p SubR0R1
                  else p
                let p := PushInstruction p PushR0
                ParseLoopEvents budget p)

/-- The events of a call of `ParseProduct`. -/
def ParseProductEvents : Nat → Parser → List Event
  | 0, _ => []
  | budget + 1, p =>
    ParseTokenEvents budget p
      ++ (match ParseToken char_signed expression_ extern_values_ budget p with
          | .error _ => []
          | .ok p => ParseProductLoopEvents budget p)
      ++ returned (ParseProduct char_signed expression_ extern_values_ (budget + 1) p)

/-- The events of the loop `while (true)` of `ParseProduct`. -/
def ParseProductLoopEvents : Nat → Parser → List Event
  | 0, _ => []
  | budget + 1, p =>
    if p.index_ = expression_.length then []
    else
      let symbol := readAt expression_ p.index_
      let p1 : Parser := { p with index_ := p.index_ + 1 }
      .read p.index_ :: .next p1.index_ ::
        (if symbol ≠ 42 then [.back (p1.index_ - 1)]
        else
          ParseTokenEvents budget p1
            ++ match ParseToken char_signed expression_ extern_values_ budget p1 with
              | .error _ => []
              | .ok p =>
                let p := PushInstruction p PopR1
                let p := PushInstruction p PopR0
                let p := PushInstruction p MulR0R1
                let p := PushInstruction p PushR0
                ParseProductLoopEvents budget p)

/-- The events of a call of `ParseToken`. -/
def ParseTokenEvents : Nat → Parser → List Event
  | 0, _ => []
  | budget + 1, p =>
    (if p.index_ = expression_.length then []
    else
      let symbol := readAt expression_ p.index_
      let p1 : Parser := { p with index_ := p.index_ + 1 }
      .read p.index_ :: .next p1.index_ ::
        (if symbol = 45 then ParseTokenEvents budget p1
        else if symbol = 40 then
          ParseEvents budget p1
            ++ match Parse char_signed expression_ extern_values_ budget p1 with
              | .error _ => []
              | .ok p => [.next (p.index_ + 1)]
        else if isdigit symbol then
          let scanned := scanLoop isdigit (expression_.drop p1.index_) symbol p1.index_ []
          scanEvents isdigit (expression_.drop p1.index_) symbol p1.index_
            ++ [.back (scanned.2.1 - 1)]
        else
          let scanned := scanLoop isalpha (expression_.drop p1.index_) symbol p1.index_ []
          scanEvents isalpha (expression_.drop p1.index_) symbol p1.index_
            ++ (if isEOF char_signed scanned.1 then []
              else if scanned.1 ≠ 40 then [.back (scanned.2.1 - 1)]
              else ParseFunctionEvents budget scanned.2.2 { p1 with index_ := scanned.2.1 })))
      ++ returned (ParseToken char_signed expression_ extern_values_ (budget + 1) p)

/-- The events of a call of `ParseFunction`. -/
def ParseFunctionEvents : Nat → List Nat → Parser → List Event
  | 0, _, _ => []
  | budget + 1, name, p =>
    ParseArgumentsEvents budget p
      ++ returned (ParseFunction char_signed expression_ extern_values_ (budget + 1) name p)

/-- The events of the loop `do { ... } while (symbol == ',')` of `ParseFunction`. -/
def ParseArgumentsEvents : Nat → Parser → List Event
  | 0, _ => []
  | budget + 1, p =>
    let symbol := readAt expression_ p.index_
    let p1 : Parser := { p with index_ := p.index_ + 1 }
    .read p.index_ :: .next p1.index_ ::
      (if symbol = 41 then []
      else
        let p2 : Parser := { p1 with index_ := p1.index_ - 1 }
        .back p2.index_ ::
          (ParseEvents budget p2
            ++ match Parse char_signed expression_ extern_values_ budget p2 with
              | .error _ => []
              | .ok p =>
                let symbol := readAt expression_ p.index_
                let p3 : Parser := { p with index_ := p.index_ + 1 }
                .read p.index_ :: .next p3.index_ ::
                  (if symbol = 44 then ParseArgumentsEvents budget p3 else [])))

end

end ParserEvents

/-- The events `t` are a run of the cursor from `c` to `c2` on a text of `len` bytes: every read
is at the cursor, `index_++` and `index_--` move it by one, a member returns with the cursor
where it is; every read but the look-ahead of a scan is inside the text, and the cursor stays
within `0 .. len`, but for the one case `sentinel`: a scan loop looks at the terminator at
`len`, advances the cursor to `len + 1`, and the step back to `len` follows at once. -/
inductive Run (len : Nat) : Nat → List Event → Nat → Prop
  | done (c : Nat) : Run len c [] c
  | read {c : Nat} {t : List Event} {c2 : Nat} :
    c < len → Run len c t c2 → Run len c (.read c :: t) c2
  | look {c : Nat} {t : List Event} {c2 : Nat} :
    c < len → Run len c t c2 → Run len c (.look c :: t) c2
  | next {c : Nat} {t : List Event} {c2 : Nat} :
    c < len → Run len (c + 1) t c2 → Run len c (.next (c + 1) :: t) c2
  | back {c : Nat} {t : List Event} {c2 : Nat} :
    c < len → Run len c t c2 → Run len (c + 1) (.back c :: t) c2
  | ret {c : Nat} {t : List Event} {c2 : Nat} :
    c ≤ len → Run len c t c2 → Run len c (.ret c :: t) c2
  | sentinel {t : List Event} {c2 : Nat} :
    Run len len t c2 → Run len len (.look len :: .next (len + 1) :: .back len :: t) c2

/-- The events `t` are a run of the cursor from `c`, and it ends at the cursor of the result `r`
when `r` is not a failure. -/
def RunsTo (len c : Nat) (t : List Event) (r : Except ParseError Parser) : Prop :=
  ∃ c2, Run len c t c2 ∧ ∀ q, r = .ok q → c2 = q.index_

/-- The events of the call of `Parse` in `GetInstructionsBuffer`. -/
def cursorEvents (char_signed : Bool) (extern_values_ : List Nat → Option Int)
    (expression : List Nat) : List Event :=
  ParseEvents char_signed expression extern_values_ (parseBudget expression)
    (PushInstruction { index_ := 0, out_ := [] } PushR4LR)

/-- A result of a parser member that is not the exhaustion of the budget `b` is also the result
at the budget `b + 1`. -/
def ParserStable (char_signed : Bool) (expression : List Nat)
    (extern_values_ : List Nat → Option Int) (b : Nat) : Prop :=
  (∀ p, Parse char_signed expression extern_values_ b p ≠ .error .budget_exhausted →
      Parse char_signed expression extern_values_ (b + 1) p
        = Parse char_signed expression extern_values_ b p)
    ∧ (∀ p, ParseLoop char_signed expression extern_values_ b p ≠ .error .budget_exhausted →
      ParseLoop char_signed expression extern_values_ (b + 1) p
        = ParseLoop char_signed expression extern_values_ b p)
    ∧ (∀ p, ParseProduct char_signed expression extern_values_ b p
        ≠ .error .budget_exhausted →
      ParseProduct char_signed expression extern_values_ (b + 1) p
        = ParseProduct char_signed expression extern_values_ b p)
    ∧ (∀ p, ParseProductLoop char_signed expression extern_values_ b p
        ≠ .error .budget_exhausted →
      ParseProductLoop char_signed expression extern_values_ (b + 1) p
        = ParseProductLoop char_signed expression extern_values_ b p)
    ∧ (∀ p, ParseToken char_signed expression extern_values_ b p ≠ .error .budget_exhausted →
      ParseToken char_signed expression extern_values_ (b + 1) p
        = ParseToken char_signed expression extern_values_ b p)
    ∧ (∀ name p, ParseFunction char_signed expression extern_values_ b name p
        ≠ .error .budget_exhausted →
      ParseFunction char_signed expression extern_values_ (b + 1) name p
        = ParseFunction char_signed expression extern_values_ b name p)
    ∧ (∀ p n, ParseArguments char_signed expression extern_values_ b p n
        ≠ .error .budget_exhausted →
      ParseArguments char_signed expression extern_values_ (b + 1) p n
        = ParseArguments char_signed expression extern_values_ b p n)

/-- A symbol table that binds the empty name (to the address 0) and no other name. -/
def emptyNameOnly : List Nat → Option Int := fun name => if name = [] then some 0 else none

/-! ## Reading the text -/

theorem readAt_append_right (pre l : List Nat) (k : Nat) :
    readAt (pre ++ l) (pre.length + k) = readAt l k := by
  unfold readAt
  induction pre with
  | nil => simp
  | cons a pre ih =>
    have h : (a :: pre).length + k = (pre.length + k) + 1 := by simp; omega
    rw [h]
    simpa using ih

theorem readAt_append_length (pre l : List Nat) : readAt (pre ++ l) pre.length = l.headD 0 := by
  have h := readAt_append_right pre l 0
  rw [Nat.add_zero] at h
  rw [h]
  cases l <;> rfl

theorem drop_append_length_succ (pre : List Nat) (c : Nat) (l : List Nat) :
    (pre ++ c :: l).drop (pre.length + 1) = l := by
  induction pre with
  | nil => simp
  | cons a pre ih => simp [ih]

theorem scanLoop_stop (pred : Nat → Bool) (l : List Nat) (symbol index : Nat) (str : List Nat)
    (h : pred symbol = false) : scanLoop pred l symbol index str = (symbol, index, str) := by
  cases l <;> simp [scanLoop, h]

theorem scanLoop_run (pred : Nat → Bool) (run post : List Nat)
    (hpost : pred (post.headD 0) = false) :
    ∀ (c index : Nat) (str : List Nat), pred c = true → (∀ d ∈ run, pred d = true) →
      scanLoop pred (run ++ post) c index str
        = (post.headD 0, index + run.length + 1, str ++ c :: run) := by
  induction run with
  | nil =>
    intro c index str hc _
    cases post with
    | nil => simp [scanLoop, hc]
    | cons d rest =>
      simp only [List.nil_append, scanLoop, hc, if_true]
      rw [scanLoop_stop pred rest d _ _ (by simpa using hpost)]
      simp
  | cons d run ih =>
    intro c index str hc hrun
    have h := ih d (index + 1) (str ++ [c]) (hrun d (by simp)) (fun x hx => hrun x (by simp [hx]))
    simp only [List.cons_append, scanLoop, hc, if_true]
    refine h.trans ?_
    simp only [List.length_cons, List.append_assoc, List.singleton_append, Prod.mk.injEq,
      and_true, true_and]
    omega

theorem PushInstruction_eq (p : Parser) (w : Nat) :
    PushInstruction p w = { index_ := p.index_, out_ := p.out_ ++ [w] } := rfl

theorem MoveValueToR0_eq (p : Parser) (x : Int) :
    MoveValueToR0 p x = { index_ := p.index_, out_ := p.out_ ++ moveWords x } := by
  simp [MoveValueToR0, moveWords, PushInstruction]

theorem popArguments_eq (n : Nat) : ∀ (argument : Nat) (p : Parser),
    popArguments n argument p
      = { index_ := p.index_,
          out_ := p.out_ ++ (popArguments n argument { index_ := 0, out_ := [] }).out_ } := by
  intro argument
  induction argument with
  | zero => intro p; simp [popArguments]
  | succ a ih =>
    intro p
    simp only [popArguments]
    rw [ih]
    conv => rhs; rw [ih]
    split <;> simp [PushInstruction]

theorem readAt_length (expression : List Nat) : readAt expression expression.length = 0 := by
  simp [readAt]

theorem ne_length_of_readAt (expression : List Nat) (i c : Nat) (h : readAt expression i = c)
    (hc : c ≠ 0) : i ≠ expression.length := by
  intro hi
  rw [hi, readAt_length] at h
  exact hc h.symm

/-! ## The parser on the text of a well-formed expression -/

section OnText

variable (char_signed : Bool) (extern_values_ : List Nat → Option Int)

theorem ParseToken_neg (b : Nat) (expression : List Nat) (i : Nat) (out : List Nat)
    (hread : readAt expression i = 45) :
    ParseToken char_signed expression extern_values_ (b + 1) ⟨i, out⟩
      = match ParseToken char_signed expression extern_values_ b ⟨i + 1, out⟩ with
        | .error e => .error e
        | .ok p => .ok ⟨p.index_, p.out_ ++ negWords⟩ := by
  have hne := ne_length_of_readAt expression i 45 hread (by decide)
  rw [ParseToken]
  simp only [hne, if_false, hread, if_true]
  cases ParseToken char_signed expression extern_values_ b ⟨i + 1, out⟩ with
  | error e => rfl
  | ok p => simp [MoveValueToR0_eq, PushInstruction_eq, negWords]

theorem ParseToken_paren (b : Nat) (expression : List Nat) (i : Nat) (out : List Nat)
    (hread : readAt expression i = 40) :
    ParseToken char_signed expression extern_values_ (b + 1) ⟨i, out⟩
      = match Parse char_signed expression extern_values_ b ⟨i + 1, out⟩ with
        | .error e => .error e
        | .ok p => .ok ⟨p.index_ + 1, p.out_⟩ := by
  have hne := ne_length_of_readAt expression i 40 hread (by decide)
  rw [ParseToken]
  simp [hne, hread]

theorem stopsToken_isdigit (c : Nat) (h : stopsToken c = true) : isdigit c = false := by
  simp [stopsToken] at h
  simp [h]

theorem stopsToken_isalpha (c : Nat) (h : stopsToken c = true) : isalpha c = false := by
  simp [stopsToken] at h
  simp [h]

theorem isdigit_facts (c : Nat) (h : isdigit c = true) :
    c ≠ 0 ∧ c ≠ 45 ∧ c ≠ 40 := by
  simp [isdigit] at h
  omega

theorem isalpha_facts (c : Nat) (h : isalpha c = true) :
    c ≠ 0 ∧ c ≠ 45 ∧ c ≠ 40 ∧ isdigit c = false := by
  simp [isalpha] at h
  simp [isdigit]
  omega

theorem ParseToken_lit (b : Nat) (expression pre post : List Nat) (d : Nat) (ds : List Nat)
    (i : Nat) (out : List Nat) (hexpr : expression = pre ++ ((d :: ds) ++ post))
    (hi : i = pre.length) (hd : ∀ x ∈ d :: ds, isdigit x = true)
    (hstop : stopsToken (post.headD 0) = true) :
    ParseToken char_signed expression extern_values_ (b + 1) ⟨i, out⟩
      = advance i out (d :: ds).length ((Token.lit (d :: ds)).words extern_values_) := by
  have hread : readAt expression i = d := by
    rw [hexpr, hi, readAt_append_length]; rfl
  have hdd := hd d (by simp)
  obtain ⟨h0, h45, h40⟩ := isdigit_facts d hdd
  have hne := ne_length_of_readAt expression i d hread h0
  have hdrop : expression.drop (i + 1) = ds ++ post := by
    rw [hexpr, hi]; exact drop_append_length_succ pre d (ds ++ post)
  have hscan := scanLoop_run isdigit ds post (stopsToken_isdigit _ hstop) d (i + 1) [] hdd
    (fun x hx => hd x (by simp [hx]))
  rw [ParseToken]
  simp only [hne, if_false, hread, h45, h40, hdd, if_true, hdrop, hscan, Token.words,
    List.nil_append]
  rcases hst : stoi (d :: ds) with _ | v
  · simp [advance]
  · simp only [advance, MoveValueToR0_eq, PushInstruction_eq, List.length_cons,
      List.append_assoc]
    congr 2
    omega

theorem stopsToken_facts (c : Nat) (h : stopsToken c = true) :
    c ≠ 40 ∧ isEOF char_signed c = false := by
  simp [stopsToken] at h
  simp [isEOF, h]

theorem ParseToken_var (b : Nat) (expression pre post : List Nat) (n : Nat) (ns : List Nat)
    (i : Nat) (out : List Nat) (hexpr : expression = pre ++ ((n :: ns) ++ post))
    (hi : i = pre.length) (hn : ∀ x ∈ n :: ns, isalpha x = true)
    (hstop : stopsToken (post.headD 0) = true) :
    ParseToken char_signed expression extern_values_ (b + 1) ⟨i, out⟩
      = advance i out (n :: ns).length ((Token.var (n :: ns)).words extern_values_) := by
  have hread : readAt expression i = n := by
    rw [hexpr, hi, readAt_append_length]; rfl
  have hnn := hn n (by simp)
  obtain ⟨h0, h45, h40, hdig⟩ := isalpha_facts n hnn
  obtain ⟨hs40, hsEOF⟩ := stopsToken_facts char_signed _ hstop
  have hne := ne_length_of_readAt expression i n hread h0
  have hdrop : expression.drop (i + 1) = ns ++ post := by
    rw [hexpr, hi]; exact drop_append_length_succ pre n (ns ++ post)
  have hscan := scanLoop_run isalpha ns post (stopsToken_isalpha _ hstop) n (i + 1) [] hnn
    (fun x hx => hn x (by simp [hx]))
  rw [ParseToken]
  simp only [hne, if_false, hread, h45, h40, hdig, hdrop, hscan, Token.words, List.nil_append,
    hsEOF, ne_eq, hs40, not_false_eq_true, if_true, loadVariable, Bool.false_eq_true]
  rcases hst : extern_values_ (n :: ns) with _ | v
  · simp [advance]
  · simp only [advance, MoveValueToR0_eq, PushInstruction_eq, List.length_cons,
      List.append_assoc]
    congr 2
    omega

theorem ParseToken_call (b : Nat) (expression pre rest : List Nat) (n : Nat) (ns : List Nat)
    (i : Nat) (out : List Nat) (hexpr : expression = pre ++ ((n :: ns) ++ 40 :: rest))
    (hi : i = pre.length) (hn : ∀ x ∈ n :: ns, isalpha x = true) :
    ParseToken char_signed expression extern_values_ (b + 1) ⟨i, out⟩
      = ParseFunction char_signed expression extern_values_ b (n :: ns)
          ⟨i + (n :: ns).length + 1, out⟩ := by
  have hread : readAt expression i = n := by
    rw [hexpr, hi, readAt_append_length]; rfl
  have hnn := hn n (by simp)
  obtain ⟨h0, h45, h40, hdig⟩ := isalpha_facts n hnn
  have hne := ne_length_of_readAt expression i n hread h0
  have hdrop : expression.drop (i + 1) = ns ++ 40 :: rest := by
    rw [hexpr, hi]; exact drop_append_length_succ pre n (ns ++ 40 :: rest)
  have hscan := scanLoop_run isalpha ns (40 :: rest) (by simp [isalpha]) n (i + 1) [] hnn
    (fun x hx => hn x (by simp [hx]))
  have hEOF : isEOF char_signed 40 = false := by simp [isEOF]
  rw [ParseToken]
  simp only [hne, if_false, hread, h45, h40, hdig, hdrop, hscan, List.nil_append,
    List.headD_cons, hEOF, ne_eq, not_true_eq_false, Bool.false_eq_true, List.length_cons]
  congr 2
  omega

theorem ParseFunction_eq (b : Nat) (expression name : List Nat) (p : Parser) :
    ParseFunction char_signed expression extern_values_ (b + 1) name p
      = match ParseArguments char_signed expression extern_values_ b p 0 with
        | .error e => .error e
        | .ok (p, num_arguments) =>
          match extern_values_ name with
          | none => .error .lookup_failure
          | some address =>
            .ok ⟨p.index_, p.out_ ++
              (moveWords address ++ MovR4R0 :: (popWords num_arguments ++ [BlxR4, PushR0]))⟩ := by
  rw [ParseFunction]
  rcases ParseArguments char_signed expression extern_values_ b p 0 with e | ⟨q, k⟩
  · rfl
  · simp only
    rcases extern_values_ name with _ | v
    · rfl
    · simp only [PushInstruction_eq, MoveValueToR0_eq]
      rw [popArguments_eq]
      simp [popWords]

theorem stopsExpr_facts (c : Nat) (h : stopsExpr c = true) :
    stopsProduct c = true ∧ c ≠ 43 ∧ c ≠ 45 := by
  simp [stopsExpr] at h
  simp [h]

theorem stopsProduct_facts (c : Nat) (h : stopsProduct c = true) :
    stopsToken c = true ∧ c ≠ 42 := by
  simp [stopsProduct] at h
  simp [h]

theorem Parse_eq (b : Nat) (expression : List Nat) (p : Parser) :
    Parse char_signed expression extern_values_ (b + 1) p
      = match ParseProduct char_signed expression extern_values_ b p with
        | .error e => .error e
        | .ok p => ParseLoop char_signed expression extern_values_ b p := by
  rw [Parse]

theorem ParseProduct_eq (b : Nat) (expression : List Nat) (p : Parser) :
    ParseProduct char_signed expression extern_values_ (b + 1) p
      = match ParseToken char_signed expression extern_values_ b p with
        | .error e => .error e
        | .ok p => ParseProductLoop char_signed expression extern_values_ b p := by
  rw [ParseProduct]

theorem ParseLoop_stop (b : Nat) (expression : List Nat) (i : Nat) (out : List Nat)
    (hstop : stopsExpr (readAt expression i) = true) :
    ParseLoop char_signed expression extern_values_ (b + 1) ⟨i, out⟩ = .ok ⟨i, out⟩ := by
  obtain ⟨_, h43, h45⟩ := stopsExpr_facts _ hstop
  rw [ParseLoop]
  by_cases hi : i = expression.length
  · simp [hi]
  · simp [hi, h43, h45]

theorem ParseLoop_op (b : Nat) (expression : List Nat) (i : Nat) (out : List Nat)
    (minus : Bool) (hread : readAt expression i = if minus then 45 else 43) :
    ParseLoop char_signed expression extern_values_ (b + 1) ⟨i, out⟩
      = match ParseProduct char_signed expression extern_values_ b ⟨i + 1, out⟩ with
        | .error e => .error e
        | .ok p => ParseLoop char_signed expression extern_values_ b
            ⟨p.index_, p.out_ ++ binaryWords (if minus then SubR0R1 else AddR0R1)⟩ := by
  have hne := ne_length_of_readAt expression i _ hread (by cases minus <;> decide)
  rw [ParseLoop]
  cases minus
  · simp only [Bool.false_eq_true, if_false] at hread
    simp only [hne, if_false, hread]
    rcases ParseProduct char_signed expression extern_values_ b ⟨i + 1, out⟩ with e | q
    · simp
    · simp [PushInstruction_eq, binaryWords]
  · simp only [if_true] at hread
    simp only [hne, if_false, hread]
    rcases ParseProduct char_signed expression extern_values_ b ⟨i + 1, out⟩ with e | q
    · simp
    · simp [PushInstruction_eq, binaryWords]

theorem ParseProductLoop_stop (b : Nat) (expression : List Nat) (i : Nat) (out : List Nat)
    (hstop : stopsProduct (readAt expression i) = true) :
    ParseProductLoop char_signed expression extern_values_ (b + 1) ⟨i, out⟩
      = .ok ⟨i, out⟩ := by
  obtain ⟨_, h42⟩ := stopsProduct_facts _ hstop
  rw [ParseProductLoop]
  by_cases hi : i = expression.length
  · simp [hi]
  · simp [hi, h42]

theorem ParseProductLoop_mul (b : Nat) (expression : List Nat) (i : Nat) (out : List Nat)
    (hread : readAt expression i = 42) :
    ParseProductLoop char_signed expression extern_values_ (b + 1) ⟨i, out⟩
      = match ParseToken char_signed expression extern_values_ b ⟨i + 1, out⟩ with
        | .error e => .error e
        | .ok p => ParseProductLoop char_signed expression extern_values_ b
            ⟨p.index_, p.out_ ++ binaryWords MulR0R1⟩ := by
  have hne := ne_length_of_readAt expression i _ hread (by decide)
  rw [ParseProductLoop]
  simp only [hne, if_false, hread]
  rcases ParseToken char_signed expression extern_values_ b ⟨i + 1, out⟩ with e | q
  · simp
  · simp [PushInstruction_eq, binaryWords]

theorem ParseArguments_close (b : Nat) (expression : List Nat) (i : Nat) (out : List Nat)
    (n : Nat) (hread : readAt expression i = 41) :
    ParseArguments char_signed expression extern_values_ (b + 1) ⟨i, out⟩ n
      = .ok (⟨i + 1, out⟩, n) := by
  rw [ParseArguments]
  simp [hread]

theorem ParseArguments_arg (b : Nat) (expression : List Nat) (i : Nat) (out : List Nat)
    (n : Nat) (hread : readAt expression i ≠ 41) :
    ParseArguments char_signed expression extern_values_ (b + 1) ⟨i, out⟩ n
      = match Parse char_signed expression extern_values_ b ⟨i, out⟩ with
        | .error e => .error e
        | .ok p =>
          if readAt expression p.index_ = 44 then
            ParseArguments char_signed expression extern_values_ b ⟨p.index_ + 1, p.out_⟩
              (n + 1)
          else .ok (⟨p.index_ + 1, p.out_⟩, n + 1) := by
  rw [ParseArguments]
  simp [hread]

/-! ### The first byte of a well-formed text -/

theorem Token.text_head_token (t : Token) (hwf : t.wf = true) :
    ∃ c rest, t.text = c :: rest ∧ startsToken c = true := by
  cases t with
  | neg t => exact ⟨45, t.text, rfl, by decide⟩
  | paren e => exact ⟨40, e.text ++ [41], rfl, by decide⟩
  | lit digits =>
    cases digits with
    | nil => simp [Token.wf] at hwf
    | cons d ds =>
      refine ⟨d, ds, rfl, ?_⟩
      simp [Token.wf] at hwf
      simp [startsToken, hwf.1]
  | var name =>
    cases name with
    | nil => simp [Token.wf] at hwf
    | cons d ds =>
      refine ⟨d, ds, rfl, ?_⟩
      simp [Token.wf] at hwf
      simp [startsToken, hwf.1]
  | call name args =>
    cases name with
    | nil => simp [Token.wf] at hwf
    | cons d ds =>
      refine ⟨d, ds ++ 40 :: (args.text ++ [41]), by simp [Token.text], ?_⟩
      simp [Token.wf] at hwf
      simp [startsToken, hwf.1.1]

theorem Product.text_head_product (p : Product) (hwf : p.wf = true) :
    ∃ c rest, p.text = c :: rest ∧ startsToken c = true := by
  cases p with
  | mk first rest =>
    simp only [Product.wf, Bool.and_eq_true] at hwf
    obtain ⟨c, r, h, hc⟩ := Token.text_head_token first hwf.1
    exact ⟨c, r ++ rest.text, by simp [Product.text, h], hc⟩

theorem Expr.text_head_expr (e : Expr) (hwf : e.wf = true) :
    ∃ c rest, e.text = c :: rest ∧ startsToken c = true := by
  cases e with
  | mk first rest =>
    simp only [Expr.wf, Bool.and_eq_true] at hwf
    obtain ⟨c, r, h, hc⟩ := Product.text_head_product first hwf.1
    exact ⟨c, r ++ rest.text, by simp [Expr.text, h], hc⟩

theorem startsToken_ne (c : Nat) (h : startsToken c = true) : c ≠ 41 ∧ c ≠ 0 := by
  simp [startsToken, isdigit, isalpha] at h
  omega

theorem ok_parser_congr {a a2 : Nat} {l l2 : List Nat} (h1 : a = a2) (h2 : l = l2) :
    (Except.ok ⟨a, l⟩ : Except ParseError Parser) = .ok ⟨a2, l2⟩ := by
  rw [h1, h2]

theorem ExprRest.text_stops_exprRest (rest : ExprRest) (post : List Nat)
    (hstop : stopsExpr (post.headD 0) = true) :
    stopsProduct ((rest.text ++ post).headD 0) = true := by
  cases rest with
  | nil => exact (stopsExpr_facts _ hstop).1
  | cons minus p r => cases minus <;> simp [ExprRest.text] <;> decide

theorem ProductRest.text_stops_productRest (rest : ProductRest) (post : List Nat)
    (hstop : stopsProduct (post.headD 0) = true) :
    stopsToken ((rest.text ++ post).headD 0) = true := by
  cases rest with
  | nil => exact (stopsProduct_facts _ hstop).1
  | cons t r => simp [ProductRest.text]; decide

theorem Arguments.words_cons (e : Expr) (rest : Arguments) :
    (Arguments.cons e rest).words extern_values_
      = match e.words extern_values_ with
        | .error e => .error e
        | .ok ws =>
          match rest.words extern_values_ with
          | .error e => .error e
          | .ok ws2 => .ok (ws ++ ws2) := by
  rw [Arguments.words]

mutual

theorem Expr.parse_text_expr : ∀ (e : Expr), e.wf = true →
    ∀ (budget : Nat) (expression pre post : List Nat) (i : Nat) (out : List Nat),
    expression = pre ++ (e.text ++ post) → i = pre.length → 4 * e.text.length + 3 ≤ budget →
    stopsExpr (post.headD 0) = true →
    Parse char_signed expression extern_values_ budget ⟨i, out⟩
      = advance i out e.text.length (e.words extern_values_)
  | .mk first rest, hwf, budget, expression, pre, post, i, out, hexpr, hi, hb, hstop => by
    simp only [Expr.wf, Bool.and_eq_true] at hwf
    simp only [Expr.text, List.length_append] at hb
    obtain ⟨b, rfl⟩ : ∃ b, budget = b + 1 := ⟨budget - 1, by omega⟩
    rw [Parse_eq, Product.parse_text_product first hwf.1 b expression pre (rest.text ++ post) i out
      (by simp [hexpr, Expr.text]) hi (by omega) (ExprRest.text_stops_exprRest rest post hstop)]
    rcases hf : first.words extern_values_ with e | ws
    · simp [advance, Expr.words, hf]
    · simp only [advance]
      rw [ExprRest.parse_text_exprRest rest hwf.2 b expression (pre ++ first.text) post
        (i + first.text.length) (out ++ ws) (by simp [hexpr, Expr.text]) (by simp [hi])
        (by omega) hstop]
      rcases hr : rest.words extern_values_ with e | ws2
      · simp [advance, Expr.words, hf, hr]
      · simp only [advance, Expr.words, hf, hr, Expr.text, List.length_append]
        exact ok_parser_congr (by omega) (by simp)

theorem ExprRest.parse_text_exprRest : ∀ (r : ExprRest), r.wf = true →
    ∀ (budget : Nat) (expression pre post : List Nat) (i : Nat) (out : List Nat),
    expression = pre ++ (r.text ++ post) → i = pre.length → 4 * r.text.length + 1 ≤ budget →
    stopsExpr (post.headD 0) = true →
    ParseLoop char_signed expression extern_values_ budget ⟨i, out⟩
      = advance i out r.text.length (r.words extern_values_)
  | .nil, _, budget, expression, pre, post, i, out, hexpr, hi, hb, hstop => by
    obtain ⟨b, rfl⟩ : ∃ b, budget = b + 1 := ⟨budget - 1, by omega⟩
    rw [ParseLoop_stop]
    · simp [advance, ExprRest.words, ExprRest.text]
    · rw [hexpr, hi, readAt_append_length]
      simpa [ExprRest.text] using hstop
  | .cons minus p rest, hwf, budget, expression, pre, post, i, out, hexpr, hi, hb, hstop => by
    simp only [ExprRest.wf, Bool.and_eq_true] at hwf
    simp only [ExprRest.text, List.length_cons, List.length_append] at hb
    obtain ⟨b, rfl⟩ : ∃ b, budget = b + 1 := ⟨budget - 1, by omega⟩
    have hread : readAt expression i = if minus then 45 else 43 := by
      rw [hexpr, hi, readAt_append_length]; simp [ExprRest.text]
    rw [ParseLoop_op char_signed extern_values_ b expression i out minus hread,
      Product.parse_text_product p hwf.1 b expression (pre ++ [if minus then 45 else 43])
        (rest.text ++ post) (i + 1) out (by simp [hexpr, ExprRest.text]) (by simp [hi])
        (by omega) (ExprRest.text_stops_exprRest rest post hstop)]
    rcases hf : p.words extern_values_ with e | ws
    · simp [advance, ExprRest.words, hf]
    · simp only [advance]
      rw [ExprRest.parse_text_exprRest rest hwf.2 b expression
        (pre ++ (if minus then 45 else 43) :: p.text) post
        (i + 1 + p.text.length) _ (by simp [hexpr, ExprRest.text]) (by simp [hi]; omega)
        (by omega) hstop]
      rcases hr : rest.words extern_values_ with e | ws2
      · simp [advance, ExprRest.words, hf, hr]
      · simp only [advance, ExprRest.words, hf, hr, ExprRest.text, List.length_append,
          List.length_cons]
        exact ok_parser_congr (by omega) (by simp)

theorem Product.parse_text_product : ∀ (p : Product), p.wf = true →
    ∀ (budget : Nat) (expression pre post : List Nat) (i : Nat) (out : List Nat),
    expression = pre ++ (p.text ++ post) → i = pre.length → 4 * p.text.length + 2 ≤ budget →
    stopsProduct (post.headD 0) = true →
    ParseProduct char_signed expression extern_values_ budget ⟨i, out⟩
      = advance i out p.text.length (p.words extern_values_)
  | .mk first rest, hwf, budget, expression, pre, post, i, out, hexpr, hi, hb, hstop => by
    simp only [Product.wf, Bool.and_eq_true] at hwf
    simp only [Product.text, List.length_append] at hb
    obtain ⟨b, rfl⟩ : ∃ b, budget = b + 1 := ⟨budget - 1, by omega⟩
    rw [ParseProduct_eq, Token.parse_text_token first hwf.1 b expression pre
      (rest.text ++ post) i out (by simp [hexpr, Product.text]) hi (by omega)
      (ProductRest.text_stops_productRest rest post hstop)]
    rcases hf : first.words extern_values_ with e | ws
    · simp [advance, Product.words, hf]
    · simp only [advance]
      rw [ProductRest.parse_text_productRest rest hwf.2 b expression (pre ++ first.text) post
        (i + first.text.length) (out ++ ws) (by simp [hexpr, Product.text]) (by simp [hi])
        (by omega) hstop]
      rcases hr : rest.words extern_values_ with e | ws2
      · simp [advance, Product.words, hf, hr]
      · simp only [advance, Product.words, hf, hr, Product.text, List.length_append]
        exact ok_parser_congr (by omega) (by simp)

theorem ProductRest.parse_text_productRest : ∀ (r : ProductRest), r.wf = true →
    ∀ (budget : Nat) (expression pre post : List Nat) (i : Nat) (out : List Nat),
    expression = pre ++ (r.text ++ post) → i = pre.length → 4 * r.text.length + 1 ≤ budget →
    stopsProduct (post.headD 0) = true →
    ParseProductLoop char_signed expression extern_values_ budget ⟨i, out⟩
      = advance i out r.text.length (r.words extern_values_)
  | .nil, _, budget, expression, pre, post, i, out, hexpr, hi, hb, hstop => by
    obtain ⟨b, rfl⟩ : ∃ b, budget = b + 1 := ⟨budget - 1, by omega⟩
    rw [ParseProductLoop_stop]
    · simp [advance, ProductRest.words, ProductRest.text]
    · rw [hexpr, hi, readAt_append_length]
      simpa [ProductRest.text] using hstop
  | .cons t rest, hwf, budget, expression, pre, post, i, out, hexpr, hi, hb, hstop => by
    simp only [ProductRest.wf, Bool.and_eq_true] at hwf
    simp only [ProductRest.text, List.length_cons, List.length_append] at hb
    obtain ⟨b, rfl⟩ : ∃ b, budget = b + 1 := ⟨budget - 1, by omega⟩
    have hread : readAt expression i = 42 := by
      rw [hexpr, hi, readAt_append_length]; simp [ProductRest.text]
    rw [ParseProductLoop_mul char_signed extern_values_ b expression i out hread,
      Token.parse_text_token t hwf.1 b expression (pre ++ [42])
        (rest.text ++ post) (i + 1) out (by simp [hexpr, ProductRest.text]) (by simp [hi])
        (by omega) (ProductRest.text_stops_productRest rest post hstop)]
    rcases hf : t.words extern_values_ with e | ws
    · simp [advance, ProductRest.words, hf]
    · simp only [advance]
      rw [ProductRest.parse_text_productRest rest hwf.2 b expression (pre ++ 42 :: t.text) post
        (i + 1 + t.text.length) _ (by simp [hexpr, ProductRest.text]) (by simp [hi]; omega)
        (by omega) hstop]
      rcases hr : rest.words extern_values_ with e | ws2
      · simp [advance, ProductRest.words, hf, hr]
      · simp only [advance, ProductRest.words, hf, hr, ProductRest.text, List.length_append,
          List.length_cons]
        exact ok_parser_congr (by omega) (by simp)

theorem Token.parse_text_token : ∀ (t : Token), t.wf = true →
    ∀ (budget : Nat) (expression pre post : List Nat) (i : Nat) (out : List Nat),
    expression = pre ++ (t.text ++ post) → i = pre.length → 4 * t.text.length + 1 ≤ budget →
    stopsToken (post.headD 0) = true →
    ParseToken char_signed expression extern_values_ budget ⟨i, out⟩
      = advance i out t.text.length (t.words extern_values_)
  | .neg t, hwf, budget, expression, pre, post, i, out, hexpr, hi, hb, hstop => by
    simp only [Token.wf] at hwf
    simp only [Token.text, List.length_cons] at hb
    obtain ⟨b, rfl⟩ : ∃ b, budget = b + 1 := ⟨budget - 1, by omega⟩
    have hread : readAt expression i = 45 := by
      rw [hexpr, hi, readAt_append_length]; simp [Token.text]
    rw [ParseToken_neg char_signed extern_values_ b expression i out hread,
      Token.parse_text_token t hwf b expression (pre ++ [45]) post (i + 1) out
        (by simp [hexpr, Token.text]) (by simp [hi]) (by omega) hstop]
    rcases hf : t.words extern_values_ with e | ws
    · simp [advance, Token.words, hf]
    · simp only [advance, Token.words, hf, Token.text, List.length_cons]
      exact ok_parser_congr (by omega) (by simp)
  | .paren e, hwf, budget, expression, pre, post, i, out, hexpr, hi, hb, hstop => by
    simp only [Token.wf] at hwf
    simp only [Token.text, List.length_cons, List.length_append, List.length_nil] at hb
    obtain ⟨b, rfl⟩ : ∃ b, budget = b + 1 := ⟨budget - 1, by omega⟩
    have hread : readAt expression i = 40 := by
      rw [hexpr, hi, readAt_append_length]; simp [Token.text]
    rw [ParseToken_paren char_signed extern_values_ b expression i out hread,
      Expr.parse_text_expr e hwf b expression (pre ++ [40]) (41 :: post) (i + 1) out
        (by simp [hexpr, Token.text]) (by simp [hi]) (by omega)
        (show stopsExpr 41 = true by decide)]
    rcases hf : e.words extern_values_ with e | ws
    · simp [advance, Token.words, hf]
    · simp only [advance, Token.words, hf, Token.text, List.length_cons, List.length_append,
        List.length_nil]
      exact ok_parser_congr (by omega) (by simp)
  | .lit digits, hwf, budget, expression, pre, post, i, out, hexpr, hi, hb, hstop => by
    obtain ⟨b, rfl⟩ : ∃ b, budget = b + 1 := ⟨budget - 1, by omega⟩
    cases digits with
    | nil => simp [Token.wf] at hwf
    | cons d ds =>
      simp only [Token.wf, Bool.and_eq_true, List.all_eq_true] at hwf
      exact ParseToken_lit char_signed extern_values_ b expression pre post d ds i out
        hexpr hi hwf.2 hstop
  | .var name, hwf, budget, expression, pre, post, i, out, hexpr, hi, hb, hstop => by
    obtain ⟨b, rfl⟩ : ∃ b, budget = b + 1 := ⟨budget - 1, by omega⟩
    cases name with
    | nil => simp [Token.wf] at hwf
    | cons d ds =>
      simp only [Token.wf, Bool.and_eq_true, List.all_eq_true] at hwf
      exact ParseToken_var char_signed extern_values_ b expression pre post d ds i out
        hexpr hi hwf.2 hstop
  | .call name args, hwf, budget, expression, pre, post, i, out, hexpr, hi, hb, hstop => by
    cases name with
    | nil => simp [Token.wf] at hwf
    | cons d ds =>
      simp only [Token.wf, Bool.and_eq_true, List.all_eq_true] at hwf
      simp only [Token.text, List.length_cons, List.length_append, List.length_nil] at hb
      obtain ⟨b, rfl⟩ : ∃ b, budget = b + 1 := ⟨budget - 1, by omega⟩
      obtain ⟨b2, rfl⟩ : ∃ b2, b = b2 + 1 := ⟨b - 1, by omega⟩
      rw [ParseToken_call char_signed extern_values_ (b2 + 1) expression pre
          (args.text ++ 41 :: post) d ds i out (by simp [hexpr, Token.text]) hi hwf.1.2,
        ParseFunction_eq,
        Arguments.parse_text_arguments args hwf.2 b2 expression (pre ++ (d :: ds) ++ [40]) post
          (i + (d :: ds).length + 1) out 0 (by simp [hexpr, Token.text]) (by simp [hi]; omega)
          (by omega)]
      rcases hf : args.words extern_values_ with e | ws
      · simp [Token.words, hf, advance]
      · simp only [Token.words, hf, advance]
        rcases hn : extern_values_ (d :: ds) with _ | address
        · simp
        · simp only [Token.text, List.length_cons, List.length_append, List.length_nil,
            Nat.zero_add]
          exact ok_parser_congr (by omega) (by simp)

theorem Arguments.parse_text_arguments : ∀ (a : Arguments), a.wf = true →
    ∀ (budget : Nat) (expression pre post : List Nat) (i : Nat) (out : List Nat) (n : Nat),
    expression = pre ++ (a.text ++ 41 :: post) → i = pre.length →
    4 * a.text.length + 4 ≤ budget →
    ParseArguments char_signed expression extern_values_ budget ⟨i, out⟩ n
      = match a.words extern_values_ with
        | .error e => .error e
        | .ok ws => .ok (⟨i + a.text.length + 1, out ++ ws⟩, n + a.length)
  | .nil, _, budget, expression, pre, post, i, out, n, hexpr, hi, hb => by
    obtain ⟨b, rfl⟩ : ∃ b, budget = b + 1 := ⟨budget - 1, by omega⟩
    have hread : readAt expression i = 41 := by
      rw [hexpr, hi, readAt_append_length]; simp [Arguments.text]
    rw [ParseArguments_close char_signed extern_values_ b expression i out n hread]
    simp [Arguments.words, Arguments.text, Arguments.length]
  | .cons e .nil, hwf, budget, expression, pre, post, i, out, n, hexpr, hi, hb => by
    simp only [Arguments.wf, Bool.and_eq_true] at hwf
    simp only [Arguments.text] at hb hexpr
    obtain ⟨b, rfl⟩ : ∃ b, budget = b + 1 := ⟨budget - 1, by omega⟩
    obtain ⟨c, r, hc, hstart⟩ := Expr.text_head_expr e hwf.1
    have hread : readAt expression i = c := by
      rw [hexpr, hi, readAt_append_length, hc]; rfl
    rw [ParseArguments_arg char_signed extern_values_ b expression i out n
        (by rw [hread]; exact (startsToken_ne c hstart).1),
      Expr.parse_text_expr e hwf.1 b expression pre (41 :: post) i out hexpr hi (by omega)
        (show stopsExpr 41 = true by decide)]
    rcases hf : e.words extern_values_ with e | ws
    · simp [advance, Arguments.words, hf]
    · have hread2 : readAt expression (i + e.text.length) = 41 := by
        rw [hexpr, hi, ← List.append_assoc, ← List.length_append, readAt_append_length]; rfl
      simp [advance, Arguments.words, hf, hread2, Arguments.text, Arguments.length]
  | .cons e (.cons e2 rest), hwf, budget, expression, pre, post, i, out, n, hexpr, hi, hb => by
    simp only [Arguments.wf, Bool.and_eq_true] at hwf
    simp only [Arguments.text, List.length_append, List.length_cons] at hb
    obtain ⟨b, rfl⟩ : ∃ b, budget = b + 1 := ⟨budget - 1, by omega⟩
    obtain ⟨c, r, hc, hstart⟩ := Expr.text_head_expr e hwf.1
    have hexpr2 : expression
        = pre ++ (e.text ++ 44 :: ((Arguments.cons e2 rest).text ++ 41 :: post)) := by
      simp [hexpr, Arguments.text]
    have hread : readAt expression i = c := by
      rw [hexpr2, hi, readAt_append_length, hc]; rfl
    rw [ParseArguments_arg char_signed extern_values_ b expression i out n
        (by rw [hread]; exact (startsToken_ne c hstart).1),
      Expr.parse_text_expr e hwf.1 b expression pre
        (44 :: ((Arguments.cons e2 rest).text ++ 41 :: post)) i out hexpr2 hi (by omega)
        (show stopsExpr 44 = true by decide)]
    rcases hf : e.words extern_values_ with e | ws
    · simp [advance, Arguments.words, hf]
    · have hread2 : readAt expression (i + e.text.length) = 44 := by
        rw [hexpr2, hi, ← List.append_assoc, ← List.length_append, readAt_append_length]; rfl
      simp only [advance, hread2, if_true]
      rw [Arguments.parse_text_arguments (.cons e2 rest) (by simpa [Arguments.wf] using hwf.2)
        b expression
        (pre ++ e.text ++ [44]) post (i + e.text.length + 1) (out ++ ws) (n + 1)
        (by simp [hexpr2]) (by simp [hi]; omega) (by omega)]
      rw [Arguments.words_cons extern_values_ e, hf]
      rcases hr : (Arguments.cons e2 rest).words extern_values_ with e | ws2
      · rfl
      · simp only [Arguments.text, Arguments.length, List.length_append, List.length_cons,
          List.append_assoc]
        have h1 : i + e.text.length + 1 + (Arguments.cons e2 rest).text.length + 1
            = i + (e.text.length + ((Arguments.cons e2 rest).text.length + 1)) + 1 := by omega
        have h2 : n + 1 + (rest.length + 1) = n + (rest.length + 1 + 1) := by omega
        rw [h1, h2]

end

end OnText

/-- On the text of a well-formed expression, `GetInstructionsBuffer` returns the prologue, the
expected words and the epilogue, or the first failure. -/
theorem GetInstructionsBuffer_text (char_signed : Bool) (extern_values_ : List Nat → Option Int)
    (e : Expr) (hwf : e.wf = true) :
    GetInstructionsBuffer char_signed extern_values_ e.text
      = match e.words extern_values_ with
        | .error err => .error err
        | .ok ws => .ok (PushR4LR :: (ws ++ [PopR0, PopR4LR, BxLR])) := by
  unfold GetInstructionsBuffer
  simp only [PushInstruction_eq, List.nil_append]
  rw [Expr.parse_text_expr char_signed extern_values_ e hwf (parseBudget e.text) e.text [] [] 0
    [PushR4LR] (by simp) rfl (by unfold parseBudget; omega) (by decide)]
  rcases e.words extern_values_ with err | ws
  · rfl
  · simp [advance]

/-! ## The words of `MoveValueToR0` -/

theorem and_4095 (v : Nat) : v &&& 4095 = v % 4096 := Nat.and_pow_two_sub_one_eq_mod v 12

theorem and_61440 (v : Nat) : v &&& 61440 = v / 4096 % 16 * 4096 := by
  apply Nat.eq_of_testBit_eq
  intro i
  have h1 : (61440 : Nat) = (2 ^ 4 - 1) <<< 12 := by decide
  have h2 : v / 4096 % 16 * 4096 = ((v >>> 12) % 2 ^ 4) <<< 12 := by
    simp [Nat.shiftLeft_eq, Nat.shiftRight_eq_div_pow]
  rw [h2, Nat.testBit_and, h1]
  simp only [Nat.testBit_shiftLeft, Nat.testBit_two_pow_sub_one, Nat.testBit_mod_two_pow,
    Nat.testBit_shiftRight]
  by_cases h : i ≥ 12
  · have h3 : 12 + (i - 12) = i := by omega
    simp only [h, h3, decide_True, Bool.true_and]
    exact Bool.and_comm _ _
  · simp [h]

theorem or_low20 (k s : Nat) (hs : s < 1048576) : 1048576 * k ||| s = 1048576 * k + s :=
  (Nat.mul_add_lt_is_or (i := 20) hs k).symm

theorem or_low16 (c a : Nat) (ha : a < 65536) : a ||| 65536 * c = 65536 * c + a := by
  rw [Nat.or_comm]; exact (Nat.mul_add_lt_is_or (i := 16) ha c).symm

theorem or_low12 (c a : Nat) (ha : a < 4096) : a ||| 4096 * c = 4096 * c + a := by
  rw [Nat.or_comm]; exact (Nat.mul_add_lt_is_or (i := 12) ha c).symm

/-- The word built from a base word with zero low 20 bits, in arithmetic form. -/
theorem encodeImm16_eq (k v : Nat) :
    encodeImm16 (1048576 * k) v = 1048576 * k + v % 4096 + v / 4096 % 16 * 65536 := by
  unfold encodeImm16
  have e1 : (1 <<< 12 : Nat) - 1 = 4095 := by decide
  have e2 : (((1 <<< 4 : Nat) - 1) <<< 12) = 61440 := by decide
  rw [e1, e2, and_4095, and_61440, Nat.shiftLeft_eq]
  have h3 : v / 4096 % 16 * 4096 * 2 ^ 4 % 4294967296 = 65536 * (v / 4096 % 16) := by omega
  rw [h3, Nat.or_assoc, or_low16 _ _ (by omega), or_low20 _ _ (by omega)]
  omega

theorem imm16_eq (w : Nat) : imm16 w = w % 4096 + w / 65536 % 16 * 4096 := by
  unfold imm16
  have e1 : (0xFFF : Nat) = 4095 := by decide
  have e2 : (0xF000 : Nat) = 61440 := by decide
  rw [e1, e2, and_4095, and_61440, Nat.shiftRight_eq_div_pow]
  have h3 : w / 2 ^ 4 / 4096 % 16 * 4096 = 4096 * (w / 65536 % 16) := by omega
  rw [h3, or_low12 _ _ (by omega)]
  omega

theorem moveWords_eq (x : Int) :
    moveWords x = [encodeImm16 MovwR0 (toUInt32 (x % 65536)),
      encodeImm16 MovtR0 (toUInt32 (Int.shiftRight x 16))] := by
  simp [moveWords, MoveValueToR0, PushInstruction, encodeImm16, Nat.or_assoc]

theorem toUInt32_low (x : Int) : toUInt32 (x % 65536) = toUInt32 x % 65536 := by
  unfold toUInt32
  omega

theorem toUInt32_high (x : Int) :
    toUInt32 (Int.shiftRight x 16) % 65536 = toUInt32 x / 65536 := by
  have h : Int.shiftRight x 16 = x / ((2 ^ 16 : Nat) : Int) := Int.shiftRight_eq_div_pow x 16
  rw [h]
  unfold toUInt32
  omega

/-- The two words of `MoveValueToR0 x` in arithmetic form, from the 32-bit pattern of `x`. -/
theorem moveWords_arith (x : Int) :
    moveWords x
      = [3808428032 + toUInt32 x % 4096 + toUInt32 x / 4096 % 16 * 65536,
         3812622336 + toUInt32 x / 65536 % 4096 + toUInt32 x / 268435456 * 65536] := by
  have hw : MovwR0 = 1048576 * 3632 := by decide
  have ht : MovtR0 = 1048576 * 3636 := by decide
  have hl := toUInt32_low x
  have hh := toUInt32_high x
  have hb : toUInt32 x < 4294967296 := by unfold toUInt32; omega
  rw [moveWords_eq, hw, ht, encodeImm16_eq, encodeImm16_eq, hl]
  congr 1
  · omega
  · congr 1
    omega

theorem and_shifted_mask (v n k : Nat) :
    v &&& ((2 ^ n - 1) <<< k) = v / 2 ^ k % 2 ^ n * 2 ^ k := by
  apply Nat.eq_of_testBit_eq
  intro i
  have h2 : v / 2 ^ k % 2 ^ n * 2 ^ k = ((v >>> k) % 2 ^ n) <<< k := by
    simp [Nat.shiftLeft_eq, Nat.shiftRight_eq_div_pow]
  rw [h2, Nat.testBit_and]
  simp only [Nat.testBit_shiftLeft, Nat.testBit_two_pow_sub_one, Nat.testBit_mod_two_pow,
    Nat.testBit_shiftRight]
  by_cases h : i ≥ k
  · have h3 : k + (i - k) = i := by omega
    simp only [h, h3, decide_True, Bool.true_and]
    exact Bool.and_comm _ _
  · simp [h]

/-- The bits of a word outside the immediate fields [11:0] and [19:16]. -/
theorem and_outside_imm16 (w : Nat) :
    w &&& 0xFFF0F000 = w / 1048576 % 4096 * 1048576 + w / 4096 % 16 * 4096 := by
  have e1 : (0xFFF0F000 : Nat) = ((2 ^ 12 - 1) <<< 20) ||| ((2 ^ 4 - 1) <<< 12) := by decide
  rw [e1, Nat.and_or_distrib_left, and_shifted_mask, and_shifted_mask]
  have h : w / 2 ^ 20 % 2 ^ 12 * 2 ^ 20 = 1048576 * (w / 1048576 % 4096) := by omega
  rw [h, or_low20 _ _ (by omega)]
  omega

theorem outside_imm16_arith (k a c : Nat) (hk : k < 4096) (ha : a < 4096) (hc : c < 16) :
    (1048576 * k + a + c * 65536) / 1048576 % 4096 * 1048576
      + (1048576 * k + a + c * 65536) / 4096 % 16 * 4096 = 1048576 * k := by
  have h1 : (1048576 * k + a + c * 65536) / 1048576 = k := by omega
  have h2 : (1048576 * k + a + c * 65536) / 4096 = 256 * k + 16 * c := by omega
  rw [h1, h2]
  omega

/-- The formula `base | (v & 0x0FFF) | ((v & 0xF000) << 4)` in arithmetic form. -/
theorem imm16_formula_eq (k v : Nat) :
    1048576 * k ||| (v &&& 0x0FFF) ||| ((v &&& 0xF000) <<< 4)
      = 1048576 * k + v % 4096 + v / 4096 % 16 * 65536 := by
  have e1 : (0x0FFF : Nat) = 4095 := by decide
  have e2 : (0xF000 : Nat) = 61440 := by decide
  rw [e1, e2, and_4095, and_61440, Nat.shiftLeft_eq]
  have h3 : v / 4096 % 16 * 4096 * 2 ^ 4 = 65536 * (v / 4096 % 16) := by omega
  rw [h3, Nat.or_assoc, or_low16 _ _ (by omega), or_low20 _ _ (by omega)]
  omega

/-! ## C3, C4: the immediate loader -/

/-- C3: for every `int` value `x`, negative ones included, `MoveValueToR0 x` appends exactly two
words, `0xe3000000 | (lo & 0x0FFF) | ((lo & 0xF000) << 4)` and
`0xe3400000 | (hi & 0x0FFF) | ((hi & 0xF000) << 4)` with `lo = x & 0xFFFF` and
`hi = (x >> 16) & 0xFFFF` (arithmetic shift), and neither word differs from its base word
outside bits [11:0] and [19:16]. -/
theorem MoveValueToR0_two_words (p : Parser) (x : Int) :
    MoveValueToR0 p x
        = { index_ := p.index_,
            out_ := p.out_ ++
              [0xe3000000 ||| ((x % 65536).toNat &&& 0x0FFF)
                  ||| (((x % 65536).toNat &&& 0xF000) <<< 4),
               0xe3400000 ||| ((Int.shiftRight x 16 % 65536).toNat &&& 0x0FFF)
                  ||| (((Int.shiftRight x 16 % 65536).toNat &&& 0xF000) <<< 4)] }
      ∧ (0xe3000000 ||| ((x % 65536).toNat &&& 0x0FFF)
            ||| (((x % 65536).toNat &&& 0xF000) <<< 4)) &&& 0xFFF0F000 = 0xe3000000
      ∧ (0xe3400000 ||| ((Int.shiftRight x 16 % 65536).toNat &&& 0x0FFF)
            ||| (((Int.shiftRight x 16 % 65536).toNat &&& 0xF000) <<< 4)) &&& 0xFFF0F000
          = 0xe3400000 := by
  have hw : (0xe3000000 : Nat) = 1048576 * 3632 := by decide
  have ht : (0xe3400000 : Nat) = 1048576 * 3636 := by decide
  have hsh : Int.shiftRight x 16 = x / ((2 ^ 16 : Nat) : Int) := Int.shiftRight_eq_div_pow x 16
  have hlo : (x % 65536).toNat = toUInt32 x % 65536 := by unfold toUInt32; omega
  have hhi : (Int.shiftRight x 16 % 65536).toNat = toUInt32 x / 65536 := by
    rw [hsh]; unfold toUInt32; omega
  have hb : toUInt32 x < 4294967296 := by unfold toUInt32; omega
  rw [hw, ht, imm16_formula_eq, imm16_formula_eq, and_outside_imm16, and_outside_imm16]
  refine ⟨?_, outside_imm16_arith _ _ _ (by omega) (Nat.mod_lt _ (by omega))
    (Nat.mod_lt _ (by omega)), outside_imm16_arith _ _ _ (by omega) (Nat.mod_lt _ (by omega))
    (Nat.mod_lt _ (by omega))⟩
  rw [MoveValueToR0_eq, moveWords_arith, hlo, hhi]
  have h1 : 1048576 * 3632 + toUInt32 x % 65536 % 4096 + toUInt32 x % 65536 / 4096 % 16 * 65536
      = 3808428032 + toUInt32 x % 4096 + toUInt32 x / 4096 % 16 * 65536 := by omega
  have h2 : 1048576 * 3636 + toUInt32 x / 65536 % 4096 + toUInt32 x / 65536 / 4096 % 16 * 65536
      = 3812622336 + toUInt32 x / 65536 % 4096 + toUInt32 x / 268435456 * 65536 := by omega
  rw [h1, h2]

/-- C4: round trip of the immediate loader. For every `int` value `x`, the two words `w1`, `w2`
that `MoveValueToR0 x` appends decode, with `imm16 w = (w & 0xFFF) | ((w >> 4) & 0xF000)`, to
the 32-bit pattern of `x`: `imm16 w1 | (imm16 w2 << 16) = x mod 2 ^ 32`; so every pattern `n`
in `[0, 2 ^ 32)` is reconstructed. -/
theorem MoveValueToR0_round_trip (p : Parser) :
    (∀ x : Int, ∃ w1 w2, (MoveValueToR0 p x).out_ = p.out_ ++ [w1, w2]
        ∧ imm16 w1 ||| (imm16 w2 <<< 16) = toUInt32 x)
      ∧ (∀ n : Nat, ∃ w1 w2, (MoveValueToR0 p (toInt32 n)).out_ = p.out_ ++ [w1, w2]
        ∧ imm16 w1 ||| (imm16 w2 <<< 16) = n % 4294967296) := by
  have key : ∀ x : Int, ∃ w1 w2, (MoveValueToR0 p x).out_ = p.out_ ++ [w1, w2]
      ∧ imm16 w1 ||| (imm16 w2 <<< 16) = toUInt32 x := by
    intro x
    have hb : toUInt32 x < 4294967296 := by unfold toUInt32; omega
    refine ⟨_, _, by rw [MoveValueToR0_eq, moveWords_arith], ?_⟩
    rw [imm16_eq, imm16_eq, Nat.shiftLeft_eq]
    have h1 : (3812622336 + toUInt32 x / 65536 % 4096 + toUInt32 x / 268435456 * 65536) % 4096
          + (3812622336 + toUInt32 x / 65536 % 4096 + toUInt32 x / 268435456 * 65536)
            / 65536 % 16 * 4096 = toUInt32 x / 65536 := by omega
    have h2 : (3808428032 + toUInt32 x % 4096 + toUInt32 x / 4096 % 16 * 65536) % 4096
          + (3808428032 + toUInt32 x % 4096 + toUInt32 x / 4096 % 16 * 65536)
            / 65536 % 16 * 4096 = toUInt32 x % 65536 := by omega
    rw [h1, h2]
    have h3 : toUInt32 x / 65536 * 2 ^ 16 = 65536 * (toUInt32 x / 65536) := by omega
    rw [h3, or_low16 _ _ (by omega)]
    omega
  refine ⟨key, fun n => ?_⟩
  obtain ⟨w1, w2, h1, h2⟩ := key (toInt32 n)
  refine ⟨w1, w2, h1, ?_⟩
  rw [h2]
  unfold toUInt32 toInt32
  split <;> omega

/-! ## Which expressions compile -/

section Outcomes

variable (extern_values_ : List Nat → Option Int)

theorem Outcome.seq {a b : Except ParseError (List Nat)} {A B : List Token}
    (f : List Nat → List Nat → List Nat) :
    Outcome extern_values_ a A → Outcome extern_values_ b B →
    Outcome extern_values_
      (match a with
        | .error e => .error e
        | .ok ws =>
          match b with
          | .error e => .error e
          | .ok ws2 => .ok (f ws ws2)) (A ++ B) := by
  intro ha hb
  obtain ⟨ha1, ha2⟩ := ha
  obtain ⟨hb1, hb2⟩ := hb
  rcases a with e | ws
  · simp only [Except.isOk, Except.toBool] at ha1
    refine ⟨by simp [Except.isOk, Except.toBool, ← ha1], ?_⟩
    intro err herr
    rcases ha2 err herr with h | ⟨h, h2⟩
    · exact Or.inl h
    · exact Or.inr ⟨h, by simp [h2]⟩
  · simp only [Except.isOk, Except.toBool] at ha1
    rcases b with e | ws2
    · simp only [Except.isOk, Except.toBool] at hb1
      refine ⟨by simp [Except.isOk, Except.toBool, ← hb1], ?_⟩
      intro err herr
      rcases hb2 err herr with h | ⟨h, h2⟩
      · exact Or.inl h
      · exact Or.inr ⟨h, by simp [h2]⟩
    · simp only [Except.isOk, Except.toBool] at hb1
      refine ⟨by simp [Except.isOk, Except.toBool, ← ha1, ← hb1], ?_⟩
      intro err herr
      cases herr

theorem Outcome.map {a : Except ParseError (List Nat)} {A : List Token} (t : Token)
    (f : List Nat → List Nat) (ht : compiles extern_values_ t = true) :
    Outcome extern_values_ a A →
    Outcome extern_values_
      (match a with
        | .error e => .error e
        | .ok ws => .ok (f ws)) (t :: A) := by
  intro ha
  obtain ⟨ha1, ha2⟩ := ha
  have hl : literalFits t = true := by
    simp only [compiles, Bool.and_eq_true] at ht
    exact ht.1
  rcases a with e | ws
  · simp only [Except.isOk, Except.toBool] at ha1
    refine ⟨by simp [Except.isOk, Except.toBool, ← ha1], ?_⟩
    intro err herr
    rcases ha2 err herr with h | ⟨h, h2⟩
    · exact Or.inl h
    · exact Or.inr ⟨h, by simp [h2]⟩
  · simp only [Except.isOk, Except.toBool] at ha1
    refine ⟨by simp [Except.isOk, Except.toBool, ← ha1, ht], ?_⟩
    intro err herr
    cases herr

mutual

theorem Expr.words_outcome_expr : ∀ (e : Expr),
    Outcome extern_values_ (e.words extern_values_) e.tokens
  | .mk first rest => by
    rw [Expr.words, Expr.tokens]
    exact Outcome.seq extern_values_ _ (Product.words_outcome_product first)
      (ExprRest.words_outcome_exprRest rest)

theorem ExprRest.words_outcome_exprRest : ∀ (r : ExprRest),
    Outcome extern_values_ (r.words extern_values_) r.tokens
  | .nil => by
    rw [ExprRest.words, ExprRest.tokens]
    exact ⟨rfl, fun err h => by cases h⟩
  | .cons minus p rest => by
    rw [ExprRest.words, ExprRest.tokens]
    exact Outcome.seq extern_values_ _ (Product.words_outcome_product p)
      (ExprRest.words_outcome_exprRest rest)

theorem Product.words_outcome_product : ∀ (p : Product),
    Outcome extern_values_ (p.words extern_values_) p.tokens
  | .mk first rest => by
    rw [Product.words, Product.tokens]
    exact Outcome.seq extern_values_ _ (Token.words_outcome_token first)
      (ProductRest.words_outcome_productRest rest)

theorem ProductRest.words_outcome_productRest : ∀ (r : ProductRest),
    Outcome extern_values_ (r.words extern_values_) r.tokens
  | .nil => by
    rw [ProductRest.words, ProductRest.tokens]
    exact ⟨rfl, fun err h => by cases h⟩
  | .cons t rest => by
    rw [ProductRest.words, ProductRest.tokens]
    exact Outcome.seq extern_values_ _ (Token.words_outcome_token t)
      (ProductRest.words_outcome_productRest rest)

theorem Token.words_outcome_token : ∀ (t : Token),
    Outcome extern_values_ (t.words extern_values_) t.tokens
  | .neg t => by
    rw [Token.words, Token.tokens]
    exact Outcome.map extern_values_ _ _ rfl (Token.words_outcome_token t)
  | .paren e => by
    rw [Token.words, Token.tokens]
    have h := Outcome.map extern_values_ (.paren e) id rfl (Expr.words_outcome_expr e)
    rcases hw : e.words extern_values_ with err | ws
    · rw [hw] at h; exact h
    · rw [hw] at h; exact h
  | .lit digits => by
    rw [Token.words, Token.tokens]
    unfold stoi
    by_cases hv : decimalValue digits ≤ 2147483647
    · simp only [hv, if_true]
      refine ⟨by simp [Except.isOk, Except.toBool, compiles, literalFits, nameBound, hv], ?_⟩
      intro err herr
      cases herr
    · simp only [hv, if_false]
      refine ⟨by simp [Except.isOk, Except.toBool, compiles, literalFits, hv], ?_⟩
      intro err herr
      cases herr
      exact Or.inr ⟨rfl, by simp [literalFits, hv]⟩
  | .var name => by
    rw [Token.words, Token.tokens]
    rcases hn : extern_values_ name with _ | address
    · refine ⟨by simp [Except.isOk, Except.toBool, compiles, nameBound, hn], ?_⟩
      intro err herr
      cases herr
      exact Or.inl rfl
    · refine ⟨by simp [Except.isOk, Except.toBool, compiles, nameBound, literalFits, hn], ?_⟩
      intro err herr
      cases herr
  | .call name args => by
    rw [Token.words, Token.tokens]
    obtain ⟨h1, h2⟩ := Arguments.words_outcome_arguments args
    rcases ha : args.words extern_values_ with e | ws
    · rw [ha] at h1 h2
      simp only [Except.isOk, Except.toBool] at h1
      refine ⟨by simp [Except.isOk, Except.toBool, ← h1], ?_⟩
      intro err herr
      rcases h2 err herr with h | ⟨h, h3⟩
      · exact Or.inl h
      · exact Or.inr ⟨h, by simp [h3]⟩
    · rw [ha] at h1
      simp only [Except.isOk, Except.toBool] at h1
      rcases hn : extern_values_ name with _ | address
      · refine ⟨by simp [Except.isOk, Except.toBool, compiles, nameBound, hn], ?_⟩
        intro err herr
        cases herr
        exact Or.inl rfl
      · refine ⟨by
          simp [Except.isOk, Except.toBool, compiles, nameBound, literalFits, hn, ← h1], ?_⟩
        intro err herr
        cases herr

theorem Arguments.words_outcome_arguments : ∀ (a : Arguments),
    Outcome extern_values_ (a.words extern_values_) a.tokens
  | .nil => by
    rw [Arguments.words, Arguments.tokens]
    exact ⟨rfl, fun err h => by cases h⟩
  | .cons e rest => by
    rw [Arguments.words, Arguments.tokens]
    exact Outcome.seq extern_values_ _ (Expr.words_outcome_expr e)
      (Arguments.words_outcome_arguments rest)

end

end Outcomes

theorem all_literalFits_iff (toks : List Token) :
    toks.all literalFits = true
      ↔ ∀ d ∈ toks.filterMap Token.digits?, decimalValue d ≤ 2147483647 := by
  induction toks with
  | nil => simp
  | cons t toks ih =>
    cases t <;> simp [literalFits, Token.digits?, ih]

theorem all_nameBound_iff (extern_values_ : List Nat → Option Int) (toks : List Token) :
    toks.all (nameBound extern_values_) = true
      ↔ ∀ n ∈ toks.filterMap Token.name?, extern_values_ n ≠ none := by
  induction toks with
  | nil => simp
  | cons t toks ih =>
    cases t <;> simp [nameBound, Token.name?, ih, Option.isSome_iff_ne_none]

theorem all_compiles (extern_values_ : List Nat → Option Int) (toks : List Token) :
    toks.all (compiles extern_values_)
      = (toks.all literalFits && toks.all (nameBound extern_values_)) := by
  induction toks with
  | nil => rfl
  | cons t toks ih =>
    simp only [List.all_cons, ih, compiles]
    cases literalFits t <;> cases nameBound extern_values_ t <;> simp

/-- The result of `GetInstructionsBuffer` on a well-formed text, by the tokens of the
expression. -/
theorem GetInstructionsBuffer_outcome (char_signed : Bool)
    (extern_values_ : List Nat → Option Int) (e : Expr) (hwf : e.wf = true) :
    ((∃ ws, GetInstructionsBuffer char_signed extern_values_ e.text = .ok ws)
        ↔ e.tokens.all (compiles extern_values_) = true)
      ∧ ∀ err, GetInstructionsBuffer char_signed extern_values_ e.text = .error err →
          err = .lookup_failure
            ∨ (err = .literal_out_of_range ∧ e.tokens.all literalFits = false) := by
  rw [GetInstructionsBuffer_text char_signed extern_values_ e hwf]
  obtain ⟨h1, h2⟩ := Expr.words_outcome_expr extern_values_ e
  rcases hw : e.words extern_values_ with err | ws
  · rw [hw] at h1 h2
    simp only [Except.isOk, Except.toBool] at h1
    refine ⟨Iff.intro (fun h => ?_) (fun h => by rw [h] at h1; cases h1), ?_⟩
    · obtain ⟨ws, h⟩ := h
      cases h
    intro err2 h
    exact h2 err2 h
  · rw [hw] at h1
    simp only [Except.isOk, Except.toBool] at h1
    refine ⟨Iff.intro (fun _ => h1.symm) (fun _ => ⟨_, rfl⟩), ?_⟩
    intro err2 h
    cases h

/-! ## C9, C10: failures -/

/-- C9: for every well-formed expression whose literals all fit in a signed 32-bit integer,
compilation fails with a lookup failure if and only if some variable or function name that
occurs in the expression is absent from the symbol table, and then no instruction vector is
returned. -/
theorem unknown_symbol (char_signed : Bool) (extern_values_ : List Nat → Option Int)
    (e : Expr) (hwf : e.wf = true)
    (hfit : e.literals.all (fun d => decide (decimalValue d ≤ 2147483647)) = true) :
    (GetInstructionsBuffer char_signed extern_values_ e.text = .error .lookup_failure
        ↔ ∃ n ∈ e.names, extern_values_ n = none)
      ∧ ((∃ n ∈ e.names, extern_values_ n = none) →
          ∀ ws, GetInstructionsBuffer char_signed extern_values_ e.text ≠ .ok ws) := by
  obtain ⟨h1, h2⟩ := GetInstructionsBuffer_outcome char_signed extern_values_ e hwf
  have hf : e.tokens.all literalFits = true := by
    rw [all_literalFits_iff]
    intro d hd
    have h := List.all_eq_true.1 hfit d hd
    simpa using h
  have hb : e.tokens.all (nameBound extern_values_) = true
      ↔ ¬ ∃ n ∈ e.names, extern_values_ n = none := by
    rw [all_nameBound_iff]
    simp [Expr.names]
  rw [all_compiles, hf, Bool.true_and] at h1
  have key : (∃ n ∈ e.names, extern_values_ n = none) →
      ∀ ws, GetInstructionsBuffer char_signed extern_values_ e.text ≠ .ok ws := by
    intro hex ws hws
    exact hb.1 (h1.1 ⟨ws, hws⟩) hex
  refine ⟨⟨?_, ?_⟩, key⟩
  · intro herr
    by_contra hno
    obtain ⟨ws, hws⟩ := h1.2 (hb.2 hno)
    rw [hws] at herr
    cases herr
  · intro hex
    rcases hres : GetInstructionsBuffer char_signed extern_values_ e.text with err | ws
    · rcases h2 err hres with h | ⟨_, h⟩
      · rw [h]
      · rw [hf] at h; cases h
    · exact absurd hres (key hex ws)

theorem unknown_symbol_witness :
    xPlusCall.text = bytes "x+f(2)"
      ∧ GetInstructionsBuffer false onlyF xPlusCall.text = .error .lookup_failure :=
  ⟨by decide!,
    (unknown_symbol false onlyF xPlusCall (by decide!) (by decide!)).1.2
      ⟨bytes "x", by decide!, by decide!⟩⟩

/-- C10: for every well-formed expression, if some digit run has a base-10 value above
`2 ^ 31 - 1` then compilation fails and returns no code; if every digit run has a value of at
most `2 ^ 31 - 1`, whatever its leading zeros, then compilation does not fail on a literal, and
it succeeds when every name is bound. The text `2147483648` fails and `2147483647` compiles. -/
theorem literal_overflow (char_signed : Bool) (extern_values_ : List Nat → Option Int)
    (e : Expr) (hwf : e.wf = true) :
    ((∃ d ∈ e.literals, 2147483647 < decimalValue d) →
        ∃ err, GetInstructionsBuffer char_signed extern_values_ e.text = .error err)
      ∧ ((∀ d ∈ e.literals, decimalValue d ≤ 2147483647) →
          GetInstructionsBuffer char_signed extern_values_ e.text
              ≠ .error .literal_out_of_range
            ∧ ((∀ n ∈ e.names, extern_values_ n ≠ none) →
              ∃ ws, GetInstructionsBuffer char_signed extern_values_ e.text = .ok ws))
      ∧ GetInstructionsBuffer char_signed extern_values_ (bytes "2147483648")
          = .error .literal_out_of_range
      ∧ GetInstructionsBuffer char_signed extern_values_ (bytes "2147483647")
          = .ok [0xe92d4010, 0xe30f0fff, 0xe3470fff, 0xe52d0004, 0xe49d0004, 0xe8bd4010,
              0xe12fff1e]
      ∧ GetInstructionsBuffer char_signed extern_values_ (bytes "0002147483647")
          = .ok [0xe92d4010, 0xe30f0fff, 0xe3470fff, 0xe52d0004, 0xe49d0004, 0xe8bd4010,
              0xe12fff1e] := by
  obtain ⟨h1, h2⟩ := GetInstructionsBuffer_outcome char_signed extern_values_ e hwf
  rw [all_compiles] at h1
  refine ⟨?_, ?_, ?_, ?_, ?_⟩
  · rintro ⟨d, hd, hbig⟩
    have hf : e.tokens.all literalFits = false := by
      rcases hall : e.tokens.all literalFits with _ | _
      · rfl
      · exact absurd ((all_literalFits_iff e.tokens).1 hall d hd) (by omega)
    rcases hres : GetInstructionsBuffer char_signed extern_values_ e.text with err | ws
    · exact ⟨err, rfl⟩
    · have := h1.1 ⟨ws, hres⟩
      rw [hf] at this
      cases this
  · intro hfit
    have hf : e.tokens.all literalFits = true := (all_literalFits_iff e.tokens).2 hfit
    refine ⟨?_, ?_⟩
    · intro herr
      rcases h2 _ herr with h | ⟨_, h⟩
      · cases h
      · rw [hf] at h; cases h
    · intro hn
      have hb : e.tokens.all (nameBound extern_values_) = true :=
        (all_nameBound_iff extern_values_ e.tokens).2 hn
      exact h1.2 (by rw [hf, hb]; rfl)
  · have h := GetInstructionsBuffer_text char_signed extern_values_
      (Expr.ofToken (.num "2147483648")) (by decide!)
    have ht : (Expr.ofToken (.num "2147483648")).text = bytes "2147483648" := by decide!
    rw [ht] at h
    rw [h]
    have hs : stoi (bytes "2147483648") = none := by decide!
    simp [Expr.ofToken, Token.num, Expr.words, Product.words, Token.words, hs]
  · have h := GetInstructionsBuffer_text char_signed extern_values_
      (Expr.ofToken (.num "2147483647")) (by decide!)
    have ht : (Expr.ofToken (.num "2147483647")).text = bytes "2147483647" := by decide!
    rw [ht] at h
    rw [h]
    have hs : stoi (bytes "2147483647") = some 2147483647 := by decide!
    have hm : moveWords 2147483647 = [0xe30f0fff, 0xe3470fff] := by decide!
    simp [Expr.ofToken, Token.num, Expr.words, Product.words, Token.words, hs, hm,
      ExprRest.words, ProductRest.words, PushR4LR, PushR0, PopR0, PopR4LR, BxLR]
  · have h := GetInstructionsBuffer_text char_signed extern_values_
      (Expr.ofToken (.num "0002147483647")) (by decide!)
    have ht : (Expr.ofToken (.num "0002147483647")).text = bytes "0002147483647" := by decide!
    rw [ht] at h
    rw [h]
    have hs : stoi (bytes "0002147483647") = some 2147483647 := by decide!
    have hm : moveWords 2147483647 = [0xe30f0fff, 0xe3470fff] := by decide!
    simp [Expr.ofToken, Token.num, Expr.words, Product.words, Token.words, hs, hm,
      ExprRest.words, ProductRest.words, PushR4LR, PushR0, PopR0, PopR4LR, BxLR]

theorem literal_overflow_witness :
    bigLiteral.text = bytes "7*2147483648"
      ∧ ∃ err, GetInstructionsBuffer false noSymbols bigLiteral.text = .error err :=
  ⟨by decide!,
    (literal_overflow false noSymbols bigLiteral (by decide!)).1
      ⟨bytes "2147483648", by decide!, by decide!⟩⟩

/-! ## Running the emitted words -/

section Running

variable (env : Environment)

theorem run_step (w : Nat) (ws : List Nat) (m m2 : Machine) (hw : w ≠ BxLR)
    (hs : step env w m = some m2) : run env (w :: ws) m = run env ws m2 := by
  simp [run, hw, hs]

theorem step_PushR0 (m : Machine) :
    step env PushR0 m = some { m with stack := m.r0 :: m.stack } := rfl

theorem step_PopR0 (m : Machine) (a : Nat) (s : List Nat) (h : m.stack = a :: s) :
    step env PopR0 m = some { m with r0 := a, stack := s } := by
  simp [step, isMovwR0, isMovtR0, PopR0, PushR4LR, PopR4LR, AddR0R1, SubR0R1, MulR0R1, PushR0,
    LdrR0FromR0, MovR4R0, BlxR4, h]

theorem step_PopR1 (m : Machine) (a : Nat) (s : List Nat) (h : m.stack = a :: s) :
    step env PopR1 m = some { m with r1 := a, stack := s } := by
  simp [step, isMovwR0, isMovtR0, PopR0, PopR1, PushR4LR, PopR4LR, AddR0R1, SubR0R1, MulR0R1,
    PushR0, LdrR0FromR0, MovR4R0, BlxR4, h]

theorem step_PopR2 (m : Machine) (a : Nat) (s : List Nat) (h : m.stack = a :: s) :
    step env PopR2 m = some { m with r2 := a, stack := s } := by
  simp [step, isMovwR0, isMovtR0, PopR0, PopR1, PopR2, PushR4LR, PopR4LR, AddR0R1, SubR0R1,
    MulR0R1, PushR0, LdrR0FromR0, MovR4R0, BlxR4, h]

theorem step_PopR3 (m : Machine) (a : Nat) (s : List Nat) (h : m.stack = a :: s) :
    step env PopR3 m = some { m with r3 := a, stack := s } := by
  simp [step, isMovwR0, isMovtR0, PopR0, PopR1, PopR2, PopR3, PushR4LR, PopR4LR, AddR0R1,
    SubR0R1, MulR0R1, PushR0, LdrR0FromR0, MovR4R0, BlxR4, h]

theorem step_AddR0R1 (m : Machine) :
    step env AddR0R1 m = some { m with r0 := add32 m.r0 m.r1 } := rfl

theorem step_SubR0R1 (m : Machine) :
    step env SubR0R1 m = some { m with r0 := sub32 m.r0 m.r1 } := rfl

theorem step_MulR0R1 (m : Machine) :
    step env MulR0R1 m = some { m with r0 := mul32 m.r0 m.r1 } := rfl

theorem step_LdrR0FromR0 (m : Machine) :
    step env LdrR0FromR0 m = some { m with r0 := env.memory m.r0 % 4294967296 } := rfl

theorem step_MovR4R0 (m : Machine) : step env MovR4R0 m = some { m with r4 := m.r0 } := rfl

theorem step_PushR4LR (m : Machine) :
    step env PushR4LR m = some { m with stack := m.r4 :: m.lr :: m.stack } := rfl

theorem step_PopR4LR (m : Machine) (a b : Nat) (s : List Nat) (h : m.stack = a :: b :: s) :
    step env PopR4LR m = some { m with r4 := a, lr := b, stack := s } := by
  simp [step, isMovwR0, isMovtR0, PushR4LR, PopR4LR, h]

theorem step_BlxR4 (m : Machine) :
    step env BlxR4 m
      = some { m with
          r0 := (env.functions m.r4).result
            ([m.r0, m.r1, m.r2, m.r3].take (env.functions m.r4).arity) % 4294967296,
          r1 := ((env.functions m.r4).leaves m.r0 m.r1 m.r2 m.r3).1,
          r2 := ((env.functions m.r4).leaves m.r0 m.r1 m.r2 m.r3).2.1,
          r3 := ((env.functions m.r4).leaves m.r0 m.r1 m.r2 m.r3).2.2.1,
          lr := ((env.functions m.r4).leaves m.r0 m.r1 m.r2 m.r3).2.2.2 } := rfl

theorem toUInt32_lt (x : Int) : toUInt32 x < 4294967296 := by
  unfold toUInt32
  omega

/-- The `movw`/`movt` pair of `MoveValueToR0 x` leaves the 32-bit pattern of `x` in `r0`. -/
theorem run_moveWords (x : Int) (rest : List Nat) (m : Machine) :
    run env (moveWords x ++ rest) m = run env rest { m with r0 := toUInt32 x } := by
  have hb := toUInt32_lt x
  rw [moveWords_arith]
  generalize toUInt32 x = n at hb
  have hw1 : 3808428032 + n % 4096 + n / 4096 % 16 * 65536 ≠ BxLR := by
    unfold BxLR; omega
  have hw2 : 3812622336 + n / 65536 % 4096 + n / 268435456 * 65536 ≠ BxLR := by
    unfold BxLR; omega
  have hs1 : step env (3808428032 + n % 4096 + n / 4096 % 16 * 65536) m
      = some { m with r0 := n % 65536 } := by
    have h1 : (3808428032 + n % 4096 + n / 4096 % 16 * 65536) / 1048576 = 3632 := by omega
    have h2 : (3808428032 + n % 4096 + n / 4096 % 16 * 65536) / 4096 % 16 = 0 := by omega
    have h3 : imm16 (3808428032 + n % 4096 + n / 4096 % 16 * 65536) = n % 65536 := by
      rw [imm16_eq]; omega
    simp [step, isMovwR0, h1, h2, h3]
  have hs2 : step env (3812622336 + n / 65536 % 4096 + n / 268435456 * 65536)
      { m with r0 := n % 65536 } = some { m with r0 := n } := by
    have h1 : (3812622336 + n / 65536 % 4096 + n / 268435456 * 65536) / 1048576 = 3636 := by
      omega
    have h2 : (3812622336 + n / 65536 % 4096 + n / 268435456 * 65536) / 4096 % 16 = 0 := by
      omega
    have h3 : imm16 (3812622336 + n / 65536 % 4096 + n / 268435456 * 65536) = n / 65536 := by
      rw [imm16_eq]; omega
    have h4 : n % 65536 &&& 0xFFFF = n % 65536 := by
      have e : (0xFFFF : Nat) = 2 ^ 16 - 1 := by decide
      rw [e, Nat.and_pow_two_sub_one_eq_mod]
      omega
    have h5 : n % 65536 ||| (n / 65536) <<< 16 = n := by
      rw [Nat.shiftLeft_eq]
      have e : n / 65536 * 2 ^ 16 = 65536 * (n / 65536) := by omega
      rw [e, or_low16 _ _ (by omega)]
      omega
    simp [step, isMovwR0, isMovtR0, h1, h2, h3, h4, h5]
  simp only [List.cons_append, List.nil_append]
  rw [run_step env _ _ _ _ hw1 hs1, run_step env _ _ _ _ hw2 hs2]

/-- The words `pop r1; pop r0; op; push r0` replace the two top words of the stack, the right
operand `b` on top of the left operand `a`, by the result. -/
theorem run_binaryWords (minus : Bool) (rest : List Nat) (m : Machine) (a b : Nat)
    (s : List Nat) (h : m.stack = b :: a :: s) :
    ∃ m2, run env (binaryWords (if minus then SubR0R1 else AddR0R1) ++ rest) m = run env rest m2
      ∧ m2.stack = (if minus then sub32 a b else add32 a b) :: s := by
  simp only [binaryWords, List.cons_append, List.nil_append]
  rw [run_step env _ _ _ _ (by decide) (step_PopR1 env m b (a :: s) h),
    run_step env _ _ _ _ (by decide) (step_PopR0 env _ a s rfl)]
  cases minus
  · simp only [Bool.false_eq_true, if_false]
    rw [run_step env _ _ _ _ (by decide) (step_AddR0R1 env _),
      run_step env _ _ _ _ (by decide) (step_PushR0 env _)]
    exact ⟨_, rfl, rfl⟩
  · simp only [if_true]
    rw [run_step env _ _ _ _ (by decide) (step_SubR0R1 env _),
      run_step env _ _ _ _ (by decide) (step_PushR0 env _)]
    exact ⟨_, rfl, rfl⟩

theorem run_mulWords (rest : List Nat) (m : Machine) (a b : Nat)
    (s : List Nat) (h : m.stack = b :: a :: s) :
    ∃ m2, run env (binaryWords MulR0R1 ++ rest) m = run env rest m2
      ∧ m2.stack = mul32 a b :: s := by
  simp only [binaryWords, List.cons_append, List.nil_append]
  rw [run_step env _ _ _ _ (by decide) (step_PopR1 env m b (a :: s) h),
    run_step env _ _ _ _ (by decide) (step_PopR0 env _ a s rfl),
    run_step env _ _ _ _ (by decide) (step_MulR0R1 env _),
    run_step env _ _ _ _ (by decide) (step_PushR0 env _)]
  exact ⟨_, rfl, rfl⟩

theorem mul32_minus_one (a : Nat) : mul32 a 4294967295 = neg32 a := by
  unfold mul32 neg32
  omega

/-- The words after the operand of a unary minus replace the top word of the stack by its
negation. -/
theorem run_negWords (rest : List Nat) (m : Machine) (a : Nat) (s : List Nat)
    (h : m.stack = a :: s) :
    ∃ m2, run env (negWords ++ rest) m = run env rest m2 ∧ m2.stack = neg32 a :: s := by
  simp only [negWords, List.append_assoc]
  rw [run_moveWords]
  simp only [List.cons_append, List.nil_append]
  rw [run_step env _ _ _ _ (by decide) (step_PushR0 env _),
    run_step env _ _ _ _ (by decide) (step_PopR1 env _ (toUInt32 (-1)) (a :: s) (by simp [h])),
    run_step env _ _ _ _ (by decide) (step_PopR0 env _ a s rfl),
    run_step env _ _ _ _ (by decide) (step_MulR0R1 env _),
    run_step env _ _ _ _ (by decide) (step_PushR0 env _)]
  refine ⟨_, rfl, ?_⟩
  have e : toUInt32 (-1) = 4294967295 := by decide
  simp only [e, mul32_minus_one]

theorem run_append_of_exec (ws rest : List Nat) :
    ∀ (m m2 : Machine), exec env ws m = some m2 → BxLR ∉ ws →
      run env (ws ++ rest) m = run env rest m2 := by
  induction ws with
  | nil =>
    intro m m2 h _
    simp only [exec, Option.some.injEq] at h
    rw [h]; rfl
  | cons w ws ih =>
    intro m m2 h hno
    have hw : w ≠ BxLR := fun e => hno (by simp [e])
    simp only [exec] at h
    rcases hs : step env w m with _ | m1
    · rw [hs] at h; cases h
    · rw [hs] at h
      simp only [List.cons_append]
      rw [run_step env w _ m m1 hw hs]
      exact ih m1 m2 h (fun hmem => hno (by simp [hmem]))

theorem popWords_small :
    popWords 0 = [] ∧ popWords 1 = [PopR0] ∧ popWords 2 = [PopR1, PopR0]
      ∧ popWords 3 = [PopR2, PopR1, PopR0] ∧ popWords 4 = [PopR3, PopR2, PopR1, PopR0] := by
  decide

theorem popWords_large (n : Nat) (h : 4 ≤ n) : popWords n = [PopR3, PopR2, PopR1, PopR0] := by
  have h3 : n ≥ 3 := by omega
  have h2 : n ≥ 2 := by omega
  have h1 : n ≥ 1 := by omega
  simp [popWords, popArguments, PushInstruction, pop_instructions, h, h3, h2, h1]

theorem BxLR_not_mem_popWords (n : Nat) : BxLR ∉ popWords n := by
  by_cases h : 4 ≤ n
  · rw [popWords_large n h]; decide
  · obtain ⟨h0, h1, h2, h3, _⟩ := popWords_small
    have hn : n = 0 ∨ n = 1 ∨ n = 2 ∨ n = 3 := by omega
    rcases hn with rfl | rfl | rfl | rfl
    · rw [h0]; decide
    · rw [h1]; decide
    · rw [h2]; decide
    · rw [h3]; decide

theorem exec_step (w : Nat) (ws : List Nat) (m m2 : Machine)
    (hs : step env w m = some m2) : exec env (w :: ws) m = exec env ws m2 := by
  simp [exec, hs]

/-- The pop sequence of a call with at most four arguments, whose values `tops` were pushed left
to right: argument `i` ends in register `R(i-1)` and the stack is back where it was. -/
theorem exec_popWords_le4 (tops : List Nat) (hl : tops.length ≤ 4) (m : Machine)
    (s : List Nat) (h : m.stack = tops.reverse ++ s) :
    ∃ m2, exec env (popWords tops.length) m = some m2
      ∧ [m2.r0, m2.r1, m2.r2, m2.r3].take tops.length = tops
      ∧ m2.stack = s ∧ m2.r4 = m.r4 := by
  obtain ⟨h0, h1, h2, h3, h4⟩ := popWords_small
  match tops, hl, h with
  | [], _, h =>
    have e : popWords ([] : List Nat).length = [] := h0
    exact ⟨m, by rw [e]; rfl, rfl, by simpa using h, rfl⟩
  | [a], _, h =>
    refine ⟨{ m with r0 := a, stack := s }, ?_, rfl, rfl, rfl⟩
    have e : popWords [a].length = [PopR0] := h1
    rw [e, exec_step env _ _ _ _ (step_PopR0 env m a s (by simpa using h))]
    rfl
  | [a, b], _, h =>
    refine ⟨{ m with r0 := a, r1 := b, stack := s }, ?_, rfl, rfl, rfl⟩
    have e : popWords [a, b].length = [PopR1, PopR0] := h2
    rw [e, exec_step env _ _ _ _ (step_PopR1 env m b (a :: s) (by simpa using h)),
      exec_step env _ _ _ _ (step_PopR0 env _ a s rfl)]
    rfl
  | [a, b, c], _, h =>
    refine ⟨{ m with r0 := a, r1 := b, r2 := c, stack := s }, ?_, rfl, rfl, rfl⟩
    have e : popWords [a, b, c].length = [PopR2, PopR1, PopR0] := h3
    rw [e, exec_step env _ _ _ _ (step_PopR2 env m c (b :: a :: s) (by simpa using h)),
      exec_step env _ _ _ _ (step_PopR1 env _ b (a :: s) rfl),
      exec_step env _ _ _ _ (step_PopR0 env _ a s rfl)]
    rfl
  | [a, b, c, d], _, h =>
    refine ⟨{ m with r0 := a, r1 := b, r2 := c, r3 := d, stack := s }, ?_, rfl, rfl, rfl⟩
    have e : popWords [a, b, c, d].length = [PopR3, PopR2, PopR1, PopR0] := h4
    rw [e, exec_step env _ _ _ _ (step_PopR3 env m d (c :: b :: a :: s) (by simpa using h)),
      exec_step env _ _ _ _ (step_PopR2 env _ c (b :: a :: s) rfl),
      exec_step env _ _ _ _ (step_PopR1 env _ b (a :: s) rfl),
      exec_step env _ _ _ _ (step_PopR0 env _ a s rfl)]
    rfl
  | _ :: _ :: _ :: _ :: _ :: _, hl, _ => simp at hl

/-- The pop sequence of a call with four or more arguments: the registers take the last four
arguments and the other arguments stay on the stack. -/
theorem exec_popWords_ge4 (args : List Nat) (hl : 4 ≤ args.length) (m : Machine)
    (s : List Nat) (h : m.stack = args.reverse ++ s) :
    ∃ m2, exec env (popWords args.length) m = some m2
      ∧ [m2.r0, m2.r1, m2.r2, m2.r3] = args.drop (args.length - 4)
      ∧ m2.stack = (args.take (args.length - 4)).reverse ++ s := by
  have hsplit := List.take_append_drop (args.length - 4) args
  have hdl : (args.drop (args.length - 4)).length = 4 := by
    rw [List.length_drop]; omega
  generalize args.drop (args.length - 4) = last at hsplit hdl
  generalize args.take (args.length - 4) = front at hsplit
  match last, hdl with
  | [a, b, c, d], _ =>
    have hst : m.stack = d :: c :: b :: a :: (front.reverse ++ s) := by
      rw [h, ← hsplit]; simp
    refine ⟨{ m with r0 := a, r1 := b, r2 := c, r3 := d, stack := front.reverse ++ s },
      ?_, rfl, rfl⟩
    rw [popWords_large _ hl, exec_step env _ _ _ _ (step_PopR3 env m d _ hst),
      exec_step env _ _ _ _ (step_PopR2 env _ c (b :: a :: (front.reverse ++ s)) rfl),
      exec_step env _ _ _ _ (step_PopR1 env _ b (a :: (front.reverse ++ s)) rfl),
      exec_step env _ _ _ _ (step_PopR0 env _ a (front.reverse ++ s) rfl)]
    rfl

theorem seq_ok {a b : Except ParseError (List Nat)} {f : List Nat → List Nat → List Nat}
    {ws : List Nat} :
    (match a with
      | .error e => Except.error e
      | .ok x =>
        match b with
        | .error e => Except.error e
        | .ok y => (Except.ok (f x y) : Except ParseError (List Nat))) = Except.ok ws →
    ∃ x y, a = .ok x ∧ b = .ok y ∧ ws = f x y := by
  intro h
  rcases a with e | x
  · cases h
  · rcases b with e | y
    · cases h
    · simp only [Except.ok.injEq] at h
      exact ⟨x, y, rfl, rfl, h.symm⟩

theorem map_ok {a : Except ParseError (List Nat)} {f : List Nat → List Nat} {ws : List Nat} :
    (match a with
      | .error e => Except.error e
      | .ok x => (Except.ok (f x) : Except ParseError (List Nat))) = Except.ok ws →
    ∃ x, a = .ok x ∧ ws = f x := by
  intro h
  rcases a with e | x
  · cases h
  · simp only [Except.ok.injEq] at h
    exact ⟨x, rfl, h.symm⟩

theorem stoi_some (digits : List Nat) (value : Int) (h : stoi digits = some value) :
    toUInt32 value = decimalValue digits % 4294967296 := by
  unfold stoi at h
  split at h
  · simp only [Option.some.injEq] at h
    rw [← h]
    unfold toUInt32
    omega
  · cases h

variable (extern_values_ : List Nat → Option Int)

mutual

theorem Expr.run_words_expr : ∀ (e : Expr) (ws : List Nat),
    e.words extern_values_ = .ok ws → e.tokens.all callFits = true →
    ∀ (rest : List Nat) (m : Machine), ∃ m2 top,
      run env (ws ++ rest) m = run env rest m2 ∧ m2.stack = top :: m.stack
        ∧ ∀ v, e.eval extern_values_ env = some v → top = v
  | .mk first rest, ws, hws, hfit, tail, m => by
    rw [Expr.words] at hws
    obtain ⟨w1, w2, hf, hr, rfl⟩ := seq_ok hws
    simp only [Expr.tokens, List.all_append, Bool.and_eq_true] at hfit
    obtain ⟨m1, top1, h1, hs1, hv1⟩ :=
      Product.run_words_product first w1 hf hfit.1 (w2 ++ tail) m
    obtain ⟨m2, top2, h2, hs2, hv2⟩ :=
      ExprRest.run_words_exprRest rest w2 hr hfit.2 tail m1 top1 m.stack hs1
    refine ⟨m2, top2, by rw [List.append_assoc, h1, h2], hs2, ?_⟩
    intro v hv
    rw [Expr.eval] at hv
    rcases hfe : first.eval extern_values_ env with _ | v1
    · rw [hfe] at hv; cases hv
    · rw [hfe] at hv
      rw [hv1 v1 hfe] at hv2
      exact hv2 v hv

theorem ExprRest.run_words_exprRest : ∀ (r : ExprRest) (ws : List Nat),
    r.words extern_values_ = .ok ws → r.tokens.all callFits = true →
    ∀ (rest : List Nat) (m : Machine) (acc : Nat) (s : List Nat), m.stack = acc :: s →
      ∃ m2 top, run env (ws ++ rest) m = run env rest m2 ∧ m2.stack = top :: s
        ∧ ∀ v, r.eval extern_values_ env acc = some v → top = v
  | .nil, ws, hws, _, tail, m, acc, s, hm => by
    rw [ExprRest.words] at hws
    simp only [Except.ok.injEq] at hws
    subst hws
    refine ⟨m, acc, rfl, hm, ?_⟩
    intro v hv
    rw [ExprRest.eval] at hv
    simp only [Option.some.injEq] at hv
    exact hv
  | .cons minus p rest, ws, hws, hfit, tail, m, acc, s, hm => by
    rw [ExprRest.words] at hws
    obtain ⟨w1, w2, hf, hr, rfl⟩ := seq_ok hws
    simp only [ExprRest.tokens, List.all_append, Bool.and_eq_true] at hfit
    obtain ⟨m1, top1, h1, hs1, hv1⟩ := Product.run_words_product p w1 hf hfit.1
      (binaryWords (if minus then SubR0R1 else AddR0R1) ++ (w2 ++ tail)) m
    obtain ⟨m2, h2, hs2⟩ := run_binaryWords env minus (w2 ++ tail) m1 acc top1 s
      (by rw [hs1, hm])
    obtain ⟨m3, top3, h3, hs3, hv3⟩ := ExprRest.run_words_exprRest rest w2 hr hfit.2 tail m2
      (if minus then sub32 acc top1 else add32 acc top1) s hs2
    refine ⟨m3, top3, by simp only [List.append_assoc]; rw [h1, h2, h3], hs3, ?_⟩
    intro v hv
    rw [ExprRest.eval] at hv
    rcases hfe : p.eval extern_values_ env with _ | v1
    · rw [hfe] at hv; cases hv
    · rw [hfe] at hv
      rw [hv1 v1 hfe] at hv3
      exact hv3 v hv

theorem Product.run_words_product : ∀ (p : Product) (ws : List Nat),
    p.words extern_values_ = .ok ws → p.tokens.all callFits = true →
    ∀ (rest : List Nat) (m : Machine), ∃ m2 top,
      run env (ws ++ rest) m = run env rest m2 ∧ m2.stack = top :: m.stack
        ∧ ∀ v, p.eval extern_values_ env = some v → top = v
  | .mk first rest, ws, hws, hfit, tail, m => by
    rw [Product.words] at hws
    obtain ⟨w1, w2, hf, hr, rfl⟩ := seq_ok hws
    simp only [Product.tokens, List.all_append, Bool.and_eq_true] at hfit
    obtain ⟨m1, top1, h1, hs1, hv1⟩ :=
      Token.run_words_token first w1 hf hfit.1 (w2 ++ tail) m
    obtain ⟨m2, top2, h2, hs2, hv2⟩ :=
      ProductRest.run_words_productRest rest w2 hr hfit.2 tail m1 top1 m.stack hs1
    refine ⟨m2, top2, by rw [List.append_assoc, h1, h2], hs2, ?_⟩
    intro v hv
    rw [Product.eval] at hv
    rcases hfe : first.eval extern_values_ env with _ | v1
    · rw [hfe] at hv; cases hv
    · rw [hfe] at hv
      rw [hv1 v1 hfe] at hv2
      exact hv2 v hv

theorem ProductRest.run_words_productRest : ∀ (r : ProductRest) (ws : List Nat),
    r.words extern_values_ = .ok ws → r.tokens.all callFits = true →
    ∀ (rest : List Nat) (m : Machine) (acc : Nat) (s : List Nat), m.stack = acc :: s →
      ∃ m2 top, run env (ws ++ rest) m = run env rest m2 ∧ m2.stack = top :: s
        ∧ ∀ v, r.eval extern_values_ env acc = some v → top = v
  | .nil, ws, hws, _, tail, m, acc, s, hm => by
    rw [ProductRest.words] at hws
    simp only [Except.ok.injEq] at hws
    subst hws
    refine ⟨m, acc, rfl, hm, ?_⟩
    intro v hv
    rw [ProductRest.eval] at hv
    simp only [Option.some.injEq] at hv
    exact hv
  | .cons t rest, ws, hws, hfit, tail, m, acc, s, hm => by
    rw [ProductRest.words] at hws
    obtain ⟨w1, w2, hf, hr, rfl⟩ := seq_ok hws
    simp only [ProductRest.tokens, List.all_append, Bool.and_eq_true] at hfit
    obtain ⟨m1, top1, h1, hs1, hv1⟩ := Token.run_words_token t w1 hf hfit.1
      (binaryWords MulR0R1 ++ (w2 ++ tail)) m
    obtain ⟨m2, h2, hs2⟩ := run_mulWords env (w2 ++ tail) m1 acc top1 s (by rw [hs1, hm])
    obtain ⟨m3, top3, h3, hs3, hv3⟩ := ProductRest.run_words_productRest rest w2 hr hfit.2
      tail m2 (mul32 acc top1) s hs2
    refine ⟨m3, top3, by simp only [List.append_assoc]; rw [h1, h2, h3], hs3, ?_⟩
    intro v hv
    rw [ProductRest.eval] at hv
    rcases hfe : t.eval extern_values_ env with _ | v1
    · rw [hfe] at hv; cases hv
    · rw [hfe] at hv
      rw [hv1 v1 hfe] at hv3
      exact hv3 v hv

theorem Token.run_words_token : ∀ (t : Token) (ws : List Nat),
    t.words extern_values_ = .ok ws → t.tokens.all callFits = true →
    ∀ (rest : List Nat) (m : Machine), ∃ m2 top,
      run env (ws ++ rest) m = run env rest m2 ∧ m2.stack = top :: m.stack
        ∧ ∀ v, t.eval extern_values_ env = some v → top = v
  | .neg t, ws, hws, hfit, tail, m => by
    rw [Token.words] at hws
    obtain ⟨w1, hf, rfl⟩ := map_ok hws
    simp only [Token.tokens, List.all_cons, Bool.and_eq_true] at hfit
    obtain ⟨m1, top1, h1, hs1, hv1⟩ :=
      Token.run_words_token t w1 hf hfit.2 (negWords ++ tail) m
    obtain ⟨m2, h2, hs2⟩ := run_negWords env tail m1 top1 m.stack hs1
    refine ⟨m2, neg32 top1, by rw [List.append_assoc, h1, h2], hs2, ?_⟩
    intro v hv
    rw [Token.eval] at hv
    rcases hfe : t.eval extern_values_ env with _ | v1
    · rw [hfe] at hv; cases hv
    · rw [hfe] at hv
      simp only [Option.some.injEq] at hv
      rw [hv1 v1 hfe, hv]
  | .paren e, ws, hws, hfit, tail, m => by
    rw [Token.words] at hws
    simp only [Token.tokens, List.all_cons, Bool.and_eq_true] at hfit
    obtain ⟨m1, top1, h1, hs1, hv1⟩ := Expr.run_words_expr e ws hws hfit.2 tail m
    refine ⟨m1, top1, h1, hs1, ?_⟩
    intro v hv
    rw [Token.eval] at hv
    exact hv1 v hv
  | .lit digits, ws, hws, _, tail, m => by
    rw [Token.words] at hws
    rcases hst : stoi digits with _ | value
    · rw [hst] at hws; cases hws
    · rw [hst] at hws
      simp only [Except.ok.injEq] at hws
      subst hws
      rw [List.append_assoc, run_moveWords]
      simp only [List.cons_append, List.nil_append]
      rw [run_step env _ _ _ _ (by decide) (step_PushR0 env _)]
      refine ⟨_, toUInt32 value, rfl, rfl, ?_⟩
      intro v hv
      rw [Token.eval] at hv
      simp only [Option.some.injEq] at hv
      rw [stoi_some digits value hst, hv]
  | .var name, ws, hws, _, tail, m => by
    rw [Token.words] at hws
    rcases hn : extern_values_ name with _ | address
    · rw [hn] at hws; cases hws
    · rw [hn] at hws
      simp only [Except.ok.injEq] at hws
      subst hws
      rw [List.append_assoc, run_moveWords]
      simp only [List.cons_append, List.nil_append]
      rw [run_step env _ _ _ _ (by decide) (step_LdrR0FromR0 env _),
        run_step env _ _ _ _ (by decide) (step_PushR0 env _)]
      refine ⟨_, env.memory (toUInt32 address) % 4294967296, rfl, rfl, ?_⟩
      intro v hv
      rw [Token.eval, hn] at hv
      simp only [Option.some.injEq] at hv
      exact hv
  | .call name args, ws, hws, hfit, tail, m => by
    rw [Token.words] at hws
    rcases ha : args.words extern_values_ with e | w1
    · rw [ha] at hws; cases hws
    · rw [ha] at hws
      rcases hn : extern_values_ name with _ | address
      · rw [hn] at hws; cases hws
      · rw [hn] at hws
        simp only [Except.ok.injEq] at hws
        subst hws
        simp only [Token.tokens, List.all_cons, Bool.and_eq_true, callFits,
          decide_eq_true_eq] at hfit
        obtain ⟨m1, tops, h1, hs1, hl1, hv1⟩ := Arguments.run_words_arguments args w1 ha hfit.2
          (moveWords address ++ MovR4R0 :: (popWords args.length ++ [BlxR4, PushR0]) ++ tail) m
        obtain ⟨m2, h2, hregs, hs2, hr4⟩ := exec_popWords_le4 env tops (by omega)
          { m1 with r0 := toUInt32 address, r4 := toUInt32 address } m.stack hs1
        rw [hl1] at h2
        have h3 := run_append_of_exec env (popWords args.length) ([BlxR4, PushR0] ++ tail) _ m2
          h2 (BxLR_not_mem_popWords args.length)
        simp only [List.cons_append, List.nil_append] at h3
        simp only [List.append_assoc, List.cons_append, List.nil_append] at h1 ⊢
        rw [h1, run_moveWords, run_step env _ _ _ _ (by decide) (step_MovR4R0 env _), h3,
          run_step env _ _ _ _ (by decide) (step_BlxR4 env _),
          run_step env _ _ _ _ (by decide) (step_PushR0 env _)]
        refine ⟨_, _, rfl, congrArg (List.cons _) hs2, ?_⟩
        intro v hv
        rw [Token.eval] at hv
        rcases hae : args.eval extern_values_ env with _ | vs
        · rw [hae] at hv; cases hv
        · rw [hae, hn] at hv
          simp only at hv
          split at hv
          · rename_i har
            simp only [Option.some.injEq] at hv
            have htv := hv1 vs hae
            subst htv
            simp only [hr4]
            rw [← hv]
            have htk : [m2.r0, m2.r1, m2.r2, m2.r3].take
                (env.functions (toUInt32 address)).arity
                = tops.take (env.functions (toUInt32 address)).arity := by
              rw [← hregs, List.take_take, Nat.min_eq_left har]
            rw [htk]
          · cases hv

theorem Arguments.run_words_arguments : ∀ (a : Arguments) (ws : List Nat),
    a.words extern_values_ = .ok ws → a.tokens.all callFits = true →
    ∀ (rest : List Nat) (m : Machine), ∃ m2 tops,
      run env (ws ++ rest) m = run env rest m2 ∧ m2.stack = tops.reverse ++ m.stack
        ∧ tops.length = a.length
        ∧ ∀ vs, a.eval extern_values_ env = some vs → tops = vs
  | .nil, ws, hws, _, tail, m => by
    rw [Arguments.words] at hws
    simp only [Except.ok.injEq] at hws
    subst hws
    refine ⟨m, [], rfl, rfl, rfl, ?_⟩
    intro vs hv
    rw [Arguments.eval] at hv
    simp only [Option.some.injEq] at hv
    exact hv
  | .cons e rest, ws, hws, hfit, tail, m => by
    rw [Arguments.words] at hws
    obtain ⟨w1, w2, hf, hr, rfl⟩ := seq_ok hws
    simp only [Arguments.tokens, List.all_append, Bool.and_eq_true] at hfit
    obtain ⟨m1, top1, h1, hs1, hv1⟩ := Expr.run_words_expr e w1 hf hfit.1 (w2 ++ tail) m
    obtain ⟨m2, tops, h2, hs2, hl2, hv2⟩ :=
      Arguments.run_words_arguments rest w2 hr hfit.2 tail m1
    refine ⟨m2, top1 :: tops, by rw [List.append_assoc, h1, h2], ?_, ?_, ?_⟩
    · rw [hs2, hs1]; simp
    · simp [Arguments.length, hl2]
    · intro vs hv
      rw [Arguments.eval] at hv
      rcases hfe : e.eval extern_values_ env with _ | v1
      · rw [hfe] at hv; cases hv
      · rw [hfe] at hv
        rcases hre : rest.eval extern_values_ env with _ | vs2
        · rw [hre] at hv; cases hv
        · rw [hre] at hv
          simp only [Option.some.injEq] at hv
          rw [hv1 v1 hfe, hv2 vs2 hre, hv]

end

end Running

/-! ## Where the reference interpreter gives a value -/

section Defined

variable (extern_values_ : List Nat → Option Int) (env : Environment)

mutual

theorem Expr.eval_defined_expr : ∀ (e : Expr),
    e.tokens.all (nameBound extern_values_) = true →
    e.tokens.all (arityFits extern_values_ env) = true →
    ∃ v, e.eval extern_values_ env = some v
  | .mk first rest, hn, ha => by
    simp only [Expr.tokens, List.all_append, Bool.and_eq_true] at hn ha
    obtain ⟨v1, h1⟩ := Product.eval_defined_product first hn.1 ha.1
    obtain ⟨v2, h2⟩ := ExprRest.eval_defined_exprRest rest hn.2 ha.2 v1
    exact ⟨v2, by rw [Expr.eval, h1]; exact h2⟩

theorem ExprRest.eval_defined_exprRest : ∀ (r : ExprRest),
    r.tokens.all (nameBound extern_values_) = true →
    r.tokens.all (arityFits extern_values_ env) = true →
    ∀ acc, ∃ v, r.eval extern_values_ env acc = some v
  | .nil, _, _, acc => ⟨acc, by rw [ExprRest.eval]⟩
  | .cons minus p rest, hn, ha, acc => by
    simp only [ExprRest.tokens, List.all_append, Bool.and_eq_true] at hn ha
    obtain ⟨v1, h1⟩ := Product.eval_defined_product p hn.1 ha.1
    obtain ⟨v2, h2⟩ := ExprRest.eval_defined_exprRest rest hn.2 ha.2
      (if minus then sub32 acc v1 else add32 acc v1)
    exact ⟨v2, by rw [ExprRest.eval, h1]; exact h2⟩

theorem Product.eval_defined_product : ∀ (p : Product),
    p.tokens.all (nameBound extern_values_) = true →
    p.tokens.all (arityFits extern_values_ env) = true →
    ∃ v, p.eval extern_values_ env = some v
  | .mk first rest, hn, ha => by
    simp only [Product.tokens, List.all_append, Bool.and_eq_true] at hn ha
    obtain ⟨v1, h1⟩ := Token.eval_defined_token first hn.1 ha.1
    obtain ⟨v2, h2⟩ := ProductRest.eval_defined_productRest rest hn.2 ha.2 v1
    exact ⟨v2, by rw [Product.eval, h1]; exact h2⟩

theorem ProductRest.eval_defined_productRest : ∀ (r : ProductRest),
    r.tokens.all (nameBound extern_values_) = true →
    r.tokens.all (arityFits extern_values_ env) = true →
    ∀ acc, ∃ v, r.eval extern_values_ env acc = some v
  | .nil, _, _, acc => ⟨acc, by rw [ProductRest.eval]⟩
  | .cons t rest, hn, ha, acc => by
    simp only [ProductRest.tokens, List.all_append, Bool.and_eq_true] at hn ha
    obtain ⟨v1, h1⟩ := Token.eval_defined_token t hn.1 ha.1
    obtain ⟨v2, h2⟩ := ProductRest.eval_defined_productRest rest hn.2 ha.2 (mul32 acc v1)
    exact ⟨v2, by rw [ProductRest.eval, h1]; exact h2⟩

theorem Token.eval_defined_token : ∀ (t : Token),
    t.tokens.all (nameBound extern_values_) = true →
    t.tokens.all (arityFits extern_values_ env) = true →
    ∃ v, t.eval extern_values_ env = some v
  | .neg t, hn, ha => by
    simp only [Token.tokens, List.all_cons, Bool.and_eq_true] at hn ha
    obtain ⟨v1, h1⟩ := Token.eval_defined_token t hn.2 ha.2
    exact ⟨neg32 v1, by rw [Token.eval, h1]⟩
  | .paren e, hn, ha => by
    simp only [Token.tokens, List.all_cons, Bool.and_eq_true] at hn ha
    obtain ⟨v1, h1⟩ := Expr.eval_defined_expr e hn.2 ha.2
    exact ⟨v1, by rw [Token.eval, h1]⟩
  | .lit digits, _, _ => ⟨_, by rw [Token.eval]⟩
  | .var name, hn, _ => by
    simp only [Token.tokens, List.all_cons, List.all_nil, Bool.and_true, nameBound,
      Option.isSome_iff_exists] at hn
    obtain ⟨address, h⟩ := hn
    exact ⟨_, by rw [Token.eval, h]⟩
  | .call name args, hn, ha => by
    simp only [Token.tokens, List.all_cons, Bool.and_eq_true, nameBound,
      Option.isSome_iff_exists] at hn
    simp only [Token.tokens, List.all_cons, Bool.and_eq_true] at ha
    obtain ⟨⟨address, h⟩, hn2⟩ := hn
    obtain ⟨vs, h1, hl⟩ := Arguments.eval_defined_arguments args hn2 ha.2
    have har : (env.functions (toUInt32 address)).arity ≤ vs.length := by
      have := ha.1
      simp only [arityFits, h, decide_eq_true_eq] at this
      omega
    refine ⟨(env.functions (toUInt32 address)).result
      (vs.take (env.functions (toUInt32 address)).arity) % 4294967296, ?_⟩
    rw [Token.eval, h1, h]
    simp only [har, if_true]

theorem Arguments.eval_defined_arguments : ∀ (a : Arguments),
    a.tokens.all (nameBound extern_values_) = true →
    a.tokens.all (arityFits extern_values_ env) = true →
    ∃ vs, a.eval extern_values_ env = some vs ∧ vs.length = a.length
  | .nil, _, _ => ⟨[], by rw [Arguments.eval], rfl⟩
  | .cons e rest, hn, ha => by
    simp only [Arguments.tokens, List.all_append, Bool.and_eq_true] at hn ha
    obtain ⟨v1, h1⟩ := Expr.eval_defined_expr e hn.1 ha.1
    obtain ⟨vs, h2, hl⟩ := Arguments.eval_defined_arguments rest hn.2 ha.2
    exact ⟨v1 :: vs, by rw [Arguments.eval, h1, h2], by simp [Arguments.length, hl]⟩

end

end Defined

/-! ## C1: the compiled code computes the value of the expression -/

/-- Running the words of a compiled well-formed expression whose calls have at most four
arguments. -/
theorem run_GetInstructionsBuffer (char_signed : Bool)
    (extern_values_ : List Nat → Option Int) (env : Environment) (e : Expr)
    (hwf : e.wf = true) (hcalls : e.tokens.all callFits = true) (body : List Nat)
    (hw : e.words extern_values_ = .ok body) (m : Machine) :
    ∃ m2, GetInstructionsBuffer char_signed extern_values_ e.text
          = .ok (PushR4LR :: (body ++ [PopR0, PopR4LR, BxLR]))
      ∧ run env (PushR4LR :: (body ++ [PopR0, PopR4LR, BxLR])) m = some m2
      ∧ m2.stack = m.stack ∧ m2.r4 = m.r4 ∧ m2.lr = m.lr
      ∧ ∀ v, e.eval extern_values_ env = some v → m2.r0 = v := by
  obtain ⟨m1, top, h1, hs1, hv1⟩ := Expr.run_words_expr env extern_values_ e body hw hcalls
    [PopR0, PopR4LR, BxLR] { m with stack := m.r4 :: m.lr :: m.stack }
  refine ⟨{ m1 with r0 := top, r4 := m.r4, lr := m.lr, stack := m.stack }, ?_, ?_, rfl, rfl,
    rfl, ?_⟩
  · rw [GetInstructionsBuffer_text char_signed extern_values_ e hwf, hw]
  · rw [run_step env _ _ _ _ (by decide) (step_PushR4LR env m), h1,
      run_step env _ _ _ _ (by decide) (step_PopR0 env m1 top _ hs1),
      run_step env _ _ _ _ (by decide) (step_PopR4LR env _ m.r4 m.lr m.stack rfl)]
    rfl
  · intro v hv
    exact hv1 v hv

/-- C1: for every well-formed expression in which every call has at most four arguments, every
name is in the symbol table and every literal fits in a signed 32-bit integer, compilation
succeeds and running the returned words on the ARM model, from any machine state, reaches the
`bx lr` with the stack, `r4` and `lr` as they were on entry and with `r0` holding the value that
the reference interpreter gives the expression (`+`, `-`, `*` modulo `2 ^ 32`); the interpreter
gives a value whenever every call passes at least as many arguments as its function takes. -/
theorem compiled_code_correct (char_signed : Bool) (extern_values_ : List Nat → Option Int)
    (env : Environment) (e : Expr) (hwf : e.wf = true)
    (hcalls : e.tokens.all callFits = true)
    (hnames : ∀ n ∈ e.names, extern_values_ n ≠ none)
    (hlits : ∀ d ∈ e.literals, decimalValue d ≤ 2147483647) (m : Machine) :
    ∃ ws m2, GetInstructionsBuffer char_signed extern_values_ e.text = .ok ws
      ∧ run env ws m = some m2
      ∧ m2.stack = m.stack ∧ m2.r4 = m.r4 ∧ m2.lr = m.lr
      ∧ (∀ v, e.eval extern_values_ env = some v → m2.r0 = v)
      ∧ (e.tokens.all (arityFits extern_values_ env) = true →
          e.eval extern_values_ env = some m2.r0) := by
  have hall : e.tokens.all (compiles extern_values_) = true := by
    rw [all_compiles, (all_literalFits_iff e.tokens).2 hlits,
      (all_nameBound_iff extern_values_ e.tokens).2 hnames]
    rfl
  have hok := (Expr.words_outcome_expr extern_values_ e).1
  rw [hall] at hok
  rcases hw : e.words extern_values_ with err | body
  · rw [hw] at hok; cases hok
  · obtain ⟨m2, h1, h2, h3, h4, h5, h6⟩ :=
      run_GetInstructionsBuffer char_signed extern_values_ env e hwf hcalls body hw m
    refine ⟨_, m2, h1, h2, h3, h4, h5, h6, ?_⟩
    intro har
    obtain ⟨v, hv⟩ := Expr.eval_defined_expr extern_values_ env e
      ((all_nameBound_iff extern_values_ e.tokens).2 hnames) har
    rw [hv, h6 v hv]

theorem compiled_code_correct_witness :
    (scenario1.text = bytes "2+3*4" ∧ scenario1.eval scenarioSymbols (scenarioEnv 0 0) = some 14
      ∧ ∃ ws m2, GetInstructionsBuffer false scenarioSymbols scenario1.text = .ok ws
        ∧ run (scenarioEnv 0 0) ws entryMachine = some m2 ∧ m2.r0 = 14)
    ∧ (scenario2.text = bytes "(2+3)*4"
      ∧ ∃ ws m2, GetInstructionsBuffer false scenarioSymbols scenario2.text = .ok ws
        ∧ run (scenarioEnv 0 0) ws entryMachine = some m2 ∧ m2.r0 = 20)
    ∧ (scenario3.text = bytes "10-3-2"
      ∧ ∃ ws m2, GetInstructionsBuffer false scenarioSymbols scenario3.text = .ok ws
        ∧ run (scenarioEnv 0 0) ws entryMachine = some m2 ∧ m2.r0 = 5)
    ∧ (scenario4.text = bytes "-5+3"
      ∧ ∃ ws m2, GetInstructionsBuffer false scenarioSymbols scenario4.text = .ok ws
        ∧ run (scenarioEnv 0 0) ws entryMachine = some m2 ∧ m2.r0 = toUInt32 (-2))
    ∧ (scenario5.text = bytes "sum(a,b)*2"
      ∧ ∃ ws m2, GetInstructionsBuffer false scenarioSymbols scenario5.text = .ok ws
        ∧ run (scenarioEnv 7 3) ws entryMachine = some m2 ∧ m2.r0 = 20)
    ∧ (scenario6.text = bytes "div(a,b)+mod(a,b)"
      ∧ ∃ ws m2, GetInstructionsBuffer false scenarioSymbols scenario6.text = .ok ws
        ∧ run (scenarioEnv 17 5) ws entryMachine = some m2 ∧ m2.r0 = 5) := by
  refine ⟨⟨by decide!, by decide!, ?_⟩, ⟨by decide!, ?_⟩, ⟨by decide!, ?_⟩, ⟨by decide!, ?_⟩,
    ⟨by decide!, ?_⟩, ⟨by decide!, ?_⟩⟩
  · obtain ⟨ws, m2, h1, h2, _, _, _, h3, _⟩ := compiled_code_correct false scenarioSymbols
      (scenarioEnv 0 0) scenario1 (by decide!) (by decide!) (by decide!) (by decide!)
      entryMachine
    exact ⟨ws, m2, h1, h2, h3 14 (by decide!)⟩
  · obtain ⟨ws, m2, h1, h2, _, _, _, h3, _⟩ := compiled_code_correct false scenarioSymbols
      (scenarioEnv 0 0) scenario2 (by decide!) (by decide!) (by decide!) (by decide!)
      entryMachine
    exact ⟨ws, m2, h1, h2, h3 20 (by decide!)⟩
  · obtain ⟨ws, m2, h1, h2, _, _, _, h3, _⟩ := compiled_code_correct false scenarioSymbols
      (scenarioEnv 0 0) scenario3 (by decide!) (by decide!) (by decide!) (by decide!)
      entryMachine
    exact ⟨ws, m2, h1, h2, h3 5 (by decide!)⟩
  · obtain ⟨ws, m2, h1, h2, _, _, _, h3, _⟩ := compiled_code_correct false scenarioSymbols
      (scenarioEnv 0 0) scenario4 (by decide!) (by decide!) (by decide!) (by decide!)
      entryMachine
    exact ⟨ws, m2, h1, h2, h3 (toUInt32 (-2)) (by decide!)⟩
  · obtain ⟨ws, m2, h1, h2, _, _, _, h3, _⟩ := compiled_code_correct false scenarioSymbols
      (scenarioEnv 7 3) scenario5 (by decide!) (by decide!) (by decide!) (by decide!)
      entryMachine
    exact ⟨ws, m2, h1, h2, h3 20 (by decide!)⟩
  · obtain ⟨ws, m2, h1, h2, _, _, _, h3, _⟩ := compiled_code_correct false scenarioSymbols
      (scenarioEnv 17 5) scenario6 (by decide!) (by decide!) (by decide!) (by decide!)
      entryMachine
    exact ⟨ws, m2, h1, h2, h3 5 (by decide!)⟩

/-! ## C7: the argument registers of a call -/

/-- C7, as stated, fails for five arguments: with `1, 2, 3, 4, 5` pushed left to right, the pop
sequence that `ParseFunction` emits for five arguments is `pop r3; pop r2; pop r1; pop r0`, and
it leaves `2, 3, 4, 5` in `R0`-`R3` and the first argument on the stack; `R0` is not `a1`. -/
theorem pop_sequence_five_arguments :
    popWords 5 = [PopR3, PopR2, PopR1, PopR0]
      ∧ exec idleEnv (popWords 5) fiveArguments
        = some { r0 := 2, r1 := 3, r2 := 4, r3 := 5, r4 := 0, lr := 0, stack := [1] }
      ∧ ¬ ∃ m2, exec idleEnv (popWords 5) fiveArguments = some m2
          ∧ m2.r0 = 1 ∧ m2.r1 = 2 ∧ m2.r2 = 3 ∧ m2.r3 = 4 := by
  have h : exec idleEnv (popWords 5) fiveArguments
      = some { r0 := 2, r1 := 3, r2 := 4, r3 := 5, r4 := 0, lr := 0, stack := [1] } := by
    decide!
  refine ⟨by decide!, h, ?_⟩
  rintro ⟨m2, h2, h0, _⟩
  rw [h] at h2
  simp only [Option.some.injEq] at h2
  rw [← h2] at h0
  cases h0

/-- C7, amended: for a call whose `N` argument values were pushed left to right, with `N ≤ 4`,
the pop sequence that `ParseFunction` emits leaves argument `i` in `R(i-1)` for every `i ≤ N`
and the stack as it was before the arguments; with `N ≥ 4` the four pops leave the last four
arguments in `R0`-`R3` and the arguments before them on the stack. -/
theorem pop_sequence_registers (env : Environment) (args : List Nat) (m : Machine)
    (s : List Nat) (h : m.stack = args.reverse ++ s) :
    (args.length ≤ 4 →
        ∃ m2, exec env (popWords args.length) m = some m2
          ∧ [m2.r0, m2.r1, m2.r2, m2.r3].take args.length = args ∧ m2.stack = s)
      ∧ (4 ≤ args.length →
        ∃ m2, exec env (popWords args.length) m = some m2
          ∧ [m2.r0, m2.r1, m2.r2, m2.r3] = args.drop (args.length - 4)
          ∧ m2.stack = (args.take (args.length - 4)).reverse ++ s) := by
  refine ⟨fun hl => ?_, fun hl => exec_popWords_ge4 env args hl m s h⟩
  obtain ⟨m2, h1, h2, h3, _⟩ := exec_popWords_le4 env args hl m s h
  exact ⟨m2, h1, h2, h3⟩

theorem pop_sequence_registers_witness :
    fourArguments.stack = [1, 2, 3, 4].reverse ++ [9]
      ∧ ∃ m2, exec idleEnv (popWords [1, 2, 3, 4].length) fourArguments = some m2
          ∧ [m2.r0, m2.r1, m2.r2, m2.r3].take [1, 2, 3, 4].length = [1, 2, 3, 4]
          ∧ m2.stack = [9] :=
  ⟨by decide,
    (pop_sequence_registers idleEnv [1, 2, 3, 4] fourArguments [9] (by decide)).1 (by decide)⟩

/-! ## C5: precedence and associativity -/

theorem GetInstructionsBuffer_of_text (char_signed : Bool)
    (extern_values_ : List Nat → Option Int) (e : Expr) (hwf : e.wf = true) (text : List Nat)
    (h : e.text = text) :
    GetInstructionsBuffer char_signed extern_values_ text
      = match e.words extern_values_ with
        | .error err => .error err
        | .ok ws => .ok (PushR4LR :: (ws ++ [PopR0, PopR4LR, BxLR])) := by
  subst h
  exact GetInstructionsBuffer_text char_signed extern_values_ e hwf

/-- The words of `a op1 b op2 c` are the words of `(a op1 b) op2 c`. -/
theorem chain_groups_left (char_signed : Bool) (extern_values_ : List Nat → Option Int)
    (a b c : Token) (ha : a.wf = true) (hb : b.wf = true) (hc : c.wf = true)
    (minus1 minus2 : Bool) :
    GetInstructionsBuffer char_signed extern_values_
        (a.text ++ [opByte minus1] ++ b.text ++ [opByte minus2] ++ c.text)
      = GetInstructionsBuffer char_signed extern_values_
        ([40] ++ a.text ++ [opByte minus1] ++ b.text ++ [41] ++ [opByte minus2] ++ c.text) := by
  rw [GetInstructionsBuffer_of_text char_signed extern_values_
      (Expr.chain a minus1 b minus2 c)
      (by simp [Expr.chain, Expr.wf, Product.single, Product.wf, ExprRest.wf, ProductRest.wf,
        ha, hb, hc]) _
      (by simp [Expr.chain, Expr.text, Product.single, Product.text, ExprRest.text,
        ProductRest.text, opByte]),
    GetInstructionsBuffer_of_text char_signed extern_values_
      (Expr.chainLeft a minus1 b minus2 c)
      (by simp [Expr.chainLeft, Expr.wf, Product.single, Product.wf, ExprRest.wf,
        ProductRest.wf, Token.wf, ha, hb, hc]) _
      (by simp [Expr.chainLeft, Expr.text, Product.single, Product.text, ExprRest.text,
        ProductRest.text, Token.text, opByte])]
  simp only [Expr.chain, Expr.chainLeft, Expr.words, Product.single, Product.words,
    ExprRest.words, ProductRest.words, Token.words]
  rcases a.words extern_values_ with e | wa
  · rfl
  · rcases b.words extern_values_ with e | wb
    · rfl
    · rcases c.words extern_values_ with e | wc
      · rfl
      · simp

/-- C5: for all well-formed tokens `a`, `b`, `c`, the words emitted for `a+b*c` are those for
`a+(b*c)`, and `a-b-c`, `a+b+c`, `a-b+c`, `a*b*c` emit the words of `(a-b)-c`, `(a+b)+c`,
`(a-b)+c`, `(a*b)*c`; the code for `1-2-3` returns `-4`, not `2`. -/
theorem precedence_and_associativity (char_signed : Bool)
    (extern_values_ : List Nat → Option Int) (a b c : Token)
    (ha : a.wf = true) (hb : b.wf = true) (hc : c.wf = true) :
    GetInstructionsBuffer char_signed extern_values_
        (a.text ++ bytes "+" ++ b.text ++ bytes "*" ++ c.text)
      = GetInstructionsBuffer char_signed extern_values_
        (a.text ++ bytes "+(" ++ b.text ++ bytes "*" ++ c.text ++ bytes ")")
    ∧ GetInstructionsBuffer char_signed extern_values_
        (a.text ++ bytes "-" ++ b.text ++ bytes "-" ++ c.text)
      = GetInstructionsBuffer char_signed extern_values_
        (bytes "(" ++ a.text ++ bytes "-" ++ b.text ++ bytes ")-" ++ c.text)
    ∧ GetInstructionsBuffer char_signed extern_values_
        (a.text ++ bytes "+" ++ b.text ++ bytes "+" ++ c.text)
      = GetInstructionsBuffer char_signed extern_values_
        (bytes "(" ++ a.text ++ bytes "+" ++ b.text ++ bytes ")+" ++ c.text)
    ∧ GetInstructionsBuffer char_signed extern_values_
        (a.text ++ bytes "-" ++ b.text ++ bytes "+" ++ c.text)
      = GetInstructionsBuffer char_signed extern_values_
        (bytes "(" ++ a.text ++ bytes "-" ++ b.text ++ bytes ")+" ++ c.text)
    ∧ GetInstructionsBuffer char_signed extern_values_
        (a.text ++ bytes "*" ++ b.text ++ bytes "*" ++ c.text)
      = GetInstructionsBuffer char_signed extern_values_
        (bytes "(" ++ a.text ++ bytes "*" ++ b.text ++ bytes ")*" ++ c.text)
    ∧ (∀ (env : Environment) (m : Machine), ∃ ws m2,
        GetInstructionsBuffer char_signed extern_values_ (bytes "1-2-3") = .ok ws
          ∧ run env ws m = some m2 ∧ m2.r0 = toUInt32 (-4) ∧ m2.r0 ≠ 2) := by
  have hplus : bytes "+" = [43] := by decide
  have hminus : bytes "-" = [45] := by decide
  have hstar : bytes "*" = [42] := by decide
  have hopen : bytes "(" = [40] := by decide
  have hclose : bytes ")" = [41] := by decide
  have hplusopen : bytes "+(" = [43, 40] := by decide
  have hcloseminus : bytes ")-" = [41, 45] := by decide
  have hcloseplus : bytes ")+" = [41, 43] := by decide
  have hclosestar : bytes ")*" = [41, 42] := by decide
  have hchain := chain_groups_left char_signed extern_values_ a b c ha hb hc
  refine ⟨?_, ?_, ?_, ?_, ?_, ?_⟩
  · rw [hplus, hstar, hplusopen, hclose,
      GetInstructionsBuffer_of_text char_signed extern_values_
        (.mk (.single a) (.cons false (.mk b (.cons c .nil)) .nil))
        (by simp [Expr.wf, Product.single, Product.wf, ExprRest.wf, ProductRest.wf,
          ha, hb, hc]) _
        (by simp [Expr.text, Product.single, Product.text, ExprRest.text, ProductRest.text]),
      GetInstructionsBuffer_of_text char_signed extern_values_
        (.mk (.single a)
          (.cons false (.single (.paren (.single (.mk b (.cons c .nil))))) .nil))
        (by simp [Expr.wf, Expr.single, Product.single, Product.wf, ExprRest.wf,
          ProductRest.wf, Token.wf, ha, hb, hc]) _
        (by simp [Expr.text, Expr.single, Product.single, Product.text, ExprRest.text,
          ProductRest.text, Token.text])]
    simp only [Expr.words, Expr.single, Product.single, Product.words, ExprRest.words,
      ProductRest.words, Token.words]
    rcases a.words extern_values_ with e | wa
    · rfl
    · rcases b.words extern_values_ with e | wb
      · rfl
      · rcases c.words extern_values_ with e | wc
        · rfl
        · simp
  · have h := hchain true true
    simp only [opByte, if_true] at h
    rw [hminus, hopen, hcloseminus]
    simpa using h
  · have h := hchain false false
    simp only [opByte, Bool.false_eq_true, if_false] at h
    rw [hplus, hopen, hcloseplus]
    simpa using h
  · have h := hchain true false
    simp only [opByte, Bool.false_eq_true, if_false, if_true] at h
    rw [hplus, hminus, hopen, hcloseplus]
    simpa using h
  · rw [hstar, hopen, hclosestar,
      GetInstructionsBuffer_of_text char_signed extern_values_
        (.single (.mk a (.cons b (.cons c .nil))))
        (by simp [Expr.wf, Expr.single, Product.wf, ExprRest.wf, ProductRest.wf,
          ha, hb, hc]) _
        (by simp [Expr.text, Expr.single, Product.text, ExprRest.text, ProductRest.text]),
      GetInstructionsBuffer_of_text char_signed extern_values_
        (.single (.mk (.paren (.single (.mk a (.cons b .nil)))) (.cons c .nil)))
        (by simp [Expr.wf, Expr.single, Product.wf, ExprRest.wf, ProductRest.wf, Token.wf,
          ha, hb, hc]) _
        (by simp [Expr.text, Expr.single, Product.text, ExprRest.text, ProductRest.text,
          Token.text])]
    simp only [Expr.words, Expr.single, Product.words, ExprRest.words, ProductRest.words,
      Token.words]
    rcases a.words extern_values_ with e | wa
    · rfl
    · rcases b.words extern_values_ with e | wb
      · rfl
      · rcases c.words extern_values_ with e | wc
        · rfl
        · simp
  · intro env m
    obtain ⟨body, hw⟩ : ∃ body, oneMinusTwoMinusThree.words extern_values_ = .ok body :=
      ⟨_, rfl⟩
    obtain ⟨m2, h1, h2, _, _, _, h3⟩ := run_GetInstructionsBuffer char_signed
      extern_values_ env oneMinusTwoMinusThree (by decide!) (by decide!) body hw m
    have ht : oneMinusTwoMinusThree.text = bytes "1-2-3" := by decide!
    rw [ht] at h1
    have hv : m2.r0 = toUInt32 (-4) := h3 _ rfl
    refine ⟨_, m2, h1, h2, hv, ?_⟩
    rw [hv]
    decide

theorem precedence_and_associativity_witness :
    (Token.num "1").text = bytes "1"
      ∧ GetInstructionsBuffer false noSymbols
          ((Token.num "1").text ++ bytes "-" ++ (Token.num "2").text ++ bytes "-"
            ++ (Token.num "3").text)
        = GetInstructionsBuffer false noSymbols
          (bytes "(" ++ (Token.num "1").text ++ bytes "-" ++ (Token.num "2").text ++ bytes ")-"
            ++ (Token.num "3").text) :=
  ⟨by decide!,
    (precedence_and_associativity false noSymbols (.num "1") (.num "2") (.num "3")
      (by decide!) (by decide!) (by decide!)).2.1⟩

/-! ## The words emitted for the text of a production -/

theorem wordsOfExpr_text (char_signed : Bool) (extern_values_ : List Nat → Option Int)
    (e : Expr) (hwf : e.wf = true) :
    wordsOfExpr char_signed extern_values_ e.text = e.words extern_values_ := by
  unfold wordsOfExpr
  rw [Expr.parse_text_expr char_signed extern_values_ e hwf (parseBudget e.text) e.text [] [] 0
    [] (by simp) rfl (by unfold parseBudget; omega) (by decide)]
  rcases e.words extern_values_ with err | ws
  · rfl
  · simp [advance]

theorem wordsOfProduct_text (char_signed : Bool) (extern_values_ : List Nat → Option Int)
    (p : Product) (hwf : p.wf = true) :
    wordsOfProduct char_signed extern_values_ p.text = p.words extern_values_ := by
  unfold wordsOfProduct
  rw [Product.parse_text_product char_signed extern_values_ p hwf (parseBudget p.text) p.text
    [] [] 0 [] (by simp) rfl (by unfold parseBudget; omega) (by decide)]
  rcases p.words extern_values_ with err | ws
  · rfl
  · simp [advance]

theorem wordsOfToken_text (char_signed : Bool) (extern_values_ : List Nat → Option Int)
    (t : Token) (hwf : t.wf = true) :
    wordsOfToken char_signed extern_values_ t.text = t.words extern_values_ := by
  unfold wordsOfToken
  rw [Token.parse_text_token char_signed extern_values_ t hwf (parseBudget t.text) t.text
    [] [] 0 [] (by simp) rfl (by unfold parseBudget; omega) (by decide)]
  rcases t.words extern_values_ with err | ws
  · rfl
  · simp [advance]

/-! ## C6: the shape of a call -/

theorem Arguments.words_of_each (char_signed : Bool) (extern_values_ : List Nat → Option Int) :
    ∀ (args : Arguments) (wss : List (List Nat)), args.wf = true →
      List.Forall₂ (fun a ws => wordsOfExpr char_signed extern_values_ (Expr.text a) = .ok ws)
        args.toList wss →
      args.words extern_values_ = .ok wss.flatten ∧ wss.length = args.length
  | .nil, wss, _, h => by
    simp only [Arguments.toList, List.forall₂_nil_left_iff] at h
    subst h
    exact ⟨by rw [Arguments.words]; rfl, rfl⟩
  | .cons e rest, wss, hwf, h => by
    simp only [Arguments.wf, Bool.and_eq_true] at hwf
    simp only [Arguments.toList, List.forall₂_cons_left_iff] at h
    obtain ⟨ws, wss2, h1, h2, rfl⟩ := h
    rw [wordsOfExpr_text char_signed extern_values_ e hwf.1] at h1
    obtain ⟨h3, h4⟩ := Arguments.words_of_each char_signed extern_values_ rest wss2 hwf.2 h2
    exact ⟨by rw [Arguments.words_cons, h1, h3]; rfl, by simp [Arguments.length, h4]⟩

theorem popWords_eq (n : Nat) :
    popWords n = (if 4 ≤ n then [PopR3] else []) ++ (if 3 ≤ n then [PopR2] else [])
      ++ (if 2 ≤ n then [PopR1] else []) ++ (if 1 ≤ n then [PopR0] else []) := by
  by_cases h : 4 ≤ n
  · rw [popWords_large n h]
    have h3 : 3 ≤ n := by omega
    have h2 : 2 ≤ n := by omega
    have h1 : 1 ≤ n := by omega
    simp [h, h3, h2, h1]
  · obtain ⟨e0, e1, e2, e3, _⟩ := popWords_small
    have hn : n = 0 ∨ n = 1 ∨ n = 2 ∨ n = 3 := by omega
    rcases hn with rfl | rfl | rfl | rfl
    · rw [e0]; rfl
    · rw [e1]; rfl
    · rw [e2]; rfl
    · rw [e3]; rfl

/-- C6: for every well-formed call `name(a1,...,aN)`, `N ≥ 0`, with `name` bound to the address
`A`, the words emitted for the call are the words emitted for `a1`, ..., `aN` in source order,
then the two words of `MoveValueToR0 A`, `0xe1a04000`, then `0xe49d3004` if `N ≥ 4`,
`0xe49d2004` if `N ≥ 3`, `0xe49d1004` if `N ≥ 2`, `0xe49d0004` if `N ≥ 1`, then `0xe12fff34`
and `0xe52d0004`. -/
theorem call_lowering (char_signed : Bool) (extern_values_ : List Nat → Option Int)
    (name : List Nat) (args : Arguments) (hwf : (Token.call name args).wf = true)
    (address : Int) (hname : extern_values_ name = some address) (wss : List (List Nat))
    (hargs : List.Forall₂
      (fun a ws => wordsOfExpr char_signed extern_values_ (Expr.text a) = .ok ws)
      args.toList wss) :
    wordsOfToken char_signed extern_values_ (Token.call name args).text
      = .ok (wss.flatten ++ (MoveValueToR0 { index_ := 0, out_ := [] } address).out_
          ++ [0xe1a04000]
          ++ (if 4 ≤ wss.length then [0xe49d3004] else [])
          ++ (if 3 ≤ wss.length then [0xe49d2004] else [])
          ++ (if 2 ≤ wss.length then [0xe49d1004] else [])
          ++ (if 1 ≤ wss.length then [0xe49d0004] else [])
          ++ [0xe12fff34, 0xe52d0004]) := by
  have hwa : args.wf = true := by
    simp only [Token.wf, Bool.and_eq_true] at hwf
    exact hwf.2
  obtain ⟨h1, h2⟩ := Arguments.words_of_each char_signed extern_values_ args wss hwa hargs
  rw [wordsOfToken_text char_signed extern_values_ _ hwf, Token.words, h1, hname, popWords_eq,
    h2]
  simp [moveWords, MovR4R0, PopR0, PopR1, PopR2, PopR3, BlxR4, PushR0]

theorem call_lowering_witness :
    callSumAB.text = bytes "sum(a,b)"
      ∧ wordsOfToken false scenarioSymbols callSumAB.text
        = .ok ([[0xe3000000, 0xe3400002, 0xe5900000, 0xe52d0004],
              [0xe3000004, 0xe3400002, 0xe5900000, 0xe52d0004]].flatten
            ++ (MoveValueToR0 { index_ := 0, out_ := [] } 0x10020).out_
            ++ [0xe1a04000]
            ++ (if 4 ≤ [[0xe3000000, 0xe3400002, 0xe5900000, 0xe52d0004],
              [0xe3000004, 0xe3400002, 0xe5900000, 0xe52d0004]].length then [0xe49d3004] else [])
            ++ (if 3 ≤ [[0xe3000000, 0xe3400002, 0xe5900000, 0xe52d0004],
              [0xe3000004, 0xe3400002, 0xe5900000, 0xe52d0004]].length then [0xe49d2004] else [])
            ++ (if 2 ≤ [[0xe3000000, 0xe3400002, 0xe5900000, 0xe52d0004],
              [0xe3000004, 0xe3400002, 0xe5900000, 0xe52d0004]].length then [0xe49d1004] else [])
            ++ (if 1 ≤ [[0xe3000000, 0xe3400002, 0xe5900000, 0xe52d0004],
              [0xe3000004, 0xe3400002, 0xe5900000, 0xe52d0004]].length then [0xe49d0004] else [])
            ++ [0xe12fff34, 0xe52d0004]) :=
  ⟨by decide!,
    call_lowering false scenarioSymbols (bytes "sum") argsAB (by decide!) 0x10020 (by decide!)
      [[0xe3000000, 0xe3400002, 0xe5900000, 0xe52d0004],
        [0xe3000004, 0xe3400002, 0xe5900000, 0xe52d0004]]
      (List.Forall₂.cons (by decide!) (List.Forall₂.cons (by decide!) List.Forall₂.nil))⟩

/-! ## C8: stack discipline -/

theorem depthAfter_push (ws : List Nat) (d : Nat) :
    depthAfter (PushR0 :: ws) d = depthAfter ws (d + 1) := by
  simp [depthAfter]

theorem depthAfter_pop (w : Nat) (ws : List Nat) (d : Nat) (hw : isPop w = true) :
    depthAfter (w :: ws) (d + 1) = depthAfter ws d := by
  have h : w ≠ PushR0 := by
    intro e
    rw [e] at hw
    exact absurd hw (by decide)
  simp [depthAfter, h, hw]

theorem depthAfter_neutral (w : Nat) (ws : List Nat) (d : Nat) (h1 : w ≠ PushR0)
    (h2 : isPop w = false) : depthAfter (w :: ws) d = depthAfter ws d := by
  simp [depthAfter, h1, h2]

theorem depthAfter_moveWords (x : Int) (rest : List Nat) (d : Nat) :
    depthAfter (moveWords x ++ rest) d = depthAfter rest d := by
  have hb := toUInt32_lt x
  rw [moveWords_arith]
  generalize toUInt32 x = n at hb
  simp only [List.cons_append, List.nil_append]
  rw [depthAfter_neutral _ _ _ (by unfold PushR0; omega)
      (by simp only [isPop, PopR0, PopR1, PopR2, PopR3, Bool.or_eq_false_iff,
        decide_eq_false_iff_not]; omega),
    depthAfter_neutral _ _ _ (by unfold PushR0; omega)
      (by simp only [isPop, PopR0, PopR1, PopR2, PopR3, Bool.or_eq_false_iff,
        decide_eq_false_iff_not]; omega)]

theorem depthAfter_binaryWords (minus : Bool) (rest : List Nat) (d : Nat) :
    depthAfter (binaryWords (if minus then SubR0R1 else AddR0R1) ++ rest) (d + 1 + 1)
      = depthAfter rest (d + 1) := by
  simp only [binaryWords, List.cons_append, List.nil_append]
  rw [depthAfter_pop _ _ _ (by decide), depthAfter_pop _ _ _ (by decide),
    depthAfter_neutral _ _ _ (by cases minus <;> decide) (by cases minus <;> decide),
    depthAfter_push]

theorem depthAfter_mulWords (rest : List Nat) (d : Nat) :
    depthAfter (binaryWords MulR0R1 ++ rest) (d + 1 + 1) = depthAfter rest (d + 1) := by
  simp only [binaryWords, List.cons_append, List.nil_append]
  rw [depthAfter_pop _ _ _ (by decide), depthAfter_pop _ _ _ (by decide),
    depthAfter_neutral _ _ _ (by decide) (by decide), depthAfter_push]

theorem depthAfter_negWords (rest : List Nat) (d : Nat) :
    depthAfter (negWords ++ rest) (d + 1) = depthAfter rest (d + 1) := by
  simp only [negWords, List.append_assoc]
  rw [depthAfter_moveWords]
  simp only [List.cons_append, List.nil_append]
  rw [depthAfter_push, depthAfter_pop _ _ _ (by decide), depthAfter_pop _ _ _ (by decide),
    depthAfter_neutral _ _ _ (by decide) (by decide), depthAfter_push]

theorem depthAfter_popWords (n : Nat) (hn : n ≤ 4) (rest : List Nat) (d : Nat) :
    depthAfter (popWords n ++ rest) (d + n) = depthAfter rest d := by
  obtain ⟨e0, e1, e2, e3, e4⟩ := popWords_small
  have h : n = 0 ∨ n = 1 ∨ n = 2 ∨ n = 3 ∨ n = 4 := by omega
  rcases h with rfl | rfl | rfl | rfl | rfl
  · rw [e0]; rfl
  · rw [e1]
    exact depthAfter_pop _ _ _ (by decide)
  · rw [e2]
    simp only [List.cons_append, List.nil_append]
    rw [depthAfter_pop _ _ (d + 1) (by decide), depthAfter_pop _ _ _ (by decide)]
  · rw [e3]
    simp only [List.cons_append, List.nil_append]
    rw [depthAfter_pop _ _ (d + 2) (by decide), depthAfter_pop _ _ (d + 1) (by decide),
      depthAfter_pop _ _ _ (by decide)]
  · rw [e4]
    simp only [List.cons_append, List.nil_append]
    rw [depthAfter_pop _ _ (d + 3) (by decide), depthAfter_pop _ _ (d + 2) (by decide),
      depthAfter_pop _ _ (d + 1) (by decide), depthAfter_pop _ _ _ (by decide)]

section Depth

variable (extern_values_ : List Nat → Option Int)

mutual

theorem Expr.depth_words_expr : ∀ (e : Expr) (ws : List Nat),
    e.words extern_values_ = .ok ws → e.tokens.all callFits = true →
    ∀ (rest : List Nat) (d : Nat), depthAfter (ws ++ rest) d = depthAfter rest (d + 1)
  | .mk first rest, ws, hws, hfit, tail, d => by
    rw [Expr.words] at hws
    obtain ⟨w1, w2, hf, hr, rfl⟩ := seq_ok hws
    simp only [Expr.tokens, List.all_append, Bool.and_eq_true] at hfit
    rw [List.append_assoc, Product.depth_words_product first w1 hf hfit.1,
      ExprRest.depth_words_exprRest rest w2 hr hfit.2]

theorem ExprRest.depth_words_exprRest : ∀ (r : ExprRest) (ws : List Nat),
    r.words extern_values_ = .ok ws → r.tokens.all callFits = true →
    ∀ (rest : List Nat) (d : Nat), depthAfter (ws ++ rest) (d + 1) = depthAfter rest (d + 1)
  | .nil, ws, hws, _, tail, d => by
    rw [ExprRest.words] at hws
    simp only [Except.ok.injEq] at hws
    subst hws
    rfl
  | .cons minus p rest, ws, hws, hfit, tail, d => by
    rw [ExprRest.words] at hws
    obtain ⟨w1, w2, hf, hr, rfl⟩ := seq_ok hws
    simp only [ExprRest.tokens, List.all_append, Bool.and_eq_true] at hfit
    simp only [List.append_assoc]
    rw [Product.depth_words_product p w1 hf hfit.1, depthAfter_binaryWords,
      ExprRest.depth_words_exprRest rest w2 hr hfit.2]

theorem Product.depth_words_product : ∀ (p : Product) (ws : List Nat),
    p.words extern_values_ = .ok ws → p.tokens.all callFits = true →
    ∀ (rest : List Nat) (d : Nat), depthAfter (ws ++ rest) d = depthAfter rest (d + 1)
  | .mk first rest, ws, hws, hfit, tail, d => by
    rw [Product.words] at hws
    obtain ⟨w1, w2, hf, hr, rfl⟩ := seq_ok hws
    simp only [Product.tokens, List.all_append, Bool.and_eq_true] at hfit
    rw [List.append_assoc, Token.depth_words_token first w1 hf hfit.1,
      ProductRest.depth_words_productRest rest w2 hr hfit.2]

theorem ProductRest.depth_words_productRest : ∀ (r : ProductRest) (ws : List Nat),
    r.words extern_values_ = .ok ws → r.tokens.all callFits = true →
    ∀ (rest : List Nat) (d : Nat), depthAfter (ws ++ rest) (d + 1) = depthAfter rest (d + 1)
  | .nil, ws, hws, _, tail, d => by
    rw [ProductRest.words] at hws
    simp only [Except.ok.injEq] at hws
    subst hws
    rfl
  | .cons t rest, ws, hws, hfit, tail, d => by
    rw [ProductRest.words] at hws
    obtain ⟨w1, w2, hf, hr, rfl⟩ := seq_ok hws
    simp only [ProductRest.tokens, List.all_append, Bool.and_eq_true] at hfit
    simp only [List.append_assoc]
    rw [Token.depth_words_token t w1 hf hfit.1, depthAfter_mulWords,
      ProductRest.depth_words_productRest rest w2 hr hfit.2]

theorem Token.depth_words_token : ∀ (t : Token) (ws : List Nat),
    t.words extern_values_ = .ok ws → t.tokens.all callFits = true →
    ∀ (rest : List Nat) (d : Nat), depthAfter (ws ++ rest) d = depthAfter rest (d + 1)
  | .neg t, ws, hws, hfit, tail, d => by
    rw [Token.words] at hws
    obtain ⟨w1, hf, rfl⟩ := map_ok hws
    simp only [Token.tokens, List.all_cons, Bool.and_eq_true] at hfit
    rw [List.append_assoc, Token.depth_words_token t w1 hf hfit.2, depthAfter_negWords]
  | .paren e, ws, hws, hfit, tail, d => by
    rw [Token.words] at hws
    simp only [Token.tokens, List.all_cons, Bool.and_eq_true] at hfit
    exact Expr.depth_words_expr e ws hws hfit.2 tail d
  | .lit digits, ws, hws, _, tail, d => by
    rw [Token.words] at hws
    rcases hst : stoi digits with _ | value
    · rw [hst] at hws; cases hws
    · rw [hst] at hws
      simp only [Except.ok.injEq] at hws
      subst hws
      rw [List.append_assoc, depthAfter_moveWords]
      exact depthAfter_push _ _
  | .var name, ws, hws, _, tail, d => by
    rw [Token.words] at hws
    rcases hn : extern_values_ name with _ | address
    · rw [hn] at hws; cases hws
    · rw [hn] at hws
      simp only [Except.ok.injEq] at hws
      subst hws
      rw [List.append_assoc, depthAfter_moveWords]
      simp only [List.cons_append, List.nil_append]
      rw [depthAfter_neutral _ _ _ (by decide) (by decide), depthAfter_push]
  | .call name args, ws, hws, hfit, tail, d => by
    rw [Token.words] at hws
    rcases ha : args.words extern_values_ with e | w1
    · rw [ha] at hws; cases hws
    · rw [ha] at hws
      rcases hn : extern_values_ name with _ | address
      · rw [hn] at hws; cases hws
      · rw [hn] at hws
        simp only [Except.ok.injEq] at hws
        subst hws
        simp only [Token.tokens, List.all_cons, Bool.and_eq_true, callFits,
          decide_eq_true_eq] at hfit
        simp only [List.append_assoc, List.cons_append, List.nil_append]
        rw [Arguments.depth_words_arguments args w1 ha hfit.2, depthAfter_moveWords,
          depthAfter_neutral _ _ _ (by decide) (by decide),
          depthAfter_popWords _ hfit.1, depthAfter_neutral _ _ _ (by decide) (by decide),
          depthAfter_push]

theorem Arguments.depth_words_arguments : ∀ (a : Arguments) (ws : List Nat),
    a.words extern_values_ = .ok ws → a.tokens.all callFits = true →
    ∀ (rest : List Nat) (d : Nat), depthAfter (ws ++ rest) d = depthAfter rest (d + a.length)
  | .nil, ws, hws, _, tail, d => by
    rw [Arguments.words] at hws
    simp only [Except.ok.injEq] at hws
    subst hws
    rfl
  | .cons e rest, ws, hws, hfit, tail, d => by
    rw [Arguments.words] at hws
    obtain ⟨w1, w2, hf, hr, rfl⟩ := seq_ok hws
    simp only [Arguments.tokens, List.all_append, Bool.and_eq_true] at hfit
    rw [List.append_assoc, Expr.depth_words_expr e w1 hf hfit.1,
      Arguments.depth_words_arguments rest w2 hr hfit.2]
    simp only [Arguments.length]
    congr 1
    omega

end

end Depth

theorem depthAfter_counts : ∀ (ws : List Nat) (d d2 : Nat), depthAfter ws d = some d2 →
    pushCount ws + d = popCount ws + d2
      ∧ ∀ k, popCount (ws.take k) ≤ pushCount (ws.take k) + d := by
  intro ws
  induction ws with
  | nil =>
    intro d d2 h
    simp only [depthAfter, Option.some.injEq] at h
    subst h
    exact ⟨rfl, fun k => by simp [popCount, pushCount]⟩
  | cons w ws ih =>
    intro d d2 h
    by_cases hpush : w = PushR0
    · have hp : isPop w = false := by rw [hpush]; decide
      rw [hpush, depthAfter_push] at h
      obtain ⟨h1, h2⟩ := ih (d + 1) d2 h
      refine ⟨?_, ?_⟩
      · simp only [pushCount, popCount, List.countP_cons, hpush, hp] at h1 ⊢
        simp only [decide_True, if_true, Bool.false_eq_true, if_false]
        have e : isPop PushR0 = false := by decide
        simp only [e, Bool.false_eq_true, if_false]
        omega
      · intro k
        cases k with
        | zero => simp [popCount, pushCount]
        | succ k =>
          have := h2 k
          have e : isPop PushR0 = false := by decide
          simp only [pushCount, popCount, List.take_succ_cons, List.countP_cons, hpush,
            decide_True, if_true, e, Bool.false_eq_true, if_false] at this ⊢
          omega
    · by_cases hp : isPop w = true
      · cases d with
        | zero => simp [depthAfter, hpush, hp] at h
        | succ d =>
          rw [depthAfter_pop w ws d hp] at h
          obtain ⟨h1, h2⟩ := ih d d2 h
          refine ⟨?_, ?_⟩
          · simp only [pushCount, popCount, List.countP_cons, hpush, hp, decide_False,
              Bool.false_eq_true, if_false, if_true] at h1 ⊢
            omega
          · intro k
            cases k with
            | zero => simp [popCount, pushCount]
            | succ k =>
              have := h2 k
              simp only [pushCount, popCount, List.take_succ_cons, List.countP_cons, hpush,
                hp, decide_False, Bool.false_eq_true, if_false, if_true] at this ⊢
              omega
      · have hp2 : isPop w = false := by simpa using hp
        rw [depthAfter_neutral w ws d hpush hp2] at h
        obtain ⟨h1, h2⟩ := ih d d2 h
        refine ⟨?_, ?_⟩
        · simp only [pushCount, popCount, List.countP_cons, hpush, hp2, decide_False,
            Bool.false_eq_true, if_false] at h1 ⊢
          omega
        · intro k
          cases k with
          | zero => simp [popCount, pushCount]
          | succ k =>
            have := h2 k
            simp only [pushCount, popCount, List.take_succ_cons, List.countP_cons, hpush,
              hp2, decide_False, Bool.false_eq_true, if_false] at this ⊢
            omega

theorem NetPushesOne_of_depth (ws : List Nat) (h : depthAfter ws 0 = some 1) :
    NetPushesOne ws := by
  obtain ⟨h1, h2⟩ := depthAfter_counts ws 0 1 h
  exact ⟨by omega, fun k => by have := h2 k; omega⟩

/-- C8: for every well-formed expression, product and token in which every call has at most four
arguments, the words emitted for it net-push exactly one word: the `push {r0}` words are one
more than the `pop {r0}`, `pop {r1}`, `pop {r2}`, `pop {r3}` words, and no prefix of the words
has more pops than pushes. -/
theorem stack_discipline (char_signed : Bool) (extern_values_ : List Nat → Option Int)
    (e : Expr) (p : Product) (t : Token)
    (hwe : e.wf = true) (hwp : p.wf = true) (hwt : t.wf = true)
    (hce : e.tokens.all callFits = true) (hcp : p.tokens.all callFits = true)
    (hct : t.tokens.all callFits = true) :
    (∀ ws, wordsOfExpr char_signed extern_values_ e.text = .ok ws → NetPushesOne ws)
      ∧ (∀ ws, wordsOfProduct char_signed extern_values_ p.text = .ok ws → NetPushesOne ws)
      ∧ (∀ ws, wordsOfToken char_signed extern_values_ t.text = .ok ws → NetPushesOne ws) := by
  refine ⟨?_, ?_, ?_⟩
  · intro ws h
    rw [wordsOfExpr_text char_signed extern_values_ e hwe] at h
    have hd := Expr.depth_words_expr extern_values_ e ws h hce [] 0
    rw [List.append_nil] at hd
    exact NetPushesOne_of_depth ws hd
  · intro ws h
    rw [wordsOfProduct_text char_signed extern_values_ p hwp] at h
    have hd := Product.depth_words_product extern_values_ p ws h hcp [] 0
    rw [List.append_nil] at hd
    exact NetPushesOne_of_depth ws hd
  · intro ws h
    rw [wordsOfToken_text char_signed extern_values_ t hwt] at h
    have hd := Token.depth_words_token extern_values_ t ws h hct [] 0
    rw [List.append_nil] at hd
    exact NetPushesOne_of_depth ws hd

theorem stack_discipline_witness :
    wordsOfToken false scenarioSymbols callSumAB.text
        = .ok [0xe3000000, 0xe3400002, 0xe5900000, 0xe52d0004,
            0xe3000004, 0xe3400002, 0xe5900000, 0xe52d0004,
            0xe3000020, 0xe3400001, 0xe1a04000, 0xe49d1004, 0xe49d0004, 0xe12fff34, 0xe52d0004]
      ∧ NetPushesOne [0xe3000000, 0xe3400002, 0xe5900000, 0xe52d0004,
            0xe3000004, 0xe3400002, 0xe5900000, 0xe52d0004,
            0xe3000020, 0xe3400001, 0xe1a04000, 0xe49d1004, 0xe49d0004, 0xe12fff34, 0xe52d0004] :=
  ⟨by decide!,
    (stack_discipline false scenarioSymbols scenario5 (.single callSumAB) callSumAB
      (by decide!) (by decide!) (by decide!) (by decide!) (by decide!) (by decide!)).2.2
      _ (by decide!)⟩

/-! ## C2: prologue and epilogue -/

/-- C2: for every well-formed expression on which compilation succeeds, the word vector that
`GetInstructionsBuffer` returns starts with `0xe92d4010` and ends with `0xe49d0004`,
`0xe8bd4010`, `0xe12fff1e`, and `jit_compile_expression_to_arm` writes exactly that vector. -/
theorem prologue_and_epilogue (char_signed : Bool) (extern_values_ : List Nat → Option Int)
    (e : Expr) (hwf : e.wf = true) (ws : List Nat)
    (h : GetInstructionsBuffer char_signed extern_values_ e.text = .ok ws) :
    ws.head? = some 0xe92d4010
      ∧ ws.drop (ws.length - 3) = [0xe49d0004, 0xe8bd4010, 0xe12fff1e]
      ∧ 4 ≤ ws.length
      ∧ ∀ (expression : List Nat) (externs : List symbol_t),
          formatExpression expression = e.text →
          buildExternValues externs (fun _ => none) = some extern_values_ →
          jit_compile_expression_to_arm char_signed expression externs = some (.ok ws) := by
  rw [GetInstructionsBuffer_text char_signed extern_values_ e hwf] at h
  rcases hw : e.words extern_values_ with err | body
  · rw [hw] at h; cases h
  · rw [hw] at h
    simp only [Except.ok.injEq] at h
    subst h
    refine ⟨rfl, ?_, by simp, ?_⟩
    · have hl : (PushR4LR :: (body ++ [PopR0, PopR4LR, BxLR])).length - 3
          = (PushR4LR :: body).length := by simp
      rw [hl, ← List.cons_append, List.drop_left]
      rfl
    · intro expression externs hf hb
      unfold jit_compile_expression_to_arm
      simp only [hb, hf]
      rw [GetInstructionsBuffer_text char_signed extern_values_ e hwf, hw]

theorem prologue_and_epilogue_witness :
    GetInstructionsBuffer false noSymbols twoPlusThree.text
        = .ok [0xe92d4010, 0xe3000002, 0xe3400000, 0xe52d0004, 0xe3000003, 0xe3400000,
            0xe52d0004, 0xe49d1004, 0xe49d0004, 0xe0800001, 0xe52d0004,
            0xe49d0004, 0xe8bd4010, 0xe12fff1e]
      ∧ twoPlusThree.text = bytes "2+3"
      ∧ [0xe92d4010, 0xe3000002, 0xe3400000, 0xe52d0004, 0xe3000003, 0xe3400000,
            0xe52d0004, 0xe49d1004, 0xe49d0004, 0xe0800001, 0xe52d0004,
            0xe49d0004, 0xe8bd4010, 0xe12fff1e].head? = some 0xe92d4010
      ∧ jit_compile_expression_to_arm false (bytes " 2 + 3 ") [⟨none, 0⟩]
        = some (.ok [0xe92d4010, 0xe3000002, 0xe3400000, 0xe52d0004, 0xe3000003, 0xe3400000,
            0xe52d0004, 0xe49d1004, 0xe49d0004, 0xe0800001, 0xe52d0004,
            0xe49d0004, 0xe8bd4010, 0xe12fff1e]) :=
  ⟨by decide!, by decide!,
    (prologue_and_epilogue false noSymbols twoPlusThree (by decide!) _ (by decide!)).1,
    (prologue_and_epilogue false noSymbols twoPlusThree (by decide!) _ (by decide!)).2.2.2
      (bytes " 2 + 3 ") [⟨none, 0⟩] (by decide!) rfl⟩

/-! ## C11: spaces in the expression -/

theorem takeWhile_filter_spaces (l : List Nat) :
    (l.filter (fun c => decide (c ≠ 32))).takeWhile (fun c => decide (c ≠ 0))
      = (l.takeWhile (fun c => decide (c ≠ 0))).filter (fun c => decide (c ≠ 32)) := by
  induction l with
  | nil => rfl
  | cons a l ih =>
    by_cases h32 : a = 32
    · subst h32
      simpa [List.takeWhile] using ih
    · by_cases h0 : a = 0
      · subst h0
        simp [List.takeWhile]
      · simpa [List.takeWhile, h32, h0] using ih

theorem formatExpression_filter (expression : List Nat) :
    formatExpression (expression.filter (fun c => decide (c ≠ 32)))
      = formatExpression expression := by
  unfold formatExpression
  rw [takeWhile_filter_spaces, List.filter_filter]
  simp

/-- C11: for every expression and symbol array, `jit_compile_expression_to_arm` gives the same
result (the same words, or the same failure) for the expression as for the expression with every
space (0x20) removed; hence two expressions that are equal once their spaces are removed compile
identically. -/
theorem whitespace_not_significant (char_signed : Bool) (expression : List Nat)
    (externs : List symbol_t) :
    jit_compile_expression_to_arm char_signed
        (expression.filter (fun c => decide (c ≠ 32))) externs
      = jit_compile_expression_to_arm char_signed expression externs
    ∧ ∀ expression2 : List Nat,
        expression2.filter (fun c => decide (c ≠ 32))
            = expression.filter (fun c => decide (c ≠ 32)) →
          jit_compile_expression_to_arm char_signed expression2 externs
            = jit_compile_expression_to_arm char_signed expression externs := by
  have key : ∀ x : List Nat, jit_compile_expression_to_arm char_signed
        (x.filter (fun c => decide (c ≠ 32))) externs
      = jit_compile_expression_to_arm char_signed x externs := by
    intro x
    unfold jit_compile_expression_to_arm
    rw [formatExpression_filter]
  refine ⟨key expression, ?_⟩
  intro expression2 h
  rw [← key expression2, h, key]

theorem whitespace_not_significant_witness :
    (bytes " 2 + 3 ").filter (fun c => decide (c ≠ 32)) = bytes "2+3"
      ∧ jit_compile_expression_to_arm false (bytes "2 +3") [⟨none, 0⟩]
        = jit_compile_expression_to_arm false (bytes " 2 + 3 ") [⟨none, 0⟩] :=
  ⟨by decide!,
    (whitespace_not_significant false (bytes " 2 + 3 ") [⟨none, 0⟩]).2 (bytes "2 +3")
      (by decide!)⟩

/-! ## C12: the symbol table -/

/-- The table after the entries `pre`, all with a name, and the terminator: a name has the
address of the last entry of `pre` that carries it, or else what it had before. -/
theorem buildExternValues_append (post : List symbol_t) :
    ∀ (pre : List symbol_t) (extern_values : List Nat → Option Int),
      (∀ s ∈ pre, s.name ≠ none) →
      buildExternValues (pre ++ ⟨none, 0⟩ :: post) extern_values
        = some (fun key =>
            match (pre.filter (fun s => decide (s.name = some key))).getLast? with
            | some s => some (toInt32 s.pointer)
            | none => extern_values key)
  | [], extern_values, _ => by
    simp [buildExternValues]
  | s :: pre, extern_values, h => by
    have hs : s.name ≠ none := h s (by simp)
    rcases hn : s.name with _ | name
    · exact absurd hn hs
    · rw [List.cons_append, buildExternValues]
      simp only [hn, reduceCtorEq, false_and, if_false]
      rw [buildExternValues_append post pre _ (fun x hx => h x (by simp [hx]))]
      congr 1
      funext key
      by_cases hk : key = name
      · subst hk
        simp only [List.filter_cons, hn, decide_True, if_true]
        rcases hl : (pre.filter (fun s => decide (s.name = some key))).getLast? with _ | s2
        · have : pre.filter (fun s => decide (s.name = some key)) = [] := by
            simpa using hl
          simp [this]
        · rw [List.getLast?_cons, hl]
          simp
      · have hk2 : ¬ (name = key) := fun h => hk h.symm
        simp [List.filter_cons, hn, hk, hk2]

/-- C12: for every symbol array whose entries before the first entry with null name and null
pointer (the terminator) all have a name, the table used for compilation maps each name to the
address of the last entry carrying that name among the entries before the terminator, and to
nothing when no such entry carries it; the entries after the terminator never affect the result
of `jit_compile_expression_to_arm`. -/
theorem symbol_table_construction (pre post : List symbol_t)
    (hpre : ∀ s ∈ pre, s.name ≠ none) :
    (∃ table, buildExternValues (pre ++ ⟨none, 0⟩ :: post) (fun _ => none) = some table
        ∧ ∀ name, table name
            = ((pre.filter (fun s => decide (s.name = some name))).getLast?).map
                (fun s => toInt32 s.pointer))
      ∧ ∀ (char_signed : Bool) (expression : List Nat) (post2 : List symbol_t),
          jit_compile_expression_to_arm char_signed expression (pre ++ ⟨none, 0⟩ :: post2)
            = jit_compile_expression_to_arm char_signed expression
                (pre ++ ⟨none, 0⟩ :: post) := by
  refine ⟨⟨_, buildExternValues_append post pre _ hpre, ?_⟩, ?_⟩
  · intro name
    split <;> simp [*]
  · intro char_signed expression post2
    unfold jit_compile_expression_to_arm
    rw [buildExternValues_append post pre _ hpre, buildExternValues_append post2 pre _ hpre]

theorem symbol_table_construction_witness :
    (∀ s ∈ shadowedA, s.name ≠ none)
      ∧ jit_compile_expression_to_arm false (bytes "a")
          (shadowedA ++ ⟨none, 0⟩ :: [⟨some (bytes "a"), 0x30000⟩])
        = jit_compile_expression_to_arm false (bytes "a") (shadowedA ++ ⟨none, 0⟩ :: [])
      ∧ jit_compile_expression_to_arm false (bytes "a") (shadowedA ++ ⟨none, 0⟩ :: [])
        = some (.ok [0xe92d4010, 0xe3000008, 0xe3400002, 0xe5900000, 0xe52d0004, 0xe49d0004,
            0xe8bd4010, 0xe12fff1e]) :=
  ⟨by decide!,
    (symbol_table_construction shadowedA [] (by decide!)).2 false (bytes "a")
      [⟨some (bytes "a"), 0x30000⟩],
    by decide!⟩

/-! ## C13: the words of a binary operator -/

theorem ExprRest.snoc_facts (tbl : List Nat → Option Int) (minus : Bool) (p : Product) :
    ∀ (r : ExprRest),
      (r.snoc minus p).text = r.text ++ opByte minus :: p.text
        ∧ (r.snoc minus p).wf = (r.wf && p.wf)
        ∧ ∀ wr wp, r.words tbl = .ok wr → p.words tbl = .ok wp →
            (r.snoc minus p).words tbl
              = .ok (wr ++ wp ++ binaryWords (if minus then SubR0R1 else AddR0R1))
  | .nil => by
    refine ⟨by simp [ExprRest.snoc, ExprRest.text, opByte], by simp [ExprRest.snoc, ExprRest.wf],
      ?_⟩
    intro wr wp hr hp
    simp only [ExprRest.words, Except.ok.injEq] at hr
    subst hr
    simp [ExprRest.snoc, ExprRest.words, hp]
  | .cons m q rest => by
    obtain ⟨h1, h2, h3⟩ := ExprRest.snoc_facts tbl minus p rest
    refine ⟨by simp [ExprRest.snoc, ExprRest.text, h1],
      by simp [ExprRest.snoc, ExprRest.wf, h2, Bool.and_assoc], ?_⟩
    intro wr wp hr hp
    simp only [ExprRest.words] at hr
    rcases hq : q.words tbl with e | wq
    · rw [hq] at hr; cases hr
    · rw [hq] at hr
      rcases hrest : rest.words tbl with e | wrest
      · rw [hrest] at hr; cases hr
      · rw [hrest] at hr
        simp only [Except.ok.injEq] at hr
        subst hr
        simp [ExprRest.snoc, ExprRest.words, hq, h3 wrest wp hrest hp]

theorem ProductRest.snoc_facts_product (tbl : List Nat → Option Int) (t : Token) :
    ∀ (r : ProductRest),
      (r.snoc t).text = r.text ++ 42 :: t.text
        ∧ (r.snoc t).wf = (r.wf && t.wf)
        ∧ ∀ wr wt, r.words tbl = .ok wr → t.words tbl = .ok wt →
            (r.snoc t).words tbl = .ok (wr ++ wt ++ binaryWords MulR0R1)
  | .nil => by
    refine ⟨by simp [ProductRest.snoc, ProductRest.text],
      by simp [ProductRest.snoc, ProductRest.wf], ?_⟩
    intro wr wt hr ht
    simp only [ProductRest.words, Except.ok.injEq] at hr
    subst hr
    simp [ProductRest.snoc, ProductRest.words, ht]
  | .cons u rest => by
    obtain ⟨h1, h2, h3⟩ := ProductRest.snoc_facts_product tbl t rest
    refine ⟨by simp [ProductRest.snoc, ProductRest.text, h1],
      by simp [ProductRest.snoc, ProductRest.wf, h2, Bool.and_assoc], ?_⟩
    intro wr wt hr ht
    simp only [ProductRest.words] at hr
    rcases hu : u.words tbl with e | wu
    · rw [hu] at hr; cases hr
    · rw [hu] at hr
      rcases hrest : rest.words tbl with e | wrest
      · rw [hrest] at hr; cases hr
      · rw [hrest] at hr
        simp only [Except.ok.injEq] at hr
        subst hr
        simp [ProductRest.snoc, ProductRest.words, hu, h3 wrest wt hrest ht]

/-- The words of `e+p` and `e-p` from the words of `e` and of `p`. -/
theorem wordsOfExpr_snoc (char_signed : Bool) (tbl : List Nat → Option Int)
    (e : Expr) (p : Product) (hwe : e.wf = true) (hwp : p.wf = true) (we wp : List Nat)
    (he : wordsOfExpr char_signed tbl e.text = .ok we)
    (hp : wordsOfProduct char_signed tbl p.text = .ok wp) (minus : Bool) :
    wordsOfExpr char_signed tbl (e.text ++ opByte minus :: p.text)
      = .ok (we ++ wp ++ binaryWords (if minus then SubR0R1 else AddR0R1)) := by
  rw [wordsOfExpr_text char_signed tbl e hwe] at he
  rw [wordsOfProduct_text char_signed tbl p hwp] at hp
  cases e with
  | mk first rest =>
    obtain ⟨h1, h2, h3⟩ := ExprRest.snoc_facts tbl minus p rest
    simp only [Expr.wf, Bool.and_eq_true] at hwe
    have ht : (Expr.mk first (rest.snoc minus p)).text
        = (Expr.mk first rest).text ++ opByte minus :: p.text := by
      simp [Expr.text, h1]
    rw [← ht, wordsOfExpr_text char_signed tbl _ (by simp [Expr.wf, h2, hwe, hwp])]
    simp only [Expr.words] at he ⊢
    rcases hf : first.words tbl with e | wf
    · rw [hf] at he; cases he
    · rw [hf] at he
      rcases hrest : rest.words tbl with e | wrest
      · rw [hrest] at he; cases he
      · rw [hrest] at he
        simp only [Except.ok.injEq] at he
        subst he
        simp [h3 wrest wp hrest hp]

/-- The words of `p*t` from the words of `p` and of `t`. -/
theorem wordsOfProduct_snoc (char_signed : Bool) (tbl : List Nat → Option Int)
    (p : Product) (t : Token) (hwp : p.wf = true) (hwt : t.wf = true) (wp wt : List Nat)
    (hp : wordsOfProduct char_signed tbl p.text = .ok wp)
    (ht : wordsOfToken char_signed tbl t.text = .ok wt) :
    wordsOfProduct char_signed tbl (p.text ++ 42 :: t.text)
      = .ok (wp ++ wt ++ binaryWords MulR0R1) := by
  rw [wordsOfProduct_text char_signed tbl p hwp] at hp
  rw [wordsOfToken_text char_signed tbl t hwt] at ht
  cases p with
  | mk first rest =>
    obtain ⟨h1, h2, h3⟩ := ProductRest.snoc_facts_product tbl t rest
    simp only [Product.wf, Bool.and_eq_true] at hwp
    have htx : (Product.mk first (rest.snoc t)).text
        = (Product.mk first rest).text ++ 42 :: t.text := by
      simp [Product.text, h1]
    rw [← htx, wordsOfProduct_text char_signed tbl _ (by simp [Product.wf, h2, hwp, hwt])]
    simp only [Product.words] at hp ⊢
    rcases hf : first.words tbl with e | wf
    · rw [hf] at hp; cases hp
    · rw [hf] at hp
      rcases hrest : rest.words tbl with e | wrest
      · rw [hrest] at hp; cases hp
      · rw [hrest] at hp
        simp only [Except.ok.injEq] at hp
        subst hp
        simp [h3 wrest wt hrest ht]

/-- C13: for every well-formed expression `e` and well-formed product `p`, the words emitted
for `e+p` are the words for `e`, then the words for `p`, then `0xe49d1004`, `0xe49d0004`,
`0xe0800001`, `0xe52d0004` (pop r1; pop r0; add; push r0); for `e-p` the third of these is
`0xe0400001` (sub); and for every well-formed product `q` and token `t` the words for `q*t` are
the words for `q`, the words for `t`, then `0xe49d1004`, `0xe49d0004`, `0xe0000190`,
`0xe52d0004`: the right operand is popped into R1 and the left one into R0. -/
theorem binary_operator_lowering (char_signed : Bool) (extern_values_ : List Nat → Option Int)
    (e : Expr) (p q : Product) (t : Token)
    (hwe : e.wf = true) (hwp : p.wf = true) (hwq : q.wf = true) (hwt : t.wf = true)
    (we wp wq wt : List Nat)
    (he : wordsOfExpr char_signed extern_values_ e.text = .ok we)
    (hp : wordsOfProduct char_signed extern_values_ p.text = .ok wp)
    (hq : wordsOfProduct char_signed extern_values_ q.text = .ok wq)
    (ht : wordsOfToken char_signed extern_values_ t.text = .ok wt) :
    wordsOfExpr char_signed extern_values_ (e.text ++ bytes "+" ++ p.text)
        = .ok (we ++ wp ++ [0xe49d1004, 0xe49d0004, 0xe0800001, 0xe52d0004])
      ∧ wordsOfExpr char_signed extern_values_ (e.text ++ bytes "-" ++ p.text)
        = .ok (we ++ wp ++ [0xe49d1004, 0xe49d0004, 0xe0400001, 0xe52d0004])
      ∧ wordsOfProduct char_signed extern_values_ (q.text ++ bytes "*" ++ t.text)
        = .ok (wq ++ wt ++ [0xe49d1004, 0xe49d0004, 0xe0000190, 0xe52d0004]) := by
  have hplus : bytes "+" = [43] := by decide
  have hminus : bytes "-" = [45] := by decide
  have hstar : bytes "*" = [42] := by decide
  have h1 := wordsOfExpr_snoc char_signed extern_values_ e p hwe hwp we wp he hp false
  have h2 := wordsOfExpr_snoc char_signed extern_values_ e p hwe hwp we wp he hp true
  have h3 := wordsOfProduct_snoc char_signed extern_values_ q t hwq hwt wq wt hq ht
  rw [hplus, hminus, hstar]
  simp only [List.append_assoc, List.singleton_append]
  exact ⟨by simpa [opByte, binaryWords, PopR1, PopR0, AddR0R1, PushR0] using h1,
    by simpa [opByte, binaryWords, PopR1, PopR0, SubR0R1, PushR0] using h2,
    by simpa [binaryWords, PopR1, PopR0, MulR0R1, PushR0] using h3⟩

theorem binary_operator_lowering_witness :
    twoPlusThree.text = bytes "2+3"
      ∧ (Product.single (.num "4")).text = bytes "4"
      ∧ wordsOfExpr false noSymbols
          (twoPlusThree.text ++ bytes "-" ++ (Product.single (.num "4")).text)
        = .ok ([0xe3000002, 0xe3400000, 0xe52d0004, 0xe3000003, 0xe3400000, 0xe52d0004,
              0xe49d1004, 0xe49d0004, 0xe0800001, 0xe52d0004]
            ++ [0xe3000004, 0xe3400000, 0xe52d0004]
            ++ [0xe49d1004, 0xe49d0004, 0xe0400001, 0xe52d0004]) :=
  ⟨by decide!, by decide!,
    (binary_operator_lowering false noSymbols twoPlusThree (.single (.num "4"))
      (.single (.num "4")) (.num "4") (by decide!) (by decide!) (by decide!) (by decide!)
      [0xe3000002, 0xe3400000, 0xe52d0004, 0xe3000003, 0xe3400000, 0xe52d0004,
        0xe49d1004, 0xe49d0004, 0xe0800001, 0xe52d0004]
      [0xe3000004, 0xe3400000, 0xe52d0004] [0xe3000004, 0xe3400000, 0xe52d0004]
      [0xe3000004, 0xe3400000, 0xe52d0004]
      (by decide!) (by decide!) (by decide!) (by decide!)).2.1⟩

/-! ## C14, C15: literals and variables in any text -/

section Scans

variable (char_signed : Bool) (extern_values_ : List Nat → Option Int)

/-- The member `ParseToken` at a run of digits that a byte other than a digit, or the end of
the text, follows. -/
theorem ParseToken_digits (b : Nat) (expression pre post : List Nat) (d : Nat) (ds : List Nat)
    (i : Nat) (out : List Nat) (hexpr : expression = pre ++ ((d :: ds) ++ post))
    (hi : i = pre.length) (hd : ∀ x ∈ d :: ds, isdigit x = true)
    (hstop : isdigit (post.headD 0) = false) :
    ParseToken char_signed expression extern_values_ (b + 1) ⟨i, out⟩
      = advance i out (d :: ds).length ((Token.lit (d :: ds)).words extern_values_) := by
  have hread : readAt expression i = d := by
    rw [hexpr, hi, readAt_append_length]; rfl
  have hdd := hd d (by simp)
  obtain ⟨h0, h45, h40⟩ := isdigit_facts d hdd
  have hne := ne_length_of_readAt expression i d hread h0
  have hdrop : expression.drop (i + 1) = ds ++ post := by
    rw [hexpr, hi]; exact drop_append_length_succ pre d (ds ++ post)
  have hscan := scanLoop_run isdigit ds post hstop d (i + 1) [] hdd
    (fun x hx => hd x (by simp [hx]))
  rw [ParseToken]
  simp only [hne, if_false, hread, h45, h40, hdd, if_true, hdrop, hscan, Token.words,
    List.nil_append]
  rcases hst : stoi (d :: ds) with _ | v
  · simp [advance]
  · simp only [advance, MoveValueToR0_eq, PushInstruction_eq, List.length_cons,
      List.append_assoc]
    congr 2
    omega

/-- The member `ParseToken` at a run of letters that a byte other than a letter and `(`, or the
end of the text, follows: the cursor ends on that byte, or past it when the byte compares equal
to `EOF`. -/
theorem ParseToken_name (b : Nat) (expression pre post : List Nat) (n : Nat) (ns : List Nat)
    (i : Nat) (out : List Nat) (hexpr : expression = pre ++ ((n :: ns) ++ post))
    (hi : i = pre.length) (hn : ∀ x ∈ n :: ns, isalpha x = true)
    (hstop : isalpha (post.headD 0) = false) (h40 : post.headD 0 ≠ 40) :
    ParseToken char_signed expression extern_values_ (b + 1) ⟨i, out⟩
      = advance i out ((n :: ns).length + if isEOF char_signed (post.headD 0) then 1 else 0)
          ((Token.var (n :: ns)).words extern_values_) := by
  have hread : readAt expression i = n := by
    rw [hexpr, hi, readAt_append_length]; rfl
  have hnn := hn n (by simp)
  obtain ⟨h0, h45, hn40, hdig⟩ := isalpha_facts n hnn
  have hne := ne_length_of_readAt expression i n hread h0
  have hdrop : expression.drop (i + 1) = ns ++ post := by
    rw [hexpr, hi]; exact drop_append_length_succ pre n (ns ++ post)
  have hscan := scanLoop_run isalpha ns post hstop n (i + 1) [] hnn
    (fun x hx => hn x (by simp [hx]))
  rw [ParseToken]
  simp only [hne, if_false, hread, h45, hn40, hdig, hdrop, hscan, Token.words, List.nil_append,
    ne_eq, h40, not_false_eq_true, if_true, loadVariable, Bool.false_eq_true]
  rcases hE : isEOF char_signed (post.headD 0) with _ | _
  · simp only [Bool.false_eq_true, if_false]
    rcases hst : extern_values_ (n :: ns) with _ | v
    · simp [advance]
    · simp only [advance, MoveValueToR0_eq, PushInstruction_eq, List.length_cons,
        List.append_assoc]
      exact ok_parser_congr (by omega) (by simp)
  · simp only [if_true]
    rcases hst : extern_values_ (n :: ns) with _ | v
    · simp [advance]
    · simp only [advance, MoveValueToR0_eq, PushInstruction_eq, List.length_cons,
        List.append_assoc]
      exact ok_parser_congr (by omega) (by simp)

end Scans

theorem toUInt32_natCast (n : Nat) (h : n < 4294967296) : toUInt32 (n : Int) = n := by
  unfold toUInt32
  omega

/-- The two words of `MoveValueToR0 n` for a literal value `n`, by the `movw`/`movt` formula. -/
theorem moveWords_literal (n : Nat) (h : n ≤ 2147483647) :
    moveWords (n : Int)
      = [0xe3000000 ||| ((n &&& 0xFFFF) &&& 0x0FFF) ||| (((n &&& 0xFFFF) &&& 0xF000) <<< 4),
         0xe3400000 ||| ((n >>> 16) &&& 0x0FFF) ||| (((n >>> 16) &&& 0xF000) <<< 4)] := by
  have hw : (0xe3000000 : Nat) = 1048576 * 3632 := by decide
  have ht : (0xe3400000 : Nat) = 1048576 * 3636 := by decide
  have hlo : n &&& 0xFFFF = n % 65536 := Nat.and_pow_two_sub_one_eq_mod n 16
  have hhi : n >>> 16 = n / 65536 := by rw [Nat.shiftRight_eq_div_pow]
  have hu := toUInt32_natCast n (by omega)
  rw [hw, ht, imm16_formula_eq, imm16_formula_eq, hlo, hhi]
  refine (moveWords_arith (n : Int)).trans ?_
  simp only [hu, List.cons.injEq, and_true]
  constructor <;> omega

/-- C14: for every non-empty run `d` of digits whose base-10 value `n` is at most `2 ^ 31 - 1`,
compiling the expression `d` yields exactly the seven words `0xe92d4010`,
`movw r0, #(n & 0xFFFF)`, `movt r0, #(n >> 16)`, `0xe52d0004`, `0xe49d0004`, `0xe8bd4010`,
`0xe12fff1e`, the 16-bit immediate `v` of `movw`/`movt` being encoded as
`base | (v & 0x0FFF) | ((v & 0xF000) << 4)`; and in any text in which `d` starts at the cursor
and a byte other than a digit (or the end of the text) follows it, `ParseToken` takes the whole
run: it emits the three words of the literal and leaves the cursor on the first byte after the
run. -/
theorem literal_lowering (char_signed : Bool) (extern_values_ : List Nat → Option Int)
    (d : List Nat) (hne : d ≠ []) (hd : ∀ c ∈ d, isdigit c = true)
    (hn : decimalValue d ≤ 2147483647) :
    GetInstructionsBuffer char_signed extern_values_ d
        = .ok [0xe92d4010,
            0xe3000000 ||| ((decimalValue d &&& 0xFFFF) &&& 0x0FFF)
              ||| (((decimalValue d &&& 0xFFFF) &&& 0xF000) <<< 4),
            0xe3400000 ||| ((decimalValue d >>> 16) &&& 0x0FFF)
              ||| (((decimalValue d >>> 16) &&& 0xF000) <<< 4),
            0xe52d0004, 0xe49d0004, 0xe8bd4010, 0xe12fff1e]
      ∧ ∀ (pre post : List Nat) (budget : Nat) (out : List Nat),
          isdigit (post.headD 0) = false →
          ParseToken char_signed (pre ++ d ++ post) extern_values_ (budget + 1)
              ⟨pre.length, out⟩
            = .ok ⟨pre.length + d.length,
                out ++ [0xe3000000 ||| ((decimalValue d &&& 0xFFFF) &&& 0x0FFF)
                    ||| (((decimalValue d &&& 0xFFFF) &&& 0xF000) <<< 4),
                  0xe3400000 ||| ((decimalValue d >>> 16) &&& 0x0FFF)
                    ||| (((decimalValue d >>> 16) &&& 0xF000) <<< 4),
                  0xe52d0004]⟩ := by
  have hs : stoi d = some (decimalValue d : Int) := by simp [stoi, hn]
  have hm := moveWords_literal (decimalValue d) hn
  refine ⟨?_, ?_⟩
  · have hwf : (Expr.ofToken (.lit d)).wf = true := by
      simpa [Expr.ofToken, Expr.wf, Product.wf, ExprRest.wf, ProductRest.wf, Token.wf]
        using ⟨hne, hd⟩
    rw [GetInstructionsBuffer_of_text char_signed extern_values_ (Expr.ofToken (.lit d)) hwf d
      (by simp [Expr.ofToken, Expr.text, Product.text, ExprRest.text, ProductRest.text,
        Token.text])]
    simp only [Expr.ofToken, Expr.words, Product.words, ExprRest.words, ProductRest.words,
      Token.words, hs, hm]
    rfl
  · intro pre post budget out hstop
    cases d with
    | nil => exact absurd rfl hne
    | cons c cs =>
      rw [ParseToken_digits char_signed extern_values_ budget _ pre post c cs pre.length out
        (by simp) rfl hd hstop]
      simp only [Token.words, hs, advance, hm]
      rfl

theorem literal_lowering_witness :
    GetInstructionsBuffer false noSymbols (bytes "70000")
      = .ok [0xe92d4010,
          0xe3000000 ||| ((decimalValue (bytes "70000") &&& 0xFFFF) &&& 0x0FFF)
            ||| (((decimalValue (bytes "70000") &&& 0xFFFF) &&& 0xF000) <<< 4),
          0xe3400000 ||| ((decimalValue (bytes "70000") >>> 16) &&& 0x0FFF)
            ||| (((decimalValue (bytes "70000") >>> 16) &&& 0xF000) <<< 4),
          0xe52d0004, 0xe49d0004, 0xe8bd4010, 0xe12fff1e] :=
  (literal_lowering false noSymbols (bytes "70000") (by decide!) (by decide!) (by decide!)).1

/-- The variable load of `ParseToken` in any text: for every non-empty alphabetic name `n` bound
to the address `A`, the words emitted for `n` are the two words of `MoveValueToR0 A`, then
`0xe5900000` (ldr r0, [r0]), then `0xe52d0004` (push r0), both when `n` ends the text and when a
byte `c` other than a letter and `(` follows it; the cursor then ends on `c`, but for the one
case of the branch `if (symbol == EOF)`, a signed `char` and `c = 0xFF`, where it ends one past
`c`. -/
theorem variable_lowering (char_signed : Bool) (extern_values_ : List Nat → Option Int)
    (n : List Nat) (hne : n ≠ []) (hn : ∀ c ∈ n, isalpha c = true)
    (address : Int) (hbound : extern_values_ n = some address) :
    (∀ (pre : List Nat) (budget : Nat) (out : List Nat),
        ParseToken char_signed (pre ++ n) extern_values_ (budget + 1) ⟨pre.length, out⟩
          = .ok ⟨pre.length + n.length,
              out ++ (MoveValueToR0 { index_ := 0, out_ := [] } address).out_
                ++ [0xe5900000, 0xe52d0004]⟩)
      ∧ ∀ (pre : List Nat) (c : Nat) (post : List Nat) (budget : Nat) (out : List Nat),
          isalpha c = false → c ≠ 40 →
          ParseToken char_signed (pre ++ n ++ c :: post) extern_values_ (budget + 1)
              ⟨pre.length, out⟩
            = .ok ⟨pre.length + n.length + (if char_signed = true ∧ c = 255 then 1 else 0),
                out ++ (MoveValueToR0 { index_ := 0, out_ := [] } address).out_
                  ++ [0xe5900000, 0xe52d0004]⟩ := by
  cases n with
  | nil => exact absurd rfl hne
  | cons a as =>
    refine ⟨?_, ?_⟩
    · intro pre budget out
      rw [ParseToken_name char_signed extern_values_ budget _ pre [] a as pre.length out
        (by simp) rfl hn (by simp [isalpha]) (by simp)]
      simp [Token.words, hbound, advance, isEOF, moveWords, LdrR0FromR0, PushR0]
    · intro pre c post budget out hc h40
      rw [ParseToken_name char_signed extern_values_ budget _ pre (c :: post) a as pre.length out
        (by simp) rfl hn (by simpa using hc) (by simpa using h40)]
      simp only [Token.words, hbound, advance, isEOF, List.headD_cons, Bool.and_eq_true,
        decide_eq_true_eq, moveWords, LdrR0FromR0, PushR0]
      exact ok_parser_congr (by omega) (by simp)

theorem variable_lowering_witness :
    onlyA (bytes "a") = some 0x20000
      ∧ ParseToken false (bytes "2+" ++ bytes "a" ++ 42 :: bytes "3") onlyA (0 + 1)
          ⟨(bytes "2+").length, []⟩
        = .ok ⟨(bytes "2+").length + (bytes "a").length
              + (if false = true ∧ 42 = 255 then 1 else 0),
            [] ++ (MoveValueToR0 { index_ := 0, out_ := [] } 0x20000).out_
              ++ [0xe5900000, 0xe52d0004]⟩ :=
  ⟨by decide!,
    (variable_lowering false onlyA (bytes "a") (by decide!) (by decide!) 0x20000 (by decide!)).2
      (bytes "2+") 42 (bytes "3") 0 [] (by decide!) (by decide!)⟩

/-! ## C16: unary minus -/

/-- C16: for every well-formed token `t`, the words emitted for the token `-t` are the words
emitted for `t` followed by exactly `0xe30f0fff`, `0xe34f0fff`, `0xe52d0004`, `0xe49d1004`,
`0xe49d0004`, `0xe0000190`, `0xe52d0004` (load `-1` into R0, halves `0xFFFF` and `0xFFFF`;
push r0; pop r1; pop r0; mul; push r0); the minus applies to the single token after it:
`-a*b` compiles to the code of `(-a)*b`. -/
theorem unary_minus_lowering (char_signed : Bool) (extern_values_ : List Nat → Option Int)
    (t a b : Token) (hwt : t.wf = true) (hwa : a.wf = true) (hwb : b.wf = true)
    (wt : List Nat) (ht : wordsOfToken char_signed extern_values_ t.text = .ok wt) :
    wordsOfToken char_signed extern_values_ (bytes "-" ++ t.text)
        = .ok (wt ++ [0xe30f0fff, 0xe34f0fff, 0xe52d0004, 0xe49d1004, 0xe49d0004, 0xe0000190,
            0xe52d0004])
      ∧ GetInstructionsBuffer char_signed extern_values_
          (bytes "-" ++ a.text ++ bytes "*" ++ b.text)
        = GetInstructionsBuffer char_signed extern_values_
          (bytes "(-" ++ a.text ++ bytes ")*" ++ b.text) := by
  have hminus : bytes "-" = [45] := by decide
  have hstar : bytes "*" = [42] := by decide
  have hopen : bytes "(-" = [40, 45] := by decide
  have hclose : bytes ")*" = [41, 42] := by decide
  have hneg : negWords = [0xe30f0fff, 0xe34f0fff, 0xe52d0004, 0xe49d1004, 0xe49d0004,
      0xe0000190, 0xe52d0004] := by decide!
  rw [wordsOfToken_text char_signed extern_values_ t hwt] at ht
  refine ⟨?_, ?_⟩
  · have h := wordsOfToken_text char_signed extern_values_ (.neg t)
      (by simpa [Token.wf] using hwt)
    rw [hminus]
    simp only [Token.text, Token.words, ht] at h
    rw [← hneg]
    simpa using h
  · rw [hminus, hstar, hopen, hclose,
      GetInstructionsBuffer_of_text char_signed extern_values_
        (.single (.mk (.neg a) (.cons b .nil)))
        (by simp [Expr.wf, Expr.single, Product.wf, ExprRest.wf, ProductRest.wf, Token.wf,
          hwa, hwb]) _
        (by simp [Expr.text, Expr.single, Product.text, ExprRest.text, ProductRest.text,
          Token.text]),
      GetInstructionsBuffer_of_text char_signed extern_values_
        (.single (.mk (.paren (.ofToken (.neg a))) (.cons b .nil)))
        (by simp [Expr.wf, Expr.single, Expr.ofToken, Product.wf, ExprRest.wf, ProductRest.wf,
          Token.wf, hwa, hwb]) _
        (by simp [Expr.text, Expr.single, Expr.ofToken, Product.text, ExprRest.text,
          ProductRest.text, Token.text])]
    simp only [Expr.words, Expr.single, Expr.ofToken, Product.words, ExprRest.words,
      ProductRest.words, Token.words]
    rcases a.words extern_values_ with e | wa
    · rfl
    · rcases b.words extern_values_ with e | wb
      · rfl
      · simp

theorem unary_minus_lowering_witness :
    (Token.num "5").text = bytes "5"
      ∧ wordsOfToken false noSymbols (bytes "-" ++ (Token.num "5").text)
        = .ok ([0xe3000005, 0xe3400000, 0xe52d0004]
            ++ [0xe30f0fff, 0xe34f0fff, 0xe52d0004, 0xe49d1004, 0xe49d0004, 0xe0000190,
              0xe52d0004]) :=
  ⟨by decide!,
    (unary_minus_lowering false noSymbols (.num "5") (.num "5") (.num "5")
      (by decide!) (by decide!) (by decide!) [0xe3000005, 0xe3400000, 0xe52d0004]
      (by decide!)).1⟩

/-! ## C19: parentheses -/

/-- The text `(e)` compiles to what `e` compiles to. -/
theorem GetInstructionsBuffer_paren (char_signed : Bool)
    (extern_values_ : List Nat → Option Int) (e : Expr) (hwf : e.wf = true) :
    GetInstructionsBuffer char_signed extern_values_ (bytes "(" ++ e.text ++ bytes ")")
      = GetInstructionsBuffer char_signed extern_values_ e.text := by
  have hopen : bytes "(" = [40] := by decide
  have hclose : bytes ")" = [41] := by decide
  rw [hopen, hclose, GetInstructionsBuffer_text char_signed extern_values_ e hwf,
    GetInstructionsBuffer_of_text char_signed extern_values_ (.ofToken (.paren e))
      (by simpa [Expr.wf, Expr.ofToken, Product.wf, ExprRest.wf, ProductRest.wf, Token.wf]
        using hwf) _
      (by simp [Expr.text, Expr.ofToken, Product.text, ExprRest.text, ProductRest.text,
        Token.text])]
  simp only [Expr.words, Expr.ofToken, Product.words, ExprRest.words, ProductRest.words,
    Token.words]
  rcases e with ⟨first, rest⟩
  simp only [Expr.words]
  rcases first.words extern_values_ with err | w1
  · rfl
  · rcases rest.words extern_values_ with err | w2
    · rfl
    · simp

/-- C19: for every well-formed expression `e` and every symbol table, compiling the text
`(e)` gives exactly the same result, the same word vector or the same failure, as compiling
`e`, in `GetInstructionsBuffer` and in `jit_compile_expression_to_arm`. -/
theorem parentheses_emit_nothing (char_signed : Bool) (extern_values_ : List Nat → Option Int)
    (e : Expr) (hwf : e.wf = true) :
    GetInstructionsBuffer char_signed extern_values_ (bytes "(" ++ e.text ++ bytes ")")
        = GetInstructionsBuffer char_signed extern_values_ e.text
      ∧ ∀ (expression expression2 : List Nat) (externs : List symbol_t),
          formatExpression expression = e.text →
          formatExpression expression2 = bytes "(" ++ e.text ++ bytes ")" →
          jit_compile_expression_to_arm char_signed expression2 externs
            = jit_compile_expression_to_arm char_signed expression externs := by
  refine ⟨GetInstructionsBuffer_paren char_signed extern_values_ e hwf, ?_⟩
  intro expression expression2 externs h1 h2
  unfold jit_compile_expression_to_arm
  simp only [h1, h2]
  rcases buildExternValues externs (fun _ => none) with _ | table
  · rfl
  · simp only
    rw [GetInstructionsBuffer_paren char_signed table e hwf]

theorem parentheses_emit_nothing_witness :
    twoPlusThree.text = bytes "2+3"
      ∧ GetInstructionsBuffer false noSymbols (bytes "(" ++ twoPlusThree.text ++ bytes ")")
        = GetInstructionsBuffer false noSymbols twoPlusThree.text :=
  ⟨by decide!, (parentheses_emit_nothing false noSymbols twoPlusThree (by decide!)).1⟩

/-! ## The parser on any text -/

theorem scanLoop_facts (pred : Nat → Bool) (expression : List Nat) :
    ∀ (l : List Nat) (symbol index : Nat) (str : List Nat),
      l = expression.drop (index + 1) → symbol = readAt expression index →
      index + 1 ≤ (scanLoop pred l symbol (index + 1) str).2.1
        ∧ (pred symbol = true → index + 2 ≤ (scanLoop pred l symbol (index + 1) str).2.1)
        ∧ (scanLoop pred l symbol (index + 1) str).1
            = readAt expression ((scanLoop pred l symbol (index + 1) str).2.1 - 1)
  | [], symbol, index, str, hl, hs => by
    have hlen : expression.length ≤ index + 1 := by
      have := congrArg List.length hl
      simp at this
      omega
    by_cases hp : pred symbol = true
    · simp only [scanLoop, hp, if_true]
      refine ⟨by omega, fun _ => by omega, ?_⟩
      simp only [Nat.add_sub_cancel]
      unfold readAt
      rw [List.getD_eq_default _ _ (by omega)]
    · simp only [scanLoop, hp, Bool.false_eq_true, if_false]
      exact ⟨by omega, fun h => absurd h (by simp), by simpa using hs⟩
  | c :: rest, symbol, index, str, hl, hs => by
    have hc : c = readAt expression (index + 1) := by
      have := congrArg (fun l => l.getD 0 0) hl
      simpa [readAt, List.getD_eq_getElem?_getD, List.getElem?_drop] using this
    have hrest : rest = expression.drop (index + 1 + 1) := by
      have := congrArg List.tail hl
      simpa using this
    by_cases hp : pred symbol = true
    · simp only [scanLoop, hp, if_true]
      obtain ⟨h1, _, h3⟩ := scanLoop_facts pred expression rest c (index + 1) (str ++ [symbol])
        hrest hc
      exact ⟨by omega, fun _ => by omega, h3⟩
    · simp only [scanLoop, hp, Bool.false_eq_true, if_false]
      exact ⟨by omega, fun h => absurd h (by simp), by simpa using hs⟩

theorem lt_length_of_readAt (expression : List Nat) (i c : Nat) (h : readAt expression i = c)
    (hc : c ≠ 0) : i < expression.length := by
  by_contra hi
  unfold readAt at h
  rw [List.getD_eq_default _ _ (by omega)] at h
  exact hc h.symm

theorem moveWords_length (x : Int) : (moveWords x).length = 2 := by
  rw [moveWords_eq]; rfl

theorem popWords_length (n : Nat) : (popWords n).length ≤ 4 := by
  rw [popWords_eq]
  simp only [List.length_append]
  split <;> split <;> split <;> split <;> simp

theorem negWords_length : negWords.length = 7 := by
  simp [negWords, moveWords_length]

section AnyText

variable (char_signed : Bool) (extern_values_ : List Nat → Option Int)

theorem ParseLoop_other (b : Nat) (expression : List Nat) (i : Nat) (out : List Nat)
    (h43 : readAt expression i ≠ 43) (h45 : readAt expression i ≠ 45) :
    ParseLoop char_signed expression extern_values_ (b + 1) ⟨i, out⟩ = .ok ⟨i, out⟩ := by
  rw [ParseLoop]
  by_cases hi : i = expression.length
  · simp [hi]
  · simp [hi, h43, h45]

theorem ParseProductLoop_other (b : Nat) (expression : List Nat) (i : Nat) (out : List Nat)
    (h42 : readAt expression i ≠ 42) :
    ParseProductLoop char_signed expression extern_values_ (b + 1) ⟨i, out⟩ = .ok ⟨i, out⟩ := by
  rw [ParseProductLoop]
  by_cases hi : i = expression.length
  · simp [hi]
  · simp [hi, h42]

theorem ParseToken_end (b : Nat) (expression : List Nat) (i : Nat) (out : List Nat)
    (hi : i = expression.length) :
    ParseToken char_signed expression extern_values_ (b + 1) ⟨i, out⟩ = .ok ⟨i, out⟩ := by
  rw [ParseToken]
  simp [hi]

theorem ParseToken_digit_scan (b : Nat) (expression : List Nat) (i : Nat) (out : List Nat)
    (hd : isdigit (readAt expression i) = true) :
    ParseToken char_signed expression extern_values_ (b + 1) ⟨i, out⟩
      = match stoi (scanLoop isdigit (expression.drop (i + 1)) (readAt expression i)
            (i + 1) []).2.2 with
        | none => .error .literal_out_of_range
        | some value =>
          .ok ⟨(scanLoop isdigit (expression.drop (i + 1)) (readAt expression i)
                (i + 1) []).2.1 - 1,
            out ++ (moveWords value ++ [PushR0])⟩ := by
  obtain ⟨h0, h45, h40⟩ := isdigit_facts _ hd
  have hne := ne_length_of_readAt expression i _ rfl h0
  rw [ParseToken]
  simp only [hne, if_false, h45, h40, hd, if_true]
  rcases stoi (scanLoop isdigit (expression.drop (i + 1)) (readAt expression i)
    (i + 1) []).2.2 with _ | v <;> simp [MoveValueToR0_eq, PushInstruction_eq]

theorem loadVariable_eq (name : List Nat) (p : Parser) :
    loadVariable extern_values_ name p
      = match extern_values_ name with
        | none => .error .lookup_failure
        | some address => .ok ⟨p.index_, p.out_ ++ (moveWords address ++ [LdrR0FromR0, PushR0])⟩ := by
  unfold loadVariable
  rcases extern_values_ name with _ | v <;> simp [MoveValueToR0_eq, PushInstruction_eq]

theorem ParseToken_name_scan (b : Nat) (expression : List Nat) (i : Nat) (out : List Nat)
    (hi : i ≠ expression.length) (h45 : readAt expression i ≠ 45)
    (h40 : readAt expression i ≠ 40) (hd : isdigit (readAt expression i) = false) :
    ParseToken char_signed expression extern_values_ (b + 1) ⟨i, out⟩
      = if isEOF char_signed
            (scanLoop isalpha (expression.drop (i + 1)) (readAt expression i) (i + 1) []).1
        then loadVariable extern_values_
          (scanLoop isalpha (expression.drop (i + 1)) (readAt expression i) (i + 1) []).2.2
          ⟨(scanLoop isalpha (expression.drop (i + 1)) (readAt expression i) (i + 1) []).2.1,
            out⟩
        else if (scanLoop isalpha (expression.drop (i + 1)) (readAt expression i)
            (i + 1) []).1 ≠ 40
        then loadVariable extern_values_
          (scanLoop isalpha (expression.drop (i + 1)) (readAt expression i) (i + 1) []).2.2
          ⟨(scanLoop isalpha (expression.drop (i + 1)) (readAt expression i) (i + 1) []).2.1
            - 1, out⟩
        else ParseFunction char_signed expression extern_values_ b
          (scanLoop isalpha (expression.drop (i + 1)) (readAt expression i) (i + 1) []).2.2
          ⟨(scanLoop isalpha (expression.drop (i + 1)) (readAt expression i) (i + 1) []).2.1,
            out⟩ := by
  rw [ParseToken]
  simp only [hi, if_false, h45, h40, hd, Bool.false_eq_true]

end AnyText

theorem Sound.of_error {len : Nat} {U enough : Prop} {extra : Nat} {p : Parser}
    {e : ParseError} (h : enough → e ≠ .budget_exhausted) :
    Sound len U enough extra p (.error e) :=
  ⟨fun hen heq => h hen (by cases heq; rfl), fun q hq => (by cases hq)⟩

theorem Sound.of_ok {len : Nat} {U enough : Prop} {extra : Nat} {p q : Parser}
    (h1 : p.index_ ≤ q.index_)
    (h2 : U → q.out_.length + 7 * min p.index_ len
      ≤ p.out_.length + 7 * min q.index_ len + extra) :
    Sound len U enough extra p (.ok q) :=
  ⟨fun _ heq => (by cases heq), fun q2 hq => (by cases hq; exact ⟨h1, h2⟩)⟩

section SoundSteps

variable (char_signed : Bool) (expression : List Nat) (extern_values_ : List Nat → Option Int)

theorem Parse_sound (b : Nat)
    (ihPr : ∀ p, Sound expression.length (extern_values_ [] = none)
      (4 * (expression.length - p.index_) + 2 ≤ b) 0 p
      (ParseProduct char_signed expression extern_values_ b p))
    (ihL : ∀ p, Sound expression.length (extern_values_ [] = none)
      (4 * (expression.length - p.index_) + 1 ≤ b) 0 p
      (ParseLoop char_signed expression extern_values_ b p)) :
    ∀ p, Sound expression.length (extern_values_ [] = none)
      (4 * (expression.length - p.index_) + 3 ≤ b + 1) 0 p
      (Parse char_signed expression extern_values_ (b + 1) p) := by
  intro p
  rw [Parse_eq]
  obtain ⟨h1, h2⟩ := ihPr p
  rcases hr : ParseProduct char_signed expression extern_values_ b p with e | q
  · exact Sound.of_error (fun hen heq => h1 (by omega) (by rw [hr, heq]))
  · obtain ⟨hq1, hq2⟩ := h2 q hr
    obtain ⟨h3, h4⟩ := ihL q
    refine ⟨fun hen => h3 (by omega), fun q2 hq => ?_⟩
    obtain ⟨h5, h6⟩ := h4 q2 hq
    exact ⟨by omega, fun hU => by have := hq2 hU; have := h6 hU; omega⟩

theorem ParseProduct_sound (b : Nat)
    (ihT : ∀ p, Sound expression.length (extern_values_ [] = none)
      (4 * (expression.length - p.index_) + 1 ≤ b) 0 p
      (ParseToken char_signed expression extern_values_ b p))
    (ihPL : ∀ p, Sound expression.length (extern_values_ [] = none)
      (4 * (expression.length - p.index_) + 1 ≤ b) 0 p
      (ParseProductLoop char_signed expression extern_values_ b p)) :
    ∀ p, Sound expression.length (extern_values_ [] = none)
      (4 * (expression.length - p.index_) + 2 ≤ b + 1) 0 p
      (ParseProduct char_signed expression extern_values_ (b + 1) p) := by
  intro p
  rw [ParseProduct_eq]
  obtain ⟨h1, h2⟩ := ihT p
  rcases hr : ParseToken char_signed expression extern_values_ b p with e | q
  · exact Sound.of_error (fun hen heq => h1 (by omega) (by rw [hr, heq]))
  · obtain ⟨hq1, hq2⟩ := h2 q hr
    obtain ⟨h3, h4⟩ := ihPL q
    refine ⟨fun hen => h3 (by omega), fun q2 hq => ?_⟩
    obtain ⟨h5, h6⟩ := h4 q2 hq
    exact ⟨by omega, fun hU => by have := hq2 hU; have := h6 hU; omega⟩

theorem ParseLoop_sound (b : Nat)
    (ihPr : ∀ p, Sound expression.length (extern_values_ [] = none)
      (4 * (expression.length - p.index_) + 2 ≤ b) 0 p
      (ParseProduct char_signed expression extern_values_ b p))
    (ihL : ∀ p, Sound expression.length (extern_values_ [] = none)
      (4 * (expression.length - p.index_) + 1 ≤ b) 0 p
      (ParseLoop char_signed expression extern_values_ b p)) :
    ∀ p, Sound expression.length (extern_values_ [] = none)
      (4 * (expression.length - p.index_) + 1 ≤ b + 1) 0 p
      (ParseLoop char_signed expression extern_values_ (b + 1) p) := by
  rintro ⟨i, out⟩
  have op : ∀ minus : Bool, (readAt expression i = if minus then 45 else 43) →
      Sound expression.length (extern_values_ [] = none)
        (4 * (expression.length - i) + 1 ≤ b + 1) 0 ⟨i, out⟩
        (ParseLoop char_signed expression extern_values_ (b + 1) ⟨i, out⟩) := by
    intro minus hread
    have hlt := lt_length_of_readAt expression i _ hread (by cases minus <;> decide)
    rw [ParseLoop_op char_signed extern_values_ b expression i out minus hread]
    obtain ⟨h1, h2⟩ := ihPr ⟨i + 1, out⟩
    rcases hr : ParseProduct char_signed expression extern_values_ b ⟨i + 1, out⟩ with e | q
    · exact Sound.of_error (fun hen heq => h1 (by simp only; omega) (by rw [hr, heq]))
    · obtain ⟨hq1, hq2⟩ := h2 q hr
      obtain ⟨h3, h4⟩ := ihL ⟨q.index_, q.out_ ++ binaryWords (if minus then SubR0R1 else AddR0R1)⟩
      simp only at hq1 hq2 h3 h4
      refine ⟨fun hen => h3 (by omega), fun q2 hq => ?_⟩
      obtain ⟨h5, h6⟩ := h4 q2 hq
      refine ⟨by simp only; omega, fun hU => ?_⟩
      have := hq2 hU
      have := h6 hU
      simp only [List.length_append, binaryWords, List.length_cons, List.length_nil] at this
      simp only
      omega
  by_cases h43 : readAt expression i = 43
  · exact op false (by simpa using h43)
  · by_cases h45 : readAt expression i = 45
    · exact op true (by simpa using h45)
    · rw [ParseLoop_other char_signed extern_values_ b expression i out h43 h45]
      exact Sound.of_ok (Nat.le_refl _) (fun _ => by omega)

theorem ParseProductLoop_sound (b : Nat)
    (ihT : ∀ p, Sound expression.length (extern_values_ [] = none)
      (4 * (expression.length - p.index_) + 1 ≤ b) 0 p
      (ParseToken char_signed expression extern_values_ b p))
    (ihPL : ∀ p, Sound expression.length (extern_values_ [] = none)
      (4 * (expression.length - p.index_) + 1 ≤ b) 0 p
      (ParseProductLoop char_signed expression extern_values_ b p)) :
    ∀ p, Sound expression.length (extern_values_ [] = none)
      (4 * (expression.length - p.index_) + 1 ≤ b + 1) 0 p
      (ParseProductLoop char_signed expression extern_values_ (b + 1) p) := by
  rintro ⟨i, out⟩
  by_cases h42 : readAt expression i = 42
  · have hlt := lt_length_of_readAt expression i _ h42 (by decide)
    rw [ParseProductLoop_mul char_signed extern_values_ b expression i out h42]
    obtain ⟨h1, h2⟩ := ihT ⟨i + 1, out⟩
    rcases hr : ParseToken char_signed expression extern_values_ b ⟨i + 1, out⟩ with e | q
    · exact Sound.of_error (fun hen heq => h1 (by simp only at hen ⊢; omega) (by rw [hr, heq]))
    · obtain ⟨hq1, hq2⟩ := h2 q hr
      obtain ⟨h3, h4⟩ := ihPL ⟨q.index_, q.out_ ++ binaryWords MulR0R1⟩
      simp only at hq1 hq2 h3 h4
      refine ⟨fun hen => h3 (by simp only at hen; omega), fun q2 hq => ?_⟩
      obtain ⟨h5, h6⟩ := h4 q2 hq
      refine ⟨by simp only; omega, fun hU => ?_⟩
      have := hq2 hU
      have := h6 hU
      simp only [List.length_append, binaryWords, List.length_cons, List.length_nil] at this
      simp only
      omega
  · rw [ParseProductLoop_other char_signed extern_values_ b expression i out h42]
    exact Sound.of_ok (Nat.le_refl _) (fun _ => by omega)

end SoundSteps

section SoundSteps2

variable (char_signed : Bool) (expression : List Nat) (extern_values_ : List Nat → Option Int)

theorem loadVariable_sound (enough : Prop) (name : List Nat) (i j : Nat) (out : List Nat)
    (hij : i ≤ j)
    (hsize : extern_values_ [] = none → name ≠ [] →
      4 + 7 * min i expression.length ≤ 7 * min j expression.length) :
    Sound expression.length (extern_values_ [] = none) enough 0 ⟨i, out⟩
      (loadVariable extern_values_ name ⟨j, out⟩) := by
  rw [loadVariable_eq]
  rcases hn : extern_values_ name with _ | address
  · exact Sound.of_error (fun _ => by decide)
  · refine Sound.of_ok hij (fun hU => ?_)
    have hne : name ≠ [] := by
      intro h
      rw [h, hU] at hn
      cases hn
    have := hsize hU hne
    simp only [List.length_append, moveWords_length, List.length_cons, List.length_nil]
    omega

theorem ParseToken_sound (b : Nat)
    (ihP : ∀ p, Sound expression.length (extern_values_ [] = none)
      (4 * (expression.length - p.index_) + 3 ≤ b) 0 p
      (Parse char_signed expression extern_values_ b p))
    (ihT : ∀ p, Sound expression.length (extern_values_ [] = none)
      (4 * (expression.length - p.index_) + 1 ≤ b) 0 p
      (ParseToken char_signed expression extern_values_ b p))
    (ihF : ∀ name p, Sound expression.length (extern_values_ [] = none)
      (4 * (expression.length - p.index_) + 5 ≤ b) 9 p
      (ParseFunction char_signed expression extern_values_ b name p)) :
    ∀ p, Sound expression.length (extern_values_ [] = none)
      (4 * (expression.length - p.index_) + 1 ≤ b + 1) 0 p
      (ParseToken char_signed expression extern_values_ (b + 1) p) := by
  rintro ⟨i, out⟩
  by_cases hi : i = expression.length
  · rw [ParseToken_end char_signed extern_values_ b expression i out hi]
    exact Sound.of_ok (Nat.le_refl _) (fun _ => by omega)
  by_cases h45 : readAt expression i = 45
  · have hlt := lt_length_of_readAt expression i _ h45 (by decide)
    rw [ParseToken_neg char_signed extern_values_ b expression i out h45]
    obtain ⟨h1, h2⟩ := ihT ⟨i + 1, out⟩
    rcases hr : ParseToken char_signed expression extern_values_ b ⟨i + 1, out⟩ with e | q
    · exact Sound.of_error (fun hen heq => h1 (by simp only at hen ⊢; omega) (by rw [hr, heq]))
    · obtain ⟨hq1, hq2⟩ := h2 q hr
      simp only at hq1 hq2
      refine Sound.of_ok (by simp only; omega) (fun hU => ?_)
      have := hq2 hU
      simp only [List.length_append, negWords_length]
      omega
  by_cases h40 : readAt expression i = 40
  · have hlt := lt_length_of_readAt expression i _ h40 (by decide)
    rw [ParseToken_paren char_signed extern_values_ b expression i out h40]
    obtain ⟨h1, h2⟩ := ihP ⟨i + 1, out⟩
    rcases hr : Parse char_signed expression extern_values_ b ⟨i + 1, out⟩ with e | q
    · exact Sound.of_error (fun hen heq => h1 (by simp only at hen ⊢; omega) (by rw [hr, heq]))
    · obtain ⟨hq1, hq2⟩ := h2 q hr
      simp only at hq1 hq2
      refine Sound.of_ok (by simp only; omega) (fun hU => ?_)
      have := hq2 hU
      simp only
      omega
  by_cases hd : isdigit (readAt expression i) = true
  · have hlt := lt_length_of_readAt expression i _ rfl (isdigit_facts _ hd).1
    obtain ⟨hs1, hs2, _⟩ := scanLoop_facts isdigit expression (expression.drop (i + 1))
      (readAt expression i) i [] rfl rfl
    have hs2 := hs2 hd
    rw [ParseToken_digit_scan char_signed extern_values_ b expression i out hd]
    rcases stoi (scanLoop isdigit (expression.drop (i + 1)) (readAt expression i)
      (i + 1) []).2.2 with _ | value
    · exact Sound.of_error (fun _ => by decide)
    · refine Sound.of_ok (by simp only; omega) (fun _ => ?_)
      simp only [List.length_append, moveWords_length, List.length_cons, List.length_nil]
      omega
  · have hd : isdigit (readAt expression i) = false := by simpa using hd
    obtain ⟨hs1, hs2, hs3⟩ := scanLoop_facts isalpha expression (expression.drop (i + 1))
      (readAt expression i) i [] rfl rfl
    rw [ParseToken_name_scan char_signed extern_values_ b expression i out hi h45 h40 hd]
    by_cases ha : isalpha (readAt expression i) = true
    · have hlt := lt_length_of_readAt expression i _ rfl (isalpha_facts _ ha).1
      have hs2 := hs2 ha
      split
      · exact loadVariable_sound expression extern_values_ _ _ i _ out (by omega)
          (fun _ _ => by omega)
      · split
        · exact loadVariable_sound expression extern_values_ _ _ i _ out (by omega)
            (fun _ _ => by omega)
        · rename_i hnot
          have h40s : (scanLoop isalpha (expression.drop (i + 1)) (readAt expression i)
              (i + 1) []).1 = 40 := by simpa using hnot
          have hlt2 := lt_length_of_readAt expression _ 40 (hs3.symm.trans h40s) (by decide)
          obtain ⟨h1, h2⟩ := ihF
            (scanLoop isalpha (expression.drop (i + 1)) (readAt expression i) (i + 1) []).2.2
            ⟨(scanLoop isalpha (expression.drop (i + 1)) (readAt expression i) (i + 1) []).2.1,
              out⟩
          refine ⟨fun hen => h1 (by simp only at hen ⊢; omega), fun q hq => ?_⟩
          obtain ⟨h5, h6⟩ := h2 q hq
          simp only at h5 h6
          refine ⟨by simp only; omega, fun hU => ?_⟩
          have := h6 hU
          simp only
          omega
    · have ha : isalpha (readAt expression i) = false := by simpa using ha
      rw [scanLoop_stop isalpha _ _ _ _ ha]
      simp only [h40, ne_eq, not_false_eq_true, if_true]
      split
      · exact loadVariable_sound expression extern_values_ _ _ i _ out (by omega)
          (fun _ h => absurd rfl h)
      · exact loadVariable_sound expression extern_values_ _ _ i _ out (by omega)
          (fun _ h => absurd rfl h)

theorem ParseFunction_sound (b : Nat)
    (ihA : ∀ p n, Sound expression.length (extern_values_ [] = none)
      (4 * (expression.length - p.index_) + 4 ≤ b) 0 p
      (argumentsParser (ParseArguments char_signed expression extern_values_ b p n))) :
    ∀ name p, Sound expression.length (extern_values_ [] = none)
      (4 * (expression.length - p.index_) + 5 ≤ b + 1) 9 p
      (ParseFunction char_signed expression extern_values_ (b + 1) name p) := by
  intro name p
  rw [ParseFunction_eq]
  have hA := ihA p 0
  rcases hr : ParseArguments char_signed expression extern_values_ b p 0 with e | ⟨q, k⟩
  · rw [hr] at hA
    exact Sound.of_error (fun hen heq => hA.1 (by omega) (by rw [heq]; rfl))
  · rw [hr] at hA
    obtain ⟨hq1, hq2⟩ := hA.2 q rfl
    simp only
    rcases extern_values_ name with _ | address
    · exact Sound.of_error (fun _ => by decide)
    · refine Sound.of_ok hq1 (fun hU => ?_)
      have := hq2 hU
      have := popWords_length k
      simp only [List.length_append, moveWords_length, List.length_cons, List.length_nil]
      omega

theorem ParseArguments_sound (b : Nat)
    (ihP : ∀ p, Sound expression.length (extern_values_ [] = none)
      (4 * (expression.length - p.index_) + 3 ≤ b) 0 p
      (Parse char_signed expression extern_values_ b p))
    (ihA : ∀ p n, Sound expression.length (extern_values_ [] = none)
      (4 * (expression.length - p.index_) + 4 ≤ b) 0 p
      (argumentsParser (ParseArguments char_signed expression extern_values_ b p n))) :
    ∀ p n, Sound expression.length (extern_values_ [] = none)
      (4 * (expression.length - p.index_) + 4 ≤ b + 1) 0 p
      (argumentsParser
        (ParseArguments char_signed expression extern_values_ (b + 1) p n)) := by
  rintro ⟨i, out⟩ n
  by_cases h41 : readAt expression i = 41
  · rw [ParseArguments_close char_signed extern_values_ b expression i out n h41]
    exact Sound.of_ok (by simp only; omega) (fun _ => by simp only; omega)
  · rw [ParseArguments_arg char_signed extern_values_ b expression i out n h41]
    obtain ⟨h1, h2⟩ := ihP ⟨i, out⟩
    rcases hr : Parse char_signed expression extern_values_ b ⟨i, out⟩ with e | q
    · exact Sound.of_error (fun hen heq => h1 (by simp only at hen ⊢; omega) (by rw [hr, heq]))
    · obtain ⟨hq1, hq2⟩ := h2 q hr
      simp only at hq1 hq2 ⊢
      by_cases h44 : readAt expression q.index_ = 44
      · have hlt := lt_length_of_readAt expression _ _ h44 (by decide)
        simp only [h44, if_true]
        obtain ⟨h3, h4⟩ := ihA ⟨q.index_ + 1, q.out_⟩ (n + 1)
        refine ⟨fun hen => h3 (by simp only at hen ⊢; omega), fun q2 hq => ?_⟩
        obtain ⟨h5, h6⟩ := h4 q2 hq
        simp only at h5 h6
        refine ⟨by simp only; omega, fun hU => ?_⟩
        have := hq2 hU
        have := h6 hU
        simp only
        omega
      · simp only [h44, if_false]
        refine Sound.of_ok (by simp only; omega) (fun hU => ?_)
        have := hq2 hU
        simp only
        omega

/-- Every member of the parser is `Sound` at every budget. -/
theorem parser_sound : ∀ b, ParserSound char_signed expression extern_values_ b
  | 0 => by
    refine ⟨fun p => ?_, fun p => ?_, fun p => ?_, fun p => ?_, fun p => ?_, fun name p => ?_,
      fun p n => ?_⟩
    · rw [Parse]; exact Sound.of_error (fun h => by omega)
    · rw [ParseLoop]; exact Sound.of_error (fun h => by omega)
    · rw [ParseProduct]; exact Sound.of_error (fun h => by omega)
    · rw [ParseProductLoop]; exact Sound.of_error (fun h => by omega)
    · rw [ParseToken]; exact Sound.of_error (fun h => by omega)
    · rw [ParseFunction]; exact Sound.of_error (fun h => by omega)
    · rw [ParseArguments]; exact Sound.of_error (fun h => by omega)
  | b + 1 => by
    obtain ⟨ihP, ihL, ihPr, ihPL, ihT, ihF, ihA⟩ :=
      parser_sound b
    exact ⟨Parse_sound char_signed expression extern_values_ b ihPr ihL,
      ParseLoop_sound char_signed expression extern_values_ b ihPr ihL,
      ParseProduct_sound char_signed expression extern_values_ b ihT ihPL,
      ParseProductLoop_sound char_signed expression extern_values_ b ihT ihPL,
      ParseToken_sound char_signed expression extern_values_ b ihP ihT ihF,
      ParseFunction_sound char_signed expression extern_values_ b ihA,
      ParseArguments_sound char_signed expression extern_values_ b ihP ihA⟩

end SoundSteps2

/-! ## The result does not depend on the budget -/

section Stable

variable (char_signed : Bool) (expression : List Nat) (extern_values_ : List Nat → Option Int)

theorem Parse_stable (b : Nat)
    (ihPr : ∀ p, ParseProduct char_signed expression extern_values_ b p
        ≠ .error .budget_exhausted →
      ParseProduct char_signed expression extern_values_ (b + 1) p
        = ParseProduct char_signed expression extern_values_ b p)
    (ihL : ∀ p, ParseLoop char_signed expression extern_values_ b p
        ≠ .error .budget_exhausted →
      ParseLoop char_signed expression extern_values_ (b + 1) p
        = ParseLoop char_signed expression extern_values_ b p) :
    ∀ p, Parse char_signed expression extern_values_ (b + 1) p ≠ .error .budget_exhausted →
      Parse char_signed expression extern_values_ (b + 1 + 1) p
        = Parse char_signed expression extern_values_ (b + 1) p := by
  intro p h
  rw [Parse_eq] at h ⊢
  rw [Parse_eq]
  rcases hr : ParseProduct char_signed expression extern_values_ b p with e | q
  · rw [hr] at h
    rw [ihPr p (by rw [hr]; exact h), hr]
  · rw [hr] at h
    rw [ihPr p (by rw [hr]; simp), hr]
    exact ihL q h

theorem ParseProduct_stable (b : Nat)
    (ihT : ∀ p, ParseToken char_signed expression extern_values_ b p
        ≠ .error .budget_exhausted →
      ParseToken char_signed expression extern_values_ (b + 1) p
        = ParseToken char_signed expression extern_values_ b p)
    (ihPL : ∀ p, ParseProductLoop char_signed expression extern_values_ b p
        ≠ .error .budget_exhausted →
      ParseProductLoop char_signed expression extern_values_ (b + 1) p
        = ParseProductLoop char_signed expression extern_values_ b p) :
    ∀ p, ParseProduct char_signed expression extern_values_ (b + 1) p
        ≠ .error .budget_exhausted →
      ParseProduct char_signed expression extern_values_ (b + 1 + 1) p
        = ParseProduct char_signed expression extern_values_ (b + 1) p := by
  intro p h
  rw [ParseProduct_eq] at h ⊢
  rw [ParseProduct_eq]
  rcases hr : ParseToken char_signed expression extern_values_ b p with e | q
  · rw [hr] at h
    rw [ihT p (by rw [hr]; exact h), hr]
  · rw [hr] at h
    rw [ihT p (by rw [hr]; simp), hr]
    exact ihPL q h

theorem ParseLoop_stable (b : Nat)
    (ihPr : ∀ p, ParseProduct char_signed expression extern_values_ b p
        ≠ .error .budget_exhausted →
      ParseProduct char_signed expression extern_values_ (b + 1) p
        = ParseProduct char_signed expression extern_values_ b p)
    (ihL : ∀ p, ParseLoop char_signed expression extern_values_ b p
        ≠ .error .budget_exhausted →
      ParseLoop char_signed expression extern_values_ (b + 1) p
        = ParseLoop char_signed expression extern_values_ b p) :
    ∀ p, ParseLoop char_signed expression extern_values_ (b + 1) p
        ≠ .error .budget_exhausted →
      ParseLoop char_signed expression extern_values_ (b + 1 + 1) p
        = ParseLoop char_signed expression extern_values_ (b + 1) p := by
  rintro ⟨i, out⟩ h
  have op : ∀ minus : Bool, (readAt expression i = if minus then 45 else 43) →
      ParseLoop char_signed expression extern_values_ (b + 1 + 1) ⟨i, out⟩
        = ParseLoop char_signed expression extern_values_ (b + 1) ⟨i, out⟩ := by
    intro minus hread
    rw [ParseLoop_op char_signed extern_values_ b expression i out minus hread] at h ⊢
    rw [ParseLoop_op char_signed extern_values_ (b + 1) expression i out minus hread]
    rcases hr : ParseProduct char_signed expression extern_values_ b ⟨i + 1, out⟩ with e | q
    · rw [hr] at h
      rw [ihPr _ (by rw [hr]; exact h), hr]
    · rw [hr] at h
      rw [ihPr _ (by rw [hr]; simp), hr]
      exact ihL _ h
  by_cases h43 : readAt expression i = 43
  · exact op false (by simpa using h43)
  · by_cases h45 : readAt expression i = 45
    · exact op true (by simpa using h45)
    · rw [ParseLoop_other char_signed extern_values_ _ expression i out h43 h45,
        ParseLoop_other char_signed extern_values_ _ expression i out h43 h45]

theorem ParseProductLoop_stable (b : Nat)
    (ihT : ∀ p, ParseToken char_signed expression extern_values_ b p
        ≠ .error .budget_exhausted →
      ParseToken char_signed expression extern_values_ (b + 1) p
        = ParseToken char_signed expression extern_values_ b p)
    (ihPL : ∀ p, ParseProductLoop char_signed expression extern_values_ b p
        ≠ .error .budget_exhausted →
      ParseProductLoop char_signed expression extern_values_ (b + 1) p
        = ParseProductLoop char_signed expression extern_values_ b p) :
    ∀ p, ParseProductLoop char_signed expression extern_values_ (b + 1) p
        ≠ .error .budget_exhausted →
      ParseProductLoop char_signed expression extern_values_ (b + 1 + 1) p
        = ParseProductLoop char_signed expression extern_values_ (b + 1) p := by
  rintro ⟨i, out⟩ h
  by_cases h42 : readAt expression i = 42
  · rw [ParseProductLoop_mul char_signed extern_values_ b expression i out h42] at h ⊢
    rw [ParseProductLoop_mul char_signed extern_values_ (b + 1) expression i out h42]
    rcases hr : ParseToken char_signed expression extern_values_ b ⟨i + 1, out⟩ with e | q
    · rw [hr] at h
      rw [ihT _ (by rw [hr]; exact h), hr]
    · rw [hr] at h
      rw [ihT _ (by rw [hr]; simp), hr]
      exact ihPL _ h
  · rw [ParseProductLoop_other char_signed extern_values_ _ expression i out h42,
      ParseProductLoop_other char_signed extern_values_ _ expression i out h42]

theorem ParseToken_stable (b : Nat)
    (ihP : ∀ p, Parse char_signed expression extern_values_ b p ≠ .error .budget_exhausted →
      Parse char_signed expression extern_values_ (b + 1) p
        = Parse char_signed expression extern_values_ b p)
    (ihT : ∀ p, ParseToken char_signed expression extern_values_ b p
        ≠ .error .budget_exhausted →
      ParseToken char_signed expression extern_values_ (b + 1) p
        = ParseToken char_signed expression extern_values_ b p)
    (ihF : ∀ name p, ParseFunction char_signed expression extern_values_ b name p
        ≠ .error .budget_exhausted →
      ParseFunction char_signed expression extern_values_ (b + 1) name p
        = ParseFunction char_signed expression extern_values_ b name p) :
    ∀ p, ParseToken char_signed expression extern_values_ (b + 1) p
        ≠ .error .budget_exhausted →
      ParseToken char_signed expression extern_values_ (b + 1 + 1) p
        = ParseToken char_signed expression extern_values_ (b + 1) p := by
  rintro ⟨i, out⟩ h
  by_cases hi : i = expression.length
  · rw [ParseToken_end char_signed extern_values_ _ expression i out hi,
      ParseToken_end char_signed extern_values_ _ expression i out hi]
  by_cases h45 : readAt expression i = 45
  · rw [ParseToken_neg char_signed extern_values_ b expression i out h45] at h ⊢
    rw [ParseToken_neg char_signed extern_values_ (b + 1) expression i out h45]
    rcases hr : ParseToken char_signed expression extern_values_ b ⟨i + 1, out⟩ with e | q
    · rw [hr] at h
      rw [ihT _ (by rw [hr]; exact h), hr]
    · rw [ihT _ (by rw [hr]; simp), hr]
  by_cases h40 : readAt expression i = 40
  · rw [ParseToken_paren char_signed extern_values_ b expression i out h40] at h ⊢
    rw [ParseToken_paren char_signed extern_values_ (b + 1) expression i out h40]
    rcases hr : Parse char_signed expression extern_values_ b ⟨i + 1, out⟩ with e | q
    · rw [hr] at h
      rw [ihP _ (by rw [hr]; exact h), hr]
    · rw [ihP _ (by rw [hr]; simp), hr]
  by_cases hd : isdigit (readAt expression i) = true
  · rw [ParseToken_digit_scan char_signed extern_values_ _ expression i out hd,
      ParseToken_digit_scan char_signed extern_values_ _ expression i out hd]
  · have hd : isdigit (readAt expression i) = false := by simpa using hd
    rw [ParseToken_name_scan char_signed extern_values_ b expression i out hi h45 h40 hd]
      at h ⊢
    rw [ParseToken_name_scan char_signed extern_values_ (b + 1) expression i out hi h45 h40 hd]
    split
    · rfl
    · split
      · rfl
      · rename_i h1 h2
        simp only [h1, h2, if_false] at h
        exact ihF _ _ h

theorem ParseFunction_stable (b : Nat)
    (ihA : ∀ p n, ParseArguments char_signed expression extern_values_ b p n
        ≠ .error .budget_exhausted →
      ParseArguments char_signed expression extern_values_ (b + 1) p n
        = ParseArguments char_signed expression extern_values_ b p n) :
    ∀ name p, ParseFunction char_signed expression extern_values_ (b + 1) name p
        ≠ .error .budget_exhausted →
      ParseFunction char_signed expression extern_values_ (b + 1 + 1) name p
        = ParseFunction char_signed expression extern_values_ (b + 1) name p := by
  intro name p h
  rw [ParseFunction_eq] at h ⊢
  rw [ParseFunction_eq]
  rcases hr : ParseArguments char_signed expression extern_values_ b p 0 with e | ⟨q, k⟩
  · rw [hr] at h
    rw [ihA _ _ (by rw [hr]; intro he; cases he; exact h rfl), hr]
  · rw [ihA _ _ (by rw [hr]; simp), hr]

theorem ParseArguments_stable (b : Nat)
    (ihP : ∀ p, Parse char_signed expression extern_values_ b p ≠ .error .budget_exhausted →
      Parse char_signed expression extern_values_ (b + 1) p
        = Parse char_signed expression extern_values_ b p)
    (ihA : ∀ p n, ParseArguments char_signed expression extern_values_ b p n
        ≠ .error .budget_exhausted →
      ParseArguments char_signed expression extern_values_ (b + 1) p n
        = ParseArguments char_signed expression extern_values_ b p n) :
    ∀ p n, ParseArguments char_signed expression extern_values_ (b + 1) p n
        ≠ .error .budget_exhausted →
      ParseArguments char_signed expression extern_values_ (b + 1 + 1) p n
        = ParseArguments char_signed expression extern_values_ (b + 1) p n := by
  rintro ⟨i, out⟩ n h
  by_cases h41 : readAt expression i = 41
  · rw [ParseArguments_close char_signed extern_values_ _ expression i out n h41,
      ParseArguments_close char_signed extern_values_ _ expression i out n h41]
  · rw [ParseArguments_arg char_signed extern_values_ b expression i out n h41] at h ⊢
    rw [ParseArguments_arg char_signed extern_values_ (b + 1) expression i out n h41]
    rcases hr : Parse char_signed expression extern_values_ b ⟨i, out⟩ with e | q
    · rw [hr] at h
      rw [ihP _ (by rw [hr]; intro he; cases he; exact h rfl), hr]
    · rw [hr] at h
      rw [ihP _ (by rw [hr]; simp), hr]
      simp only at h ⊢
      split
      · rename_i h44
        simp only [h44, if_true] at h
        exact ihA _ _ h
      · rfl

/-- A result that is not the exhaustion of the budget stays the result at the next budget. -/
theorem parser_stable : ∀ b, ParserStable char_signed expression extern_values_ b
  | 0 => by
    refine ⟨fun p h => ?_, fun p h => ?_, fun p h => ?_, fun p h => ?_, fun p h => ?_,
      fun name p h => ?_, fun p n h => ?_⟩
    · rw [Parse] at h; exact absurd rfl h
    · rw [ParseLoop] at h; exact absurd rfl h
    · rw [ParseProduct] at h; exact absurd rfl h
    · rw [ParseProductLoop] at h; exact absurd rfl h
    · rw [ParseToken] at h; exact absurd rfl h
    · rw [ParseFunction] at h; exact absurd rfl h
    · rw [ParseArguments] at h; exact absurd rfl h
  | b + 1 => by
    obtain ⟨ihP, ihL, ihPr, ihPL, ihT, ihF, ihA⟩ := parser_stable b
    exact ⟨Parse_stable char_signed expression extern_values_ b ihPr ihL,
      ParseLoop_stable char_signed expression extern_values_ b ihPr ihL,
      ParseProduct_stable char_signed expression extern_values_ b ihT ihPL,
      ParseProductLoop_stable char_signed expression extern_values_ b ihT ihPL,
      ParseToken_stable char_signed expression extern_values_ b ihP ihT ihF,
      ParseFunction_stable char_signed expression extern_values_ b ihA,
      ParseArguments_stable char_signed expression extern_values_ b ihP ihA⟩

/-- The result of `Parse` at a budget that is not used up is its result at every larger
budget. -/
theorem Parse_budget_independent (b : Nat) (p : Parser)
    (h : Parse char_signed expression extern_values_ b p ≠ .error .budget_exhausted) :
    ∀ k, Parse char_signed expression extern_values_ (b + k) p
      = Parse char_signed expression extern_values_ b p
  | 0 => rfl
  | k + 1 => by
    have ih := Parse_budget_independent b p h k
    have := (parser_stable char_signed expression extern_values_ (b + k)).1 p
      (by rw [ih]; exact h)
    rw [← ih, ← this]
    rfl

end Stable

/-! ## C20: termination on any text -/

/-- C20: for every byte string and every symbol table, with reads past the end of the text
giving the zero byte, `GetInstructionsBuffer` returns: its result is a word vector, a lookup
failure or a literal-overflow failure, never an exhausted recursion budget. From any cursor,
`Parse`, `ParseProduct`, `ParseToken` and `ParseFunction` return within a recursion depth (loop
iterations counted) of four times the number of bytes after the cursor plus 3, 2, 1 and 5,
because every loop iteration and every descent through `-`, `(` or a call moves the cursor
forward; no member returns with the cursor before the place where it started; and with that
depth allowed, allowing more does not change the result of `Parse`. -/
theorem termination_on_arbitrary_input (char_signed : Bool)
    (extern_values_ : List Nat → Option Int) (expression : List Nat) :
    ((∃ ws, GetInstructionsBuffer char_signed extern_values_ expression = .ok ws)
        ∨ GetInstructionsBuffer char_signed extern_values_ expression = .error .lookup_failure
        ∨ GetInstructionsBuffer char_signed extern_values_ expression
            = .error .literal_out_of_range)
      ∧ (∀ (budget : Nat) (p : Parser),
          (4 * (expression.length - p.index_) + 3 ≤ budget →
            Parse char_signed expression extern_values_ budget p ≠ .error .budget_exhausted)
          ∧ (4 * (expression.length - p.index_) + 2 ≤ budget →
            ParseProduct char_signed expression extern_values_ budget p
              ≠ .error .budget_exhausted)
          ∧ (4 * (expression.length - p.index_) + 1 ≤ budget →
            ParseToken char_signed expression extern_values_ budget p
              ≠ .error .budget_exhausted)
          ∧ (∀ name, 4 * (expression.length - p.index_) + 5 ≤ budget →
            ParseFunction char_signed expression extern_values_ budget name p
              ≠ .error .budget_exhausted))
      ∧ (∀ (budget : Nat) (p q : Parser),
          (Parse char_signed expression extern_values_ budget p = .ok q →
            p.index_ ≤ q.index_)
          ∧ (ParseProduct char_signed expression extern_values_ budget p = .ok q →
            p.index_ ≤ q.index_)
          ∧ (ParseToken char_signed expression extern_values_ budget p = .ok q →
            p.index_ ≤ q.index_)
          ∧ (∀ name, ParseFunction char_signed expression extern_values_ budget name p = .ok q →
            p.index_ ≤ q.index_))
      ∧ (∀ (budget k : Nat) (p : Parser), 4 * (expression.length - p.index_) + 3 ≤ budget →
          Parse char_signed expression extern_values_ (budget + k) p
            = Parse char_signed expression extern_values_ budget p) := by
  have hs := parser_sound char_signed expression extern_values_
  refine ⟨?_, fun budget p => ?_, fun budget p q => ?_, fun budget k p hb =>
    Parse_budget_independent char_signed expression extern_values_ budget p
      (((hs budget).1 p).1 hb) k⟩
  · obtain ⟨hP, _⟩ := hs (parseBudget expression)
    have h := (hP (PushInstruction ⟨0, []⟩ PushR4LR)).1
      (by simp only [PushInstruction, parseBudget]; omega)
    unfold GetInstructionsBuffer
    simp only
    rcases hr : Parse char_signed expression extern_values_ (parseBudget expression)
      (PushInstruction ⟨0, []⟩ PushR4LR) with e | q
    · rw [hr] at h
      cases e with
      | lookup_failure => exact Or.inr (Or.inl rfl)
      | literal_out_of_range => exact Or.inr (Or.inr rfl)
      | budget_exhausted => exact absurd rfl h
    · exact Or.inl ⟨_, rfl⟩
  · obtain ⟨hP, _, hPr, _, hT, hF, _⟩ := hs budget
    exact ⟨(hP p).1, (hPr p).1, (hT p).1, fun name => (hF name p).1⟩
  · obtain ⟨hP, _, hPr, _, hT, hF, _⟩ := hs budget
    exact ⟨fun h => ((hP p).2 q h).1, fun h => ((hPr p).2 q h).1, fun h => ((hT p).2 q h).1,
      fun name h => ((hF name p).2 q h).1⟩

theorem termination_on_arbitrary_input_witness :
    4 * ((bytes "((").length - (⟨0, []⟩ : Parser).index_) + 3 ≤ 11
      ∧ Parse false (bytes "((") noSymbols 11 ⟨0, []⟩ ≠ .error .budget_exhausted :=
  ⟨by decide!,
    ((termination_on_arbitrary_input false noSymbols (bytes "((")).2.1 11 ⟨0, []⟩).1
      (by decide!)⟩

/-! ## C18: the number of emitted words -/

theorem readAt_replicate (n c i : Nat) (h : i < n) : readAt (List.replicate n c) i = c := by
  unfold readAt
  simp [List.getD_eq_getElem?_getD, List.getElem?_replicate, h]

section Minus

variable (char_signed : Bool) (extern_values_ : List Nat → Option Int)

/-- The member `ParseToken` on a text of `n` bytes `-`, from the cursor `i`: the cursor ends at
`n` and seven words are emitted for every byte from `i` on. -/
theorem ParseToken_minus_run (n : Nat) : ∀ (k i b : Nat) (out : List Nat),
    i + k = n → k + 1 ≤ b →
    ∃ out2, ParseToken char_signed (List.replicate n 45) extern_values_ b ⟨i, out⟩
        = .ok ⟨n, out2⟩ ∧ out2.length = out.length + 7 * k
  | 0, i, b, out, hi, hb => by
    obtain ⟨b, rfl⟩ : ∃ b2, b = b2 + 1 := ⟨b - 1, by omega⟩
    have hi2 : i = n := by omega
    subst hi2
    exact ⟨out, ParseToken_end char_signed extern_values_ b _ i out (by simp), by simp⟩
  | k + 1, i, b, out, hi, hb => by
    obtain ⟨b, rfl⟩ : ∃ b2, b = b2 + 1 := ⟨b - 1, by omega⟩
    obtain ⟨out2, h1, h2⟩ := ParseToken_minus_run n k (i + 1) b out (by omega) (by omega)
    refine ⟨out2 ++ negWords, ?_, ?_⟩
    · rw [ParseToken_neg char_signed extern_values_ b _ i out
        (readAt_replicate n 45 i (by omega)), h1]
    · simp only [List.length_append, negWords_length, h2]
      omega

theorem GetInstructionsBuffer_minus_run (n : Nat) :
    ∃ ws, GetInstructionsBuffer char_signed extern_values_ (List.replicate n 45) = .ok ws
      ∧ ws.length = 4 + 7 * n := by
  obtain ⟨out2, h1, h2⟩ := ParseToken_minus_run char_signed extern_values_ n n 0
    (4 * n + 2) [PushR4LR] (by omega) (by omega)
  have h0 : readAt (List.replicate n 45) n = 0 := by
    have := readAt_length (List.replicate n 45)
    simpa using this
  refine ⟨out2 ++ [PopR0, PopR4LR, BxLR], ?_, ?_⟩
  · unfold GetInstructionsBuffer
    have hb : parseBudget (List.replicate n 45) = (4 * n + 3) + 1 := by
      simp [parseBudget]
    simp only [hb, PushInstruction_eq, List.nil_append]
    rw [Parse_eq, ParseProduct_eq, h1]
    simp only
    rw [ParseProductLoop_stop char_signed extern_values_ (4 * n + 1) _ n out2
      (by rw [h0]; decide)]
    simp only
    rw [ParseLoop_stop char_signed extern_values_ (4 * n + 2) _ n out2 (by rw [h0]; decide)]
    simp
  · simp only [List.length_append, h2, List.length_cons, List.length_nil]
    omega

end Minus

/-- The bound on the emitted words needs the empty name to be unbound: with the empty name
bound, the text `+` compiles to twelve words, one more than `4 + 7 * 1`. -/
theorem empty_name_exceeds_bound :
    GetInstructionsBuffer false emptyNameOnly (bytes "+")
      = .ok [0xe92d4010, 0xe3000000, 0xe3400000, 0xe5900000, 0xe52d0004, 0xe49d1004, 0xe49d0004,
          0xe0800001, 0xe52d0004, 0xe49d0004, 0xe8bd4010, 0xe12fff1e] := by
  decide!

/-- C18: for every symbol table in which the empty name is unbound (every name is non-empty)
and every text `s`, well-formed or not, with reads past the end of `s` giving the zero byte: if
compilation succeeds then the number of emitted words is at most `4 + 7 * len(s)`; the bound is
reached by every text made only of `-` characters; so `jit_compile_expression_to_arm` writes at
most `4 * (4 + 7 * len(s))` bytes to `out_buffer`, `s` being the expression without its
spaces. -/
theorem output_size_bound (char_signed : Bool) (extern_values_ : List Nat → Option Int)
    (hnames : extern_values_ [] = none) :
    (∀ (s ws : List Nat), GetInstructionsBuffer char_signed extern_values_ s = .ok ws →
        ws.length ≤ 4 + 7 * s.length)
      ∧ (∀ n : Nat, ∃ ws,
          GetInstructionsBuffer char_signed extern_values_ (List.replicate n 45) = .ok ws
            ∧ ws.length = 4 + 7 * (List.replicate n 45).length)
      ∧ ∀ (expression : List Nat) (externs : List symbol_t) (ws : List Nat),
          buildExternValues externs (fun _ => none) = some extern_values_ →
          jit_compile_expression_to_arm char_signed expression externs = some (.ok ws) →
          4 * ws.length ≤ 4 * (4 + 7 * (formatExpression expression).length) := by
  have key : ∀ (s ws : List Nat), GetInstructionsBuffer char_signed extern_values_ s = .ok ws →
      ws.length ≤ 4 + 7 * s.length := by
    intro s ws h
    obtain ⟨hP, _⟩ := parser_sound char_signed s extern_values_ (parseBudget s)
    unfold GetInstructionsBuffer at h
    simp only at h
    rcases hr : Parse char_signed s extern_values_ (parseBudget s)
      (PushInstruction ⟨0, []⟩ PushR4LR) with e | q
    · rw [hr] at h; cases h
    · rw [hr] at h
      simp only [Except.ok.injEq] at h
      subst h
      have := ((hP _).2 q hr).2 hnames
      simp only [PushInstruction, List.nil_append, List.length_cons, List.length_nil,
        List.length_append] at this ⊢
      omega
  refine ⟨key, fun n => ?_, ?_⟩
  · obtain ⟨ws, h1, h2⟩ := GetInstructionsBuffer_minus_run char_signed extern_values_ n
    exact ⟨ws, h1, by simpa using h2⟩
  · intro expression externs ws hb h
    unfold jit_compile_expression_to_arm at h
    simp only [hb, Option.some.injEq] at h
    have := key _ ws h
    omega

theorem output_size_bound_witness :
    noSymbols [] = none
      ∧ GetInstructionsBuffer false noSymbols (bytes "-")
        = .ok [0xe92d4010, 0xe30f0fff, 0xe34f0fff, 0xe52d0004, 0xe49d1004, 0xe49d0004,
            0xe0000190, 0xe52d0004, 0xe49d0004, 0xe8bd4010, 0xe12fff1e]
      ∧ [0xe92d4010, 0xe30f0fff, 0xe34f0fff, 0xe52d0004, 0xe49d1004, 0xe49d0004,
            0xe0000190, 0xe52d0004, 0xe49d0004, 0xe8bd4010, 0xe12fff1e].length
          ≤ 4 + 7 * (bytes "-").length :=
  ⟨rfl, by decide!, (output_size_bound false noSymbols rfl).1 (bytes "-") _ (by decide!)⟩

/-! ## C17: the cursor on a well-formed text -/

theorem Run.append {len : Nat} {a b c : Nat} {t1 t2 : List Event}
    (h1 : Run len a t1 b) (h2 : Run len b t2 c) : Run len a (t1 ++ t2) c := by
  induction h1 with
  | done c => exact h2
  | read hc _ ih => exact Run.read hc (ih h2)
  | look hc _ ih => exact Run.look hc (ih h2)
  | next hc _ ih => exact Run.next hc (ih h2)
  | back hc _ ih => exact Run.back hc (ih h2)
  | ret hc _ ih => exact Run.ret hc (ih h2)
  | sentinel _ ih => exact Run.sentinel (ih h2)

theorem scanEvents_stop (pred : Nat → Bool) (l : List Nat) (symbol index : Nat)
    (h : pred symbol = false) : scanEvents pred l symbol index = [] := by
  cases l <;> simp [scanEvents, h]

/-- The events of a scan over the run `c :: run` that ends before `post`, and the step back
after it: a run of the cursor, through `len + 1` when the scan ends at the end of the text. -/
theorem Run.scan_back (len : Nat) (pred : Nat → Bool) (post : List Nat)
    (hpost : pred (post.headD 0) = false) {t : List Event} {c2 : Nat} :
    ∀ (run : List Nat) (c index : Nat), pred c = true → (∀ d ∈ run, pred d = true) →
      index + run.length + post.length = len → Run len (index + run.length) t c2 →
      Run len index
        (scanEvents pred (run ++ post) c index ++ .back (index + run.length) :: t) c2
  | [], c, index, hc, _, hlen, h => by
    simp only [List.length_nil, Nat.add_zero] at hlen h ⊢
    cases post with
    | nil =>
      simp only [List.length_nil, Nat.add_zero] at hlen
      subst hlen
      simp only [List.nil_append, scanEvents, hc, if_true, List.cons_append]
      exact Run.sentinel h
    | cons d rest =>
      simp only [List.length_cons] at hlen
      simp only [List.nil_append, scanEvents, hc, if_true, List.cons_append]
      rw [scanEvents_stop pred rest d _ (by simpa using hpost)]
      exact Run.look (by omega) (Run.next (by omega) (Run.back (by omega) h))
  | r :: run, c, index, hc, hrun, hlen, h => by
    simp only [List.length_cons] at hlen h ⊢
    simp only [List.cons_append, scanEvents, hc, if_true]
    have h2 : Run len (index + 1 + run.length) t c2 := by
      rw [show index + 1 + run.length = index + (run.length + 1) by omega]; exact h
    have ih := Run.scan_back len pred post hpost run r (index + 1) (hrun r (by simp))
      (fun x hx => hrun x (by simp [hx])) (by omega) h2
    rw [show index + 1 + run.length = index + (run.length + 1) by omega] at ih
    exact Run.look (by omega) (Run.next (by omega) ih)

/-- The events of a scan over the run `c :: run` that the byte `d` ends, with no step back. -/
theorem Run.scan_open (len : Nat) (pred : Nat → Bool) (d : Nat) (rest : List Nat)
    (hd : pred d = false) {t : List Event} {c2 : Nat} :
    ∀ (run : List Nat) (c index : Nat), pred c = true → (∀ x ∈ run, pred x = true) →
      index + run.length + (rest.length + 1) = len → Run len (index + run.length + 1) t c2 →
      Run len index (scanEvents pred (run ++ d :: rest) c index ++ t) c2
  | [], c, index, hc, _, hlen, h => by
    simp only [List.length_nil, Nat.add_zero] at hlen h
    simp only [List.nil_append, scanEvents, hc, if_true, List.cons_append]
    rw [scanEvents_stop pred rest d _ hd]
    have hi : index < len := by omega
    exact Run.look hi (Run.next hi h)
  | r :: run, c, index, hc, hrun, hlen, h => by
    simp only [List.length_cons] at hlen h
    simp only [List.cons_append, scanEvents, hc, if_true]
    have ih := Run.scan_open len pred d rest hd run r (index + 1) (hrun r (by simp))
      (fun x hx => hrun x (by simp [hx])) (by omega)
      (by rw [show index + 1 + run.length + 1 = index + (run.length + 1) + 1 by omega]; exact h)
    have hi : index < len := by omega
    exact Run.look hi (Run.next hi ih)

theorem RunsTo.returned_advance {len i n c2 : Nat} {out : List Nat} {body : List Event}
    {words : Except ParseError (List Nat)} (hrun : Run len i body c2)
    (hc : ∀ ws, words = .ok ws → c2 = i + n) (hle : i + n ≤ len) :
    RunsTo len i (body ++ returned (advance i out n words)) (advance i out n words) := by
  rcases words with e | ws
  · exact ⟨c2, by simpa [advance, returned] using hrun, fun q h => by simp [advance] at h⟩
  · have := hc ws rfl
    subst this
    refine ⟨i + n, ?_, fun q h => ?_⟩
    · exact Run.append hrun (Run.ret hle (Run.done _))
    · simp only [advance, Except.ok.injEq] at h
      rw [← h]

theorem Run.ret_at {len c j : Nat} (h : c = j) (hle : j ≤ len) : Run len c [.ret j] j := by
  subst h
  exact Run.ret hle (Run.done _)

section EventsOnText

variable (char_signed : Bool) (extern_values_ : List Nat → Option Int)

theorem ParseLoopEvents_stop (b : Nat) (expression : List Nat) (i : Nat) (out : List Nat)
    (hstop : stopsExpr (readAt expression i) = true) :
    ParseLoopEvents char_signed expression extern_values_ (b + 1) ⟨i, out⟩
      = if i = expression.length then [] else [.read i, .next (i + 1), .back i] := by
  obtain ⟨_, h43, h45⟩ := stopsExpr_facts _ hstop
  rw [ParseLoopEvents]
  by_cases hi : i = expression.length
  · simp [hi]
  · simp [hi, h43, h45]

theorem ParseLoopEvents_op (b : Nat) (expression : List Nat) (i : Nat) (out : List Nat)
    (minus : Bool) (hread : readAt expression i = if minus then 45 else 43) :
    ParseLoopEvents char_signed expression extern_values_ (b + 1) ⟨i, out⟩
      = .read i :: .next (i + 1) ::
          (ParseProductEvents char_signed expression extern_values_ b ⟨i + 1, out⟩
            ++ match ParseProduct char_signed expression extern_values_ b ⟨i + 1, out⟩ with
              | .error _ => []
              | .ok p => ParseLoopEvents char_signed expression extern_values_ b
                  ⟨p.index_, p.out_ ++ binaryWords (if minus then SubR0R1 else AddR0R1)⟩) := by
  have hne := ne_length_of_readAt expression i _ hread (by cases minus <;> decide)
  rw [ParseLoopEvents]
  cases minus
  · simp only [Bool.false_eq_true, if_false] at hread
    simp only [hne, if_false, hread]
    rcases ParseProduct char_signed expression extern_values_ b ⟨i + 1, out⟩ with e | q
    · simp
    · simp [PushInstruction_eq, binaryWords]
  · simp only [if_true] at hread
    simp only [hne, if_false, hread]
    rcases ParseProduct char_signed expression extern_values_ b ⟨i + 1, out⟩ with e | q
    · simp
    · simp [PushInstruction_eq, binaryWords]

theorem ParseProductLoopEvents_stop (b : Nat) (expression : List Nat) (i : Nat)
    (out : List Nat) (hstop : stopsProduct (readAt expression i) = true) :
    ParseProductLoopEvents char_signed expression extern_values_ (b + 1) ⟨i, out⟩
      = if i = expression.length then [] else [.read i, .next (i + 1), .back i] := by
  obtain ⟨_, h42⟩ := stopsProduct_facts _ hstop
  rw [ParseProductLoopEvents]
  by_cases hi : i = expression.length
  · simp [hi]
  · simp [hi, h42]

theorem ParseProductLoopEvents_mul (b : Nat) (expression : List Nat) (i : Nat)
    (out : List Nat) (hread : readAt expression i = 42) :
    ParseProductLoopEvents char_signed expression extern_values_ (b + 1) ⟨i, out⟩
      = .read i :: .next (i + 1) ::
          (ParseTokenEvents char_signed expression extern_values_ b ⟨i + 1, out⟩
            ++ match ParseToken char_signed expression extern_values_ b ⟨i + 1, out⟩ with
              | .error _ => []
              | .ok p => ParseProductLoopEvents char_signed expression extern_values_ b
                  ⟨p.index_, p.out_ ++ binaryWords MulR0R1⟩) := by
  have hne := ne_length_of_readAt expression i _ hread (by decide)
  rw [ParseProductLoopEvents]
  simp only [hne, if_false, hread]
  rcases ParseToken char_signed expression extern_values_ b ⟨i + 1, out⟩ with e | q
  · simp
  · simp [PushInstruction_eq, binaryWords]

theorem ParseTokenEvents_neg (b : Nat) (expression : List Nat) (i : Nat) (out : List Nat)
    (hread : readAt expression i = 45) :
    ParseTokenEvents char_signed expression extern_values_ (b + 1) ⟨i, out⟩
      = .read i :: .next (i + 1) ::
          (ParseTokenEvents char_signed expression extern_values_ b ⟨i + 1, out⟩
            ++ returned (ParseToken char_signed expression extern_values_ (b + 1) ⟨i, out⟩)) := by
  have hne := ne_length_of_readAt expression i 45 hread (by decide)
  rw [ParseTokenEvents]
  simp [hne, hread]

theorem ParseTokenEvents_paren (b : Nat) (expression : List Nat) (i : Nat) (out : List Nat)
    (hread : readAt expression i = 40) :
    ParseTokenEvents char_signed expression extern_values_ (b + 1) ⟨i, out⟩
      = .read i :: .next (i + 1) ::
          (ParseEvents char_signed expression extern_values_ b ⟨i + 1, out⟩
            ++ ((match Parse char_signed expression extern_values_ b ⟨i + 1, out⟩ with
                | .error _ => []
                | .ok p => [.next (p.index_ + 1)])
              ++ returned
                (ParseToken char_signed expression extern_values_ (b + 1) ⟨i, out⟩))) := by
  have hne := ne_length_of_readAt expression i 40 hread (by decide)
  rw [ParseTokenEvents]
  rcases hP : Parse char_signed expression extern_values_ b ⟨i + 1, out⟩ with e | q <;>
    simp [hne, hread, hP]

theorem ParseTokenEvents_lit (b : Nat) (expression pre post : List Nat) (d : Nat)
    (ds : List Nat) (i : Nat) (out : List Nat) (hexpr : expression = pre ++ ((d :: ds) ++ post))
    (hi : i = pre.length) (hd : ∀ x ∈ d :: ds, isdigit x = true)
    (hstop : isdigit (post.headD 0) = false) :
    ParseTokenEvents char_signed expression extern_values_ (b + 1) ⟨i, out⟩
      = .read i :: .next (i + 1) ::
          (scanEvents isdigit (ds ++ post) d (i + 1)
            ++ .back (i + 1 + ds.length) ::
              returned (ParseToken char_signed expression extern_values_ (b + 1) ⟨i, out⟩)) := by
  have hread : readAt expression i = d := by
    rw [hexpr, hi, readAt_append_length]; rfl
  have hdd := hd d (by simp)
  obtain ⟨h0, h45, h40⟩ := isdigit_facts d hdd
  have hne := ne_length_of_readAt expression i d hread h0
  have hdrop : expression.drop (i + 1) = ds ++ post := by
    rw [hexpr, hi]; exact drop_append_length_succ pre d (ds ++ post)
  have hscan := scanLoop_run isdigit ds post hstop d (i + 1) [] hdd
    (fun x hx => hd x (by simp [hx]))
  rw [ParseTokenEvents]
  simp only [hne, if_false, hread, h45, h40, hdd, if_true, hdrop, hscan]
  simp

theorem ParseTokenEvents_var (b : Nat) (expression pre post : List Nat) (n : Nat)
    (ns : List Nat) (i : Nat) (out : List Nat) (hexpr : expression = pre ++ ((n :: ns) ++ post))
    (hi : i = pre.length) (hn : ∀ x ∈ n :: ns, isalpha x = true)
    (hstop : stopsToken (post.headD 0) = true) :
    ParseTokenEvents char_signed expression extern_values_ (b + 1) ⟨i, out⟩
      = .read i :: .next (i + 1) ::
          (scanEvents isalpha (ns ++ post) n (i + 1)
            ++ .back (i + 1 + ns.length) ::
              returned (ParseToken char_signed expression extern_values_ (b + 1) ⟨i, out⟩)) := by
  have hread : readAt expression i = n := by
    rw [hexpr, hi, readAt_append_length]; rfl
  have hnn := hn n (by simp)
  obtain ⟨h0, h45, h40, hdig⟩ := isalpha_facts n hnn
  obtain ⟨hs40, hsEOF⟩ := stopsToken_facts char_signed _ hstop
  have hne := ne_length_of_readAt expression i n hread h0
  have hdrop : expression.drop (i + 1) = ns ++ post := by
    rw [hexpr, hi]; exact drop_append_length_succ pre n (ns ++ post)
  have hscan := scanLoop_run isalpha ns post (stopsToken_isalpha _ hstop) n (i + 1) [] hnn
    (fun x hx => hn x (by simp [hx]))
  rw [ParseTokenEvents]
  simp only [hne, if_false, hread, h45, h40, hdig, hdrop, hscan, hsEOF, ne_eq, hs40,
    not_false_eq_true, if_true, Bool.false_eq_true]
  simp

theorem ParseTokenEvents_call (b : Nat) (expression pre rest : List Nat) (n : Nat)
    (ns : List Nat) (i : Nat) (out : List Nat)
    (hexpr : expression = pre ++ ((n :: ns) ++ 40 :: rest))
    (hi : i = pre.length) (hn : ∀ x ∈ n :: ns, isalpha x = true) :
    ParseTokenEvents char_signed expression extern_values_ (b + 1) ⟨i, out⟩
      = .read i :: .next (i + 1) ::
          (scanEvents isalpha (ns ++ 40 :: rest) n (i + 1)
            ++ (ParseFunctionEvents char_signed expression extern_values_ b (n :: ns)
                ⟨i + (n :: ns).length + 1, out⟩
              ++ returned
                (ParseToken char_signed expression extern_values_ (b + 1) ⟨i, out⟩))) := by
  have hread : readAt expression i = n := by
    rw [hexpr, hi, readAt_append_length]; rfl
  have hnn := hn n (by simp)
  obtain ⟨h0, h45, h40, hdig⟩ := isalpha_facts n hnn
  have hne := ne_length_of_readAt expression i n hread h0
  have hdrop : expression.drop (i + 1) = ns ++ 40 :: rest := by
    rw [hexpr, hi]; exact drop_append_length_succ pre n (ns ++ 40 :: rest)
  have hscan := scanLoop_run isalpha ns (40 :: rest) (by simp [isalpha]) n (i + 1) [] hnn
    (fun x hx => hn x (by simp [hx]))
  have hEOF : isEOF char_signed 40 = false := by simp [isEOF]
  have hidx : i + 1 + ns.length + 1 = i + (ns.length + 1) + 1 := by omega
  rw [ParseTokenEvents]
  simp only [hne, if_false, hread, h45, h40, hdig, hdrop, hscan, List.nil_append,
    List.headD_cons, hEOF, ne_eq, not_true_eq_false, Bool.false_eq_true, List.length_cons, hidx]
  simp

theorem ParseArgumentsEvents_close (b : Nat) (expression : List Nat) (i : Nat)
    (out : List Nat) (hread : readAt expression i = 41) :
    ParseArgumentsEvents char_signed expression extern_values_ (b + 1) ⟨i, out⟩
      = [.read i, .next (i + 1)] := by
  rw [ParseArgumentsEvents]
  simp [hread]

theorem ParseArgumentsEvents_arg (b : Nat) (expression : List Nat) (i : Nat) (out : List Nat)
    (hread : readAt expression i ≠ 41) :
    ParseArgumentsEvents char_signed expression extern_values_ (b + 1) ⟨i, out⟩
      = .read i :: .next (i + 1) :: .back i ::
          (ParseEvents char_signed expression extern_values_ b ⟨i, out⟩
            ++ match Parse char_signed expression extern_values_ b ⟨i, out⟩ with
              | .error _ => []
              | .ok p =>
                .read p.index_ :: .next (p.index_ + 1) ::
                  (if readAt expression p.index_ = 44 then
                    ParseArgumentsEvents char_signed expression extern_values_ b
                      ⟨p.index_ + 1, p.out_⟩
                  else [])) := by
  rw [ParseArgumentsEvents]
  rcases hP : Parse char_signed expression extern_values_ b ⟨i, out⟩ with e | q <;>
    simp [hread, hP]

end EventsOnText

/-! ### The events of parsing a well-formed text -/

section EventsOnText2

variable (char_signed : Bool) (extern_values_ : List Nat → Option Int)

mutual

theorem Expr.events_text_expr : ∀ (e : Expr), e.wf = true →
    ∀ (budget : Nat) (expression pre post : List Nat) (i : Nat) (out : List Nat),
    expression = pre ++ (e.text ++ post) → i = pre.length → 4 * e.text.length + 3 ≤ budget →
    stopsExpr (post.headD 0) = true →
    RunsTo expression.length i
      (ParseEvents char_signed expression extern_values_ budget ⟨i, out⟩)
      (advance i out e.text.length (e.words extern_values_))
  | .mk first rest, hwf, budget, expression, pre, post, i, out, hexpr, hi, hb, hstop => by
    have hP := Expr.parse_text_expr char_signed extern_values_ (.mk first rest) hwf budget
      expression pre post i out hexpr hi hb hstop
    simp only [Expr.wf, Bool.and_eq_true] at hwf
    simp only [Expr.text, List.length_append] at hb hP ⊢
    obtain ⟨b, rfl⟩ : ∃ b, budget = b + 1 := ⟨budget - 1, by omega⟩
    have hlen : expression.length
        = i + (first.text.length + rest.text.length) + post.length := by
      rw [hexpr, hi]; simp [Expr.text]; omega
    have hPr := Product.parse_text_product char_signed extern_values_ first hwf.1 b expression
      pre (rest.text ++ post) i out (by simp [hexpr, Expr.text]) hi (by omega)
      (ExprRest.text_stops_exprRest rest post hstop)
    obtain ⟨c1, hrun1, hc1⟩ := Product.events_text_product first hwf.1 b expression
      pre (rest.text ++ post) i out (by simp [hexpr, Expr.text]) hi (by omega)
      (ExprRest.text_stops_exprRest rest post hstop)
    rw [ParseEvents, hP, hPr]
    rcases hf : first.words extern_values_ with e | ws
    · simp only [advance, Expr.words, hf, returned, List.append_nil]
      exact ⟨c1, hrun1, fun q h => by cases h⟩
    · rw [hf] at hc1
      have hc1 := hc1 _ rfl
      simp only at hc1
      subst hc1
      obtain ⟨c2, hrun2, hc2⟩ := ExprRest.events_text_exprRest rest hwf.2 b expression
        (pre ++ first.text) post (i + first.text.length) (out ++ ws)
        (by simp [hexpr, Expr.text]) (by simp [hi]) (by omega) hstop
      rcases hr : rest.words extern_values_ with e | ws2
      · simp only [advance, Expr.words, hf, hr, returned, List.append_nil]
        exact ⟨c2, Run.append hrun1 hrun2, fun q h => by cases h⟩
      · rw [hr] at hc2
        have hc2 := hc2 _ rfl
        simp only at hc2
        subst hc2
        simp only [advance, Expr.words, hf, hr, returned]
        exact ⟨_, Run.append (Run.append hrun1 hrun2) (Run.ret_at (by omega) (by omega)),
          fun q h => by cases h; rfl⟩

theorem ExprRest.events_text_exprRest : ∀ (r : ExprRest), r.wf = true →
    ∀ (budget : Nat) (expression pre post : List Nat) (i : Nat) (out : List Nat),
    expression = pre ++ (r.text ++ post) → i = pre.length → 4 * r.text.length + 1 ≤ budget →
    stopsExpr (post.headD 0) = true →
    RunsTo expression.length i
      (ParseLoopEvents char_signed expression extern_values_ budget ⟨i, out⟩)
      (advance i out r.text.length (r.words extern_values_))
  | .nil, _, budget, expression, pre, post, i, out, hexpr, hi, hb, hstop => by
    obtain ⟨b, rfl⟩ : ∃ b, budget = b + 1 := ⟨budget - 1, by omega⟩
    have hlen : expression.length = i + post.length := by
      rw [hexpr, hi]; simp [ExprRest.text]
    rw [ParseLoopEvents_stop char_signed extern_values_ b expression i out
      (by rw [hexpr, hi, readAt_append_length]; simpa [ExprRest.text] using hstop)]
    simp only [advance, ExprRest.words, ExprRest.text, List.length_nil, Nat.add_zero]
    by_cases hi2 : i = expression.length
    · simp only [hi2, if_true]
      exact ⟨_, Run.done _, fun q h => by cases h; rfl⟩
    · simp only [hi2, if_false]
      have hlt : i < expression.length := by omega
      exact ⟨_, Run.read hlt (Run.next hlt (Run.back hlt (Run.done _))),
        fun q h => by cases h; rfl⟩
  | .cons minus p rest, hwf, budget, expression, pre, post, i, out, hexpr, hi, hb, hstop => by
    simp only [ExprRest.wf, Bool.and_eq_true] at hwf
    simp only [ExprRest.text, List.length_cons, List.length_append] at hb ⊢
    obtain ⟨b, rfl⟩ : ∃ b, budget = b + 1 := ⟨budget - 1, by omega⟩
    have hlen : expression.length
        = i + (p.text.length + rest.text.length + 1) + post.length := by
      rw [hexpr, hi]; simp [ExprRest.text]; omega
    have hlt : i < expression.length := by omega
    have hread : readAt expression i = if minus then 45 else 43 := by
      rw [hexpr, hi, readAt_append_length]; simp [ExprRest.text]
    have hPr := Product.parse_text_product char_signed extern_values_ p hwf.1 b expression
      (pre ++ [if minus then 45 else 43]) (rest.text ++ post) (i + 1) out
      (by simp [hexpr, ExprRest.text]) (by simp [hi]) (by omega)
      (ExprRest.text_stops_exprRest rest post hstop)
    obtain ⟨c1, hrun1, hc1⟩ := Product.events_text_product p hwf.1 b expression
      (pre ++ [if minus then 45 else 43]) (rest.text ++ post) (i + 1) out
      (by simp [hexpr, ExprRest.text]) (by simp [hi]) (by omega)
      (ExprRest.text_stops_exprRest rest post hstop)
    rw [ParseLoopEvents_op char_signed extern_values_ b expression i out minus hread, hPr]
    rcases hf : p.words extern_values_ with e | ws
    · simp only [advance, ExprRest.words, hf, List.append_nil]
      exact ⟨c1, Run.read hlt (Run.next hlt hrun1), fun q h => by cases h⟩
    · rw [hf] at hc1
      have hc1 := hc1 _ rfl
      simp only at hc1
      subst hc1
      obtain ⟨c2, hrun2, hc2⟩ := ExprRest.events_text_exprRest rest hwf.2 b expression
        (pre ++ (if minus then 45 else 43) :: p.text) post
        (i + 1 + p.text.length)
        (out ++ ws ++ binaryWords (if minus then SubR0R1 else AddR0R1))
        (by simp [hexpr, ExprRest.text]) (by simp [hi]; omega) (by omega) hstop
      simp only [advance]
      rcases hr : rest.words extern_values_ with e | ws2
      · simp only [ExprRest.words, hf, hr]
        exact ⟨c2, Run.read hlt (Run.next hlt (Run.append hrun1 hrun2)),
          fun q h => by cases h⟩
      · rw [hr] at hc2
        have hc2 := hc2 _ rfl
        simp only at hc2
        subst hc2
        simp only [ExprRest.words, hf, hr]
        exact ⟨_, Run.read hlt (Run.next hlt (Run.append hrun1 hrun2)),
          fun q h => by cases h; simp only; omega⟩

theorem Product.events_text_product : ∀ (p : Product), p.wf = true →
    ∀ (budget : Nat) (expression pre post : List Nat) (i : Nat) (out : List Nat),
    expression = pre ++ (p.text ++ post) → i = pre.length → 4 * p.text.length + 2 ≤ budget →
    stopsProduct (post.headD 0) = true →
    RunsTo expression.length i
      (ParseProductEvents char_signed expression extern_values_ budget ⟨i, out⟩)
      (advance i out p.text.length (p.words extern_values_))
  | .mk first rest, hwf, budget, expression, pre, post, i, out, hexpr, hi, hb, hstop => by
    have hP := Product.parse_text_product char_signed extern_values_ (.mk first rest) hwf
      budget expression pre post i out hexpr hi hb hstop
    simp only [Product.wf, Bool.and_eq_true] at hwf
    simp only [Product.text, List.length_append] at hb hP ⊢
    obtain ⟨b, rfl⟩ : ∃ b, budget = b + 1 := ⟨budget - 1, by omega⟩
    have hlen : expression.length
        = i + (first.text.length + rest.text.length) + post.length := by
      rw [hexpr, hi]; simp [Product.text]; omega
    have hPr := Token.parse_text_token char_signed extern_values_ first hwf.1 b expression
      pre (rest.text ++ post) i out (by simp [hexpr, Product.text]) hi (by omega)
      (ProductRest.text_stops_productRest rest post hstop)
    obtain ⟨c1, hrun1, hc1⟩ := Token.events_text_token first hwf.1 b expression
      pre (rest.text ++ post) i out (by simp [hexpr, Product.text]) hi (by omega)
      (ProductRest.text_stops_productRest rest post hstop)
    rw [ParseProductEvents, hP, hPr]
    rcases hf : first.words extern_values_ with e | ws
    · simp only [advance, Product.words, hf, returned, List.append_nil]
      exact ⟨c1, hrun1, fun q h => by cases h⟩
    · rw [hf] at hc1
      have hc1 := hc1 _ rfl
      simp only at hc1
      subst hc1
      obtain ⟨c2, hrun2, hc2⟩ := ProductRest.events_text_productRest rest hwf.2 b expression
        (pre ++ first.text) post (i + first.text.length) (out ++ ws)
        (by simp [hexpr, Product.text]) (by simp [hi]) (by omega) hstop
      rcases hr : rest.words extern_values_ with e | ws2
      · simp only [advance, Product.words, hf, hr, returned, List.append_nil]
        exact ⟨c2, Run.append hrun1 hrun2, fun q h => by cases h⟩
      · rw [hr] at hc2
        have hc2 := hc2 _ rfl
        simp only at hc2
        subst hc2
        simp only [advance, Product.words, hf, hr, returned]
        exact ⟨_, Run.append (Run.append hrun1 hrun2) (Run.ret_at (by omega) (by omega)),
          fun q h => by cases h; rfl⟩

theorem ProductRest.events_text_productRest : ∀ (r : ProductRest), r.wf = true →
    ∀ (budget : Nat) (expression pre post : List Nat) (i : Nat) (out : List Nat),
    expression = pre ++ (r.text ++ post) → i = pre.length → 4 * r.text.length + 1 ≤ budget →
    stopsProduct (post.headD 0) = true →
    RunsTo expression.length i
      (ParseProductLoopEvents char_signed expression extern_values_ budget ⟨i, out⟩)
      (advance i out r.text.length (r.words extern_values_))
  | .nil, _, budget, expression, pre, post, i, out, hexpr, hi, hb, hstop => by
    obtain ⟨b, rfl⟩ : ∃ b, budget = b + 1 := ⟨budget - 1, by omega⟩
    have hlen : expression.length = i + post.length := by
      rw [hexpr, hi]; simp [ProductRest.text]
    rw [ParseProductLoopEvents_stop char_signed extern_values_ b expression i out
      (by rw [hexpr, hi, readAt_append_length]; simpa [ProductRest.text] using hstop)]
    simp only [advance, ProductRest.words, ProductRest.text, List.length_nil, Nat.add_zero]
    by_cases hi2 : i = expression.length
    · simp only [hi2, if_true]
      exact ⟨_, Run.done _, fun q h => by cases h; rfl⟩
    · simp only [hi2, if_false]
      have hlt : i < expression.length := by omega
      exact ⟨_, Run.read hlt (Run.next hlt (Run.back hlt (Run.done _))),
        fun q h => by cases h; rfl⟩
  | .cons t rest, hwf, budget, expression, pre, post, i, out, hexpr, hi, hb, hstop => by
    simp only [ProductRest.wf, Bool.and_eq_true] at hwf
    simp only [ProductRest.text, List.length_cons, List.length_append] at hb ⊢
    obtain ⟨b, rfl⟩ : ∃ b, budget = b + 1 := ⟨budget - 1, by omega⟩
    have hlen : expression.length
        = i + (t.text.length + rest.text.length + 1) + post.length := by
      rw [hexpr, hi]; simp [ProductRest.text]; omega
    have hlt : i < expression.length := by omega
    have hread : readAt expression i = 42 := by
      rw [hexpr, hi, readAt_append_length]; simp [ProductRest.text]
    have hPr := Token.parse_text_token char_signed extern_values_ t hwf.1 b expression
      (pre ++ [42]) (rest.text ++ post) (i + 1) out
      (by simp [hexpr, ProductRest.text]) (by simp [hi]) (by omega)
      (ProductRest.text_stops_productRest rest post hstop)
    obtain ⟨c1, hrun1, hc1⟩ := Token.events_text_token t hwf.1 b expression
      (pre ++ [42]) (rest.text ++ post) (i + 1) out
      (by simp [hexpr, ProductRest.text]) (by simp [hi]) (by omega)
      (ProductRest.text_stops_productRest rest post hstop)
    rw [ParseProductLoopEvents_mul char_signed extern_values_ b expression i out hread, hPr]
    rcases hf : t.words extern_values_ with e | ws
    · simp only [advance, ProductRest.words, hf, List.append_nil]
      exact ⟨c1, Run.read hlt (Run.next hlt hrun1), fun q h => by cases h⟩
    · rw [hf] at hc1
      have hc1 := hc1 _ rfl
      simp only at hc1
      subst hc1
      obtain ⟨c2, hrun2, hc2⟩ := ProductRest.events_text_productRest rest hwf.2 b expression
        (pre ++ 42 :: t.text) post (i + 1 + t.text.length) (out ++ ws ++ binaryWords MulR0R1)
        (by simp [hexpr, ProductRest.text]) (by simp [hi]; omega) (by omega) hstop
      simp only [advance]
      rcases hr : rest.words extern_values_ with e | ws2
      · simp only [ProductRest.words, hf, hr]
        exact ⟨c2, Run.read hlt (Run.next hlt (Run.append hrun1 hrun2)),
          fun q h => by cases h⟩
      · rw [hr] at hc2
        have hc2 := hc2 _ rfl
        simp only at hc2
        subst hc2
        simp only [ProductRest.words, hf, hr]
        exact ⟨_, Run.read hlt (Run.next hlt (Run.append hrun1 hrun2)),
          fun q h => by cases h; simp only; omega⟩

theorem Token.events_text_token : ∀ (t : Token), t.wf = true →
    ∀ (budget : Nat) (expression pre post : List Nat) (i : Nat) (out : List Nat),
    expression = pre ++ (t.text ++ post) → i = pre.length → 4 * t.text.length + 1 ≤ budget →
    stopsToken (post.headD 0) = true →
    RunsTo expression.length i
      (ParseTokenEvents char_signed expression extern_values_ budget ⟨i, out⟩)
      (advance i out t.text.length (t.words extern_values_))
  | .neg t, hwf, budget, expression, pre, post, i, out, hexpr, hi, hb, hstop => by
    have hP := Token.parse_text_token char_signed extern_values_ (.neg t) hwf budget
      expression pre post i out hexpr hi hb hstop
    simp only [Token.wf] at hwf
    simp only [Token.text, List.length_cons] at hb hP ⊢
    obtain ⟨b, rfl⟩ : ∃ b, budget = b + 1 := ⟨budget - 1, by omega⟩
    have hlen : expression.length = i + (t.text.length + 1) + post.length := by
      rw [hexpr, hi]; simp [Token.text]; omega
    have hlt : i < expression.length := by omega
    have hread : readAt expression i = 45 := by
      rw [hexpr, hi, readAt_append_length]; simp [Token.text]
    obtain ⟨c1, hrun1, hc1⟩ := Token.events_text_token t hwf b expression (pre ++ [45]) post
      (i + 1) out (by simp [hexpr, Token.text]) (by simp [hi]) (by omega) hstop
    rw [ParseTokenEvents_neg char_signed extern_values_ b expression i out hread, hP]
    rcases hf : t.words extern_values_ with e | ws
    · simp only [advance, Token.words, hf, returned, List.append_nil]
      exact ⟨c1, Run.read hlt (Run.next hlt hrun1), fun q h => by cases h⟩
    · rw [hf] at hc1
      have hc1 := hc1 _ rfl
      simp only at hc1
      subst hc1
      simp only [advance, Token.words, hf, returned]
      exact ⟨_, Run.read hlt (Run.next hlt
        (Run.append hrun1 (Run.ret_at (by omega) (by omega)))), fun q h => by cases h; rfl⟩
  | .paren e, hwf, budget, expression, pre, post, i, out, hexpr, hi, hb, hstop => by
    have hP := Token.parse_text_token char_signed extern_values_ (.paren e) hwf budget
      expression pre post i out hexpr hi hb hstop
    simp only [Token.wf] at hwf
    simp only [Token.text, List.length_cons, List.length_append, List.length_nil] at hb hP ⊢
    obtain ⟨b, rfl⟩ : ∃ b, budget = b + 1 := ⟨budget - 1, by omega⟩
    have hlen : expression.length = i + (e.text.length + 0 + 1 + 1) + post.length := by
      rw [hexpr, hi]; simp [Token.text]; omega
    have hlt : i < expression.length := by omega
    have hread : readAt expression i = 40 := by
      rw [hexpr, hi, readAt_append_length]; simp [Token.text]
    have hPe := Expr.parse_text_expr char_signed extern_values_ e hwf b expression
      (pre ++ [40]) (41 :: post) (i + 1) out
      (by simp [hexpr, Token.text]) (by simp [hi]) (by omega)
      (show stopsExpr 41 = true by decide)
    obtain ⟨c1, hrun1, hc1⟩ := Expr.events_text_expr e hwf b expression
      (pre ++ [40]) (41 :: post) (i + 1) out
      (by simp [hexpr, Token.text]) (by simp [hi]) (by omega)
      (show stopsExpr 41 = true by decide)
    rw [ParseTokenEvents_paren char_signed extern_values_ b expression i out hread, hP, hPe]
    rcases hf : e.words extern_values_ with err | ws
    · simp only [advance, Token.words, hf, returned, List.append_nil]
      exact ⟨c1, Run.read hlt (Run.next hlt hrun1), fun q h => by cases h⟩
    · rw [hf] at hc1
      have hc1 := hc1 _ rfl
      simp only at hc1
      subst hc1
      simp only [advance, Token.words, hf, returned]
      have hlt2 : i + 1 + e.text.length < expression.length := by omega
      exact ⟨_, Run.read hlt (Run.next hlt
        (Run.append hrun1 (Run.next hlt2 (Run.ret_at (by omega) (by omega))))),
        fun q h => by cases h; rfl⟩
  | .lit digits, hwf, budget, expression, pre, post, i, out, hexpr, hi, hb, hstop => by
    have hP := Token.parse_text_token char_signed extern_values_ (.lit digits) hwf budget
      expression pre post i out hexpr hi hb hstop
    obtain ⟨b, rfl⟩ : ∃ b, budget = b + 1 := ⟨budget - 1, by omega⟩
    cases digits with
    | nil => simp [Token.wf] at hwf
    | cons d ds =>
      simp only [Token.wf, Bool.and_eq_true, List.all_eq_true] at hwf
      simp only [Token.text, List.length_cons] at hP ⊢
      have hlen : expression.length = i + (ds.length + 1) + post.length := by
        rw [hexpr, hi]; simp [Token.text]; omega
      have hlt : i < expression.length := by omega
      have hdig := stopsToken_isdigit _ hstop
      rw [ParseTokenEvents_lit char_signed extern_values_ b expression pre post d ds i out
        hexpr hi hwf.2 hdig, hP]
      have hret : ∃ c2, Run expression.length (i + 1 + ds.length)
          (returned (advance i out (ds.length + 1)
            ((Token.lit (d :: ds)).words extern_values_))) c2
          ∧ ∀ q, advance i out (ds.length + 1) ((Token.lit (d :: ds)).words extern_values_)
              = .ok q → c2 = q.index_ := by
        rcases (Token.lit (d :: ds)).words extern_values_ with err | ws
        · exact ⟨_, Run.done _, fun q h => by cases h⟩
        · simp only [advance, returned]
          exact ⟨_, Run.ret_at (by omega) (by omega), fun q h => by cases h; rfl⟩
      obtain ⟨c2, hrun2, hc2⟩ := hret
      exact ⟨c2, Run.read hlt (Run.next hlt
        (Run.scan_back expression.length isdigit post hdig ds d (i + 1) (hwf.2 d (by simp))
          (fun x hx => hwf.2 x (by simp [hx])) (by omega) hrun2)), hc2⟩
  | .var name, hwf, budget, expression, pre, post, i, out, hexpr, hi, hb, hstop => by
    have hP := Token.parse_text_token char_signed extern_values_ (.var name) hwf budget
      expression pre post i out hexpr hi hb hstop
    obtain ⟨b, rfl⟩ : ∃ b, budget = b + 1 := ⟨budget - 1, by omega⟩
    cases name with
    | nil => simp [Token.wf] at hwf
    | cons d ds =>
      simp only [Token.wf, Bool.and_eq_true, List.all_eq_true] at hwf
      simp only [Token.text, List.length_cons] at hP ⊢
      have hlen : expression.length = i + (ds.length + 1) + post.length := by
        rw [hexpr, hi]; simp [Token.text]; omega
      have hlt : i < expression.length := by omega
      have halpha := stopsToken_isalpha _ hstop
      rw [ParseTokenEvents_var char_signed extern_values_ b expression pre post d ds i out
        hexpr hi hwf.2 hstop, hP]
      have hret : ∃ c2, Run expression.length (i + 1 + ds.length)
          (returned (advance i out (ds.length + 1)
            ((Token.var (d :: ds)).words extern_values_))) c2
          ∧ ∀ q, advance i out (ds.length + 1) ((Token.var (d :: ds)).words extern_values_)
              = .ok q → c2 = q.index_ := by
        rcases (Token.var (d :: ds)).words extern_values_ with err | ws
        · exact ⟨_, Run.done _, fun q h => by cases h⟩
        · simp only [advance, returned]
          exact ⟨_, Run.ret_at (by omega) (by omega), fun q h => by cases h; rfl⟩
      obtain ⟨c2, hrun2, hc2⟩ := hret
      exact ⟨c2, Run.read hlt (Run.next hlt
        (Run.scan_back expression.length isalpha post halpha ds d (i + 1) (hwf.2 d (by simp))
          (fun x hx => hwf.2 x (by simp [hx])) (by omega) hrun2)), hc2⟩
  | .call name args, hwf, budget, expression, pre, post, i, out, hexpr, hi, hb, hstop => by
    have hP := Token.parse_text_token char_signed extern_values_ (.call name args) hwf budget
      expression pre post i out hexpr hi hb hstop
    cases name with
    | nil => simp [Token.wf] at hwf
    | cons d ds =>
      simp only [Token.wf, Bool.and_eq_true, List.all_eq_true] at hwf
      simp only [Token.text, List.length_cons, List.length_append, List.length_nil] at hb hP ⊢
      obtain ⟨b, rfl⟩ : ∃ b, budget = b + 1 := ⟨budget - 1, by omega⟩
      obtain ⟨b2, rfl⟩ : ∃ b2, b = b2 + 1 := ⟨b - 1, by omega⟩
      have hlen : expression.length
          = i + (ds.length + 1 + (args.text.length + 0 + 1 + 1)) + post.length := by
        rw [hexpr, hi]; simp [Token.text]; omega
      have hlt : i < expression.length := by omega
      have hexpr2 : expression = pre ++ ((d :: ds) ++ 40 :: (args.text ++ 41 :: post)) := by
        simp [hexpr, Token.text]
      have hF : ParseFunction char_signed expression extern_values_ (b2 + 1) (d :: ds)
          ⟨i + (d :: ds).length + 1, out⟩
          = advance i out (ds.length + 1 + (args.text.length + 0 + 1 + 1))
              ((Token.call (d :: ds) args).words extern_values_) := by
        rw [← ParseToken_call char_signed extern_values_ (b2 + 1) expression pre
          (args.text ++ 41 :: post) d ds i out hexpr2 hi hwf.1.2, hP]
      obtain ⟨c1, hrun1, hc1⟩ := Arguments.events_text_arguments args hwf.2 b2 expression
        (pre ++ (d :: ds) ++ [40]) post (i + (d :: ds).length + 1) out
        (by simp [hexpr, Token.text]) (by simp [hi]; omega) (by omega)
      rw [ParseTokenEvents_call char_signed extern_values_ (b2 + 1) expression pre
        (args.text ++ 41 :: post) d ds i out hexpr2 hi hwf.1.2, hP, ParseFunctionEvents, hF]
      have hrest : ∃ c2, Run expression.length (i + 1 + ds.length + 1)
          (ParseArgumentsEvents char_signed expression extern_values_ b2
              ⟨i + (d :: ds).length + 1, out⟩
            ++ returned (advance i out (ds.length + 1 + (args.text.length + 0 + 1 + 1))
              ((Token.call (d :: ds) args).words extern_values_))
            ++ returned (advance i out (ds.length + 1 + (args.text.length + 0 + 1 + 1))
              ((Token.call (d :: ds) args).words extern_values_))) c2
          ∧ ∀ q, advance i out (ds.length + 1 + (args.text.length + 0 + 1 + 1))
              ((Token.call (d :: ds) args).words extern_values_) = .ok q → c2 = q.index_ := by
        have hrun1' : Run expression.length (i + 1 + ds.length + 1)
            (ParseArgumentsEvents char_signed expression extern_values_ b2
              ⟨i + (d :: ds).length + 1, out⟩) c1 := by
          have he : i + 1 + ds.length + 1 = i + (d :: ds).length + 1 := by
            simp only [List.length_cons]; omega
          rw [he]; exact hrun1
        rcases hw : (Token.call (d :: ds) args).words extern_values_ with err | ws
        · simp only [advance, returned, List.append_nil]
          exact ⟨c1, hrun1', fun q h => by cases h⟩
        · have haw : ∃ wa, args.words extern_values_ = .ok wa := by
            simp only [Token.words] at hw
            rcases ha : args.words extern_values_ with err | wa
            · rw [ha] at hw; cases hw
            · exact ⟨wa, rfl⟩
          obtain ⟨wa, haw⟩ := haw
          rw [haw] at hc1
          have hc1 := hc1 _ rfl
          simp only [List.length_cons] at hc1
          subst hc1
          simp only [advance, returned]
          exact ⟨_, Run.append (Run.append hrun1' (Run.ret_at (by omega) (by omega)))
            (Run.ret_at rfl (by omega)), fun q h => by cases h; rfl⟩
      obtain ⟨c2, hrun2, hc2⟩ := hrest
      refine ⟨c2, Run.read hlt (Run.next hlt ?_), hc2⟩
      have := Run.scan_open expression.length isalpha 40 (args.text ++ 41 :: post)
        (by simp [isalpha]) ds d (i + 1) (hwf.1.2 d (by simp))
        (fun x hx => hwf.1.2 x (by simp [hx])) (by simp; omega) hrun2
      simpa [List.append_assoc] using this

theorem Arguments.events_text_arguments : ∀ (a : Arguments), a.wf = true →
    ∀ (budget : Nat) (expression pre post : List Nat) (i : Nat) (out : List Nat),
    expression = pre ++ (a.text ++ 41 :: post) → i = pre.length →
    4 * a.text.length + 4 ≤ budget →
    RunsTo expression.length i
      (ParseArgumentsEvents char_signed expression extern_values_ budget ⟨i, out⟩)
      (advance i out (a.text.length + 1) (a.words extern_values_))
  | .nil, _, budget, expression, pre, post, i, out, hexpr, hi, hb => by
    obtain ⟨b, rfl⟩ : ∃ b, budget = b + 1 := ⟨budget - 1, by omega⟩
    have hlen : expression.length = i + 1 + post.length := by
      rw [hexpr, hi]; simp [Arguments.text]; omega
    have hlt : i < expression.length := by omega
    have hread : readAt expression i = 41 := by
      rw [hexpr, hi, readAt_append_length]; simp [Arguments.text]
    rw [ParseArgumentsEvents_close char_signed extern_values_ b expression i out hread]
    simp only [advance, Arguments.words, Arguments.text, List.length_nil, Nat.zero_add]
    exact ⟨_, Run.read hlt (Run.next hlt (Run.done _)), fun q h => by cases h; rfl⟩
  | .cons e .nil, hwf, budget, expression, pre, post, i, out, hexpr, hi, hb => by
    simp only [Arguments.wf, Bool.and_eq_true] at hwf
    simp only [Arguments.text] at hb hexpr ⊢
    obtain ⟨b, rfl⟩ : ∃ b, budget = b + 1 := ⟨budget - 1, by omega⟩
    have hlen : expression.length = i + (e.text.length + 1) + post.length := by
      rw [hexpr, hi]; simp; omega
    have hlt : i < expression.length := by omega
    obtain ⟨c, r, hc, hstart⟩ := Expr.text_head_expr e hwf.1
    have hread : readAt expression i = c := by
      rw [hexpr, hi, readAt_append_length, hc]; rfl
    have hPe := Expr.parse_text_expr char_signed extern_values_ e hwf.1 b expression pre
      (41 :: post) i out hexpr hi (by omega) (show stopsExpr 41 = true by decide)
    obtain ⟨c1, hrun1, hc1⟩ := Expr.events_text_expr e hwf.1 b expression pre
      (41 :: post) i out hexpr hi (by omega) (show stopsExpr 41 = true by decide)
    rw [ParseArgumentsEvents_arg char_signed extern_values_ b expression i out
        (by rw [hread]; exact (startsToken_ne c hstart).1), hPe]
    rcases hf : e.words extern_values_ with err | ws
    · simp only [advance, Arguments.words, hf, List.append_nil]
      exact ⟨c1, Run.read hlt (Run.next hlt (Run.back hlt hrun1)), fun q h => by cases h⟩
    · rw [hf] at hc1
      have hc1 := hc1 _ rfl
      simp only at hc1
      subst hc1
      have hread2 : readAt expression (i + e.text.length) = 41 := by
        rw [hexpr, hi, ← List.append_assoc, ← List.length_append, readAt_append_length]; rfl
      have hlt2 : i + e.text.length < expression.length := by omega
      simp only [advance, Arguments.words, hf, hread2]
      exact ⟨_, Run.read hlt (Run.next hlt (Run.back hlt (Run.append hrun1
        (Run.read hlt2 (Run.next hlt2 (Run.done _)))))),
        fun q h => by cases h; simp only; omega⟩
  | .cons e (.cons e2 rest), hwf, budget, expression, pre, post, i, out, hexpr, hi, hb => by
    simp only [Arguments.wf, Bool.and_eq_true] at hwf
    simp only [Arguments.text, List.length_append, List.length_cons] at hb ⊢
    obtain ⟨b, rfl⟩ : ∃ b, budget = b + 1 := ⟨budget - 1, by omega⟩
    obtain ⟨c, r, hc, hstart⟩ := Expr.text_head_expr e hwf.1
    have hexpr2 : expression
        = pre ++ (e.text ++ 44 :: ((Arguments.cons e2 rest).text ++ 41 :: post)) := by
      simp [hexpr, Arguments.text]
    have hlen : expression.length
        = i + (e.text.length + ((Arguments.cons e2 rest).text.length + 1) + 1)
          + post.length := by
      rw [hexpr2, hi]; simp; omega
    have hlt : i < expression.length := by omega
    have hread : readAt expression i = c := by
      rw [hexpr2, hi, readAt_append_length, hc]; rfl
    have hPe := Expr.parse_text_expr char_signed extern_values_ e hwf.1 b expression pre
      (44 :: ((Arguments.cons e2 rest).text ++ 41 :: post)) i out hexpr2 hi (by omega)
      (show stopsExpr 44 = true by decide)
    obtain ⟨c1, hrun1, hc1⟩ := Expr.events_text_expr e hwf.1 b expression pre
      (44 :: ((Arguments.cons e2 rest).text ++ 41 :: post)) i out hexpr2 hi (by omega)
      (show stopsExpr 44 = true by decide)
    rw [ParseArgumentsEvents_arg char_signed extern_values_ b expression i out
        (by rw [hread]; exact (startsToken_ne c hstart).1), hPe]
    rcases hf : e.words extern_values_ with err | ws
    · simp only [advance, Arguments.words_cons, hf, List.append_nil]
      exact ⟨c1, Run.read hlt (Run.next hlt (Run.back hlt hrun1)), fun q h => by cases h⟩
    · rw [hf] at hc1
      have hc1 := hc1 _ rfl
      simp only at hc1
      subst hc1
      have hread2 : readAt expression (i + e.text.length) = 44 := by
        rw [hexpr2, hi, ← List.append_assoc, ← List.length_append, readAt_append_length]; rfl
      have hlt2 : i + e.text.length < expression.length := by omega
      obtain ⟨c2, hrun2, hc2⟩ := Arguments.events_text_arguments (.cons e2 rest)
        (by simpa [Arguments.wf] using hwf.2) b expression
        (pre ++ e.text ++ [44]) post (i + e.text.length + 1) (out ++ ws)
        (by simp [hexpr2]) (by simp [hi]; omega) (by omega)
      simp only [advance, hread2, if_true]
      rw [Arguments.words_cons extern_values_ e, hf]
      rcases hr : (Arguments.cons e2 rest).words extern_values_ with err | ws2
      · simp only []
        exact ⟨c2, Run.read hlt (Run.next hlt (Run.back hlt (Run.append hrun1
          (Run.read hlt2 (Run.next hlt2 hrun2))))), fun q h => by cases h⟩
      · rw [hr] at hc2
        have hc2 := hc2 _ rfl
        simp only at hc2
        subst hc2
        simp only []
        exact ⟨_, Run.read hlt (Run.next hlt (Run.back hlt (Run.append hrun1
          (Run.read hlt2 (Run.next hlt2 hrun2))))),
          fun q h => by cases h; simp only; omega⟩

end

end EventsOnText2

/-- The bounds of the events of a run. -/
theorem Run.bounds {len c c2 : Nat} {t : List Event} (h : Run len c t c2) :
    (∀ i, .read i ∈ t → i < len) ∧ (∀ i, .look i ∈ t → i ≤ len)
      ∧ (∀ i, .next i ∈ t → i ≤ len + 1) ∧ (∀ i, .back i ∈ t → i ≤ len)
      ∧ (∀ i, .ret i ∈ t → i ≤ len) := by
  induction h with
  | done c => simp
  | read hc _ ih =>
    obtain ⟨h1, h2, h3, h4, h5⟩ := ih
    refine ⟨fun i hi => ?_, fun i hi => ?_, fun i hi => ?_, fun i hi => ?_, fun i hi => ?_⟩
    · simp only [List.mem_cons, Event.read.injEq] at hi
      rcases hi with rfl | hi
      · exact hc
      · exact h1 i hi
    · exact h2 i (by simpa using hi)
    · exact h3 i (by simpa using hi)
    · exact h4 i (by simpa using hi)
    · exact h5 i (by simpa using hi)
  | look hc _ ih =>
    obtain ⟨h1, h2, h3, h4, h5⟩ := ih
    refine ⟨fun i hi => ?_, fun i hi => ?_, fun i hi => ?_, fun i hi => ?_, fun i hi => ?_⟩
    · exact h1 i (by simpa using hi)
    · simp only [List.mem_cons, Event.look.injEq] at hi
      rcases hi with rfl | hi
      · omega
      · exact h2 i hi
    · exact h3 i (by simpa using hi)
    · exact h4 i (by simpa using hi)
    · exact h5 i (by simpa using hi)
  | next hc _ ih =>
    obtain ⟨h1, h2, h3, h4, h5⟩ := ih
    refine ⟨fun i hi => ?_, fun i hi => ?_, fun i hi => ?_, fun i hi => ?_, fun i hi => ?_⟩
    · exact h1 i (by simpa using hi)
    · exact h2 i (by simpa using hi)
    · simp only [List.mem_cons, Event.next.injEq] at hi
      rcases hi with rfl | hi
      · omega
      · exact h3 i hi
    · exact h4 i (by simpa using hi)
    · exact h5 i (by simpa using hi)
  | back hc _ ih =>
    obtain ⟨h1, h2, h3, h4, h5⟩ := ih
    refine ⟨fun i hi => ?_, fun i hi => ?_, fun i hi => ?_, fun i hi => ?_, fun i hi => ?_⟩
    · exact h1 i (by simpa using hi)
    · exact h2 i (by simpa using hi)
    · exact h3 i (by simpa using hi)
    · simp only [List.mem_cons, Event.back.injEq] at hi
      rcases hi with rfl | hi
      · omega
      · exact h4 i hi
    · exact h5 i (by simpa using hi)
  | ret hc _ ih =>
    obtain ⟨h1, h2, h3, h4, h5⟩ := ih
    refine ⟨fun i hi => ?_, fun i hi => ?_, fun i hi => ?_, fun i hi => ?_, fun i hi => ?_⟩
    · exact h1 i (by simpa using hi)
    · exact h2 i (by simpa using hi)
    · exact h3 i (by simpa using hi)
    · exact h4 i (by simpa using hi)
    · simp only [List.mem_cons, Event.ret.injEq] at hi
      rcases hi with rfl | hi
      · exact hc
      · exact h5 i hi
  | sentinel _ ih =>
    obtain ⟨h1, h2, h3, h4, h5⟩ := ih
    refine ⟨fun i hi => ?_, fun i hi => ?_, fun i hi => ?_, fun i hi => ?_, fun i hi => ?_⟩
    · exact h1 i (by simpa using hi)
    · simp only [List.mem_cons, Event.look.injEq, reduceCtorEq, false_or] at hi
      rcases hi with rfl | hi
      · omega
      · exact h2 i hi
    · simp only [List.mem_cons, Event.next.injEq, reduceCtorEq, false_or] at hi
      rcases hi with rfl | hi
      · omega
      · exact h3 i hi
    · simp only [List.mem_cons, Event.back.injEq, reduceCtorEq, false_or] at hi
      rcases hi with rfl | hi
      · omega
      · exact h4 i hi
    · exact h5 i (by simpa using hi)

/-- In a run the cursor is at `len + 1` only after the look-ahead read of a scan at `len`, and
the step back to `len` follows at once. -/
theorem Run.sentinel_only {len c c2 : Nat} {t : List Event} (h : Run len c t c2) :
    ∀ l1 l2, t = l1 ++ .next (len + 1) :: l2 →
      (∃ l0, l1 = l0 ++ [.look len]) ∧ ∃ l3, l2 = .back len :: l3 := by
  induction h with
  | done c =>
    intro l1 l2 h
    cases l1 <;> simp at h
  | read hc _ ih =>
    intro l1 l2 h
    cases l1 with
    | nil => simp at h
    | cons a l1 =>
      simp only [List.cons_append, List.cons.injEq] at h
      obtain ⟨⟨l0, h0⟩, h3⟩ := ih l1 l2 h.2
      exact ⟨⟨a :: l0, by rw [h0]; rfl⟩, h3⟩
  | look hc _ ih =>
    intro l1 l2 h
    cases l1 with
    | nil => simp at h
    | cons a l1 =>
      simp only [List.cons_append, List.cons.injEq] at h
      obtain ⟨⟨l0, h0⟩, h3⟩ := ih l1 l2 h.2
      exact ⟨⟨a :: l0, by rw [h0]; rfl⟩, h3⟩
  | next hc _ ih =>
    intro l1 l2 h
    cases l1 with
    | nil =>
      simp only [List.nil_append, List.cons.injEq, Event.next.injEq] at h
      omega
    | cons a l1 =>
      simp only [List.cons_append, List.cons.injEq] at h
      obtain ⟨⟨l0, h0⟩, h3⟩ := ih l1 l2 h.2
      exact ⟨⟨a :: l0, by rw [h0]; rfl⟩, h3⟩
  | back hc _ ih =>
    intro l1 l2 h
    cases l1 with
    | nil => simp at h
    | cons a l1 =>
      simp only [List.cons_append, List.cons.injEq] at h
      obtain ⟨⟨l0, h0⟩, h3⟩ := ih l1 l2 h.2
      exact ⟨⟨a :: l0, by rw [h0]; rfl⟩, h3⟩
  | ret hc _ ih =>
    intro l1 l2 h
    cases l1 with
    | nil => simp at h
    | cons a l1 =>
      simp only [List.cons_append, List.cons.injEq] at h
      obtain ⟨⟨l0, h0⟩, h3⟩ := ih l1 l2 h.2
      exact ⟨⟨a :: l0, by rw [h0]; rfl⟩, h3⟩
  | @sentinel t c2 _ ih =>
    intro l1 l2 h
    cases l1 with
    | nil => simp at h
    | cons a l1 =>
      simp only [List.cons_append, List.cons.injEq] at h
      obtain ⟨ha, h⟩ := h
      cases l1 with
      | nil =>
        simp only [List.nil_append, List.cons.injEq, true_and] at h
        exact ⟨⟨[], by rw [← ha]; rfl⟩, ⟨t, h.symm⟩⟩
      | cons a2 l1 =>
        simp only [List.cons_append, List.cons.injEq] at h
        obtain ⟨ha2, h⟩ := h
        cases l1 with
        | nil => simp at h
        | cons a3 l1 =>
          simp only [List.cons_append, List.cons.injEq] at h
          obtain ⟨ha3, h⟩ := h
          obtain ⟨⟨l0, h0⟩, h3⟩ := ih l1 l2 h
          exact ⟨⟨a :: a2 :: a3 :: l0, by rw [h0]; rfl⟩, h3⟩

/-- C17: for every well-formed expression of length `len`, the events of parsing it are a run
of the cursor from 0 (every read is at the cursor, `index_++` and `index_--` move it by one);
the cursor never exceeds `len + 1`; it is `len + 1` only right after the look-ahead read at
`len` of a digit or name scan, and the step back to `len` follows at once; it is at most `len`
after every step back and whenever `Parse`, `ParseProduct`, `ParseToken` or `ParseFunction`
returns; and every read of the text is at an index of at most `len`, the look-ahead reads of
the scans alone reaching `len`, the terminator. -/
theorem cursor_bounds (char_signed : Bool) (extern_values_ : List Nat → Option Int)
    (e : Expr) (hwf : e.wf = true) :
    (∃ c2, Run e.text.length 0 (cursorEvents char_signed extern_values_ e.text) c2)
      ∧ (∀ i, .next i ∈ cursorEvents char_signed extern_values_ e.text
            ∨ .back i ∈ cursorEvents char_signed extern_values_ e.text →
          i ≤ e.text.length + 1)
      ∧ (∀ l1 l2, cursorEvents char_signed extern_values_ e.text
            = l1 ++ .next (e.text.length + 1) :: l2 →
          (∃ l0, l1 = l0 ++ [.look e.text.length]) ∧ ∃ l3, l2 = .back e.text.length :: l3)
      ∧ (∀ i, .back i ∈ cursorEvents char_signed extern_values_ e.text → i ≤ e.text.length)
      ∧ (∀ i, .ret i ∈ cursorEvents char_signed extern_values_ e.text → i ≤ e.text.length)
      ∧ (∀ i, .read i ∈ cursorEvents char_signed extern_values_ e.text → i < e.text.length)
      ∧ (∀ i, .look i ∈ cursorEvents char_signed extern_values_ e.text →
          i ≤ e.text.length) := by
  obtain ⟨c2, hrun, _⟩ := Expr.events_text_expr char_signed extern_values_ e hwf
    (parseBudget e.text) e.text [] [] 0 [PushR4LR] (by simp) rfl
    (by unfold parseBudget; omega) (by decide)
  have hrun : Run e.text.length 0 (cursorEvents char_signed extern_values_ e.text) c2 := hrun
  obtain ⟨h1, h2, h3, h4, h5⟩ := hrun.bounds
  refine ⟨⟨c2, hrun⟩, ?_, hrun.sentinel_only, h4, h5, h1, h2⟩
  rintro i (hi | hi)
  · exact h3 i hi
  · have := h4 i hi
    omega

theorem cursor_bounds_witness :
    twoPlusThree.text = bytes "2+3"
      ∧ cursorEvents false noSymbols twoPlusThree.text
        = [.read 0, .next 1, .look 1, .next 2, .back 1, .ret 1, .read 1, .next 2, .back 1,
            .ret 1, .read 1, .next 2, .read 2, .next 3, .look 3, .next 4, .back 3, .ret 3,
            .ret 3, .ret 3]
      ∧ ∀ i, .ret i ∈ cursorEvents false noSymbols twoPlusThree.text →
          i ≤ twoPlusThree.text.length :=
  ⟨by decide!, by decide!, (cursor_bounds false noSymbols twoPlusThree (by decide!)).2.2.2.2.1⟩

end JIT
